import Mathlib

/-!
# aura: safety gate, dependency resolver, termination executor, advisory cache

A shallow embedding of the Go packages `internal/monitor`, `internal/safety`,
`internal/process` and `internal/ai` (cache), followed by theorems about them.

Conventions of the embedding:
* a Go `map[K]V` is a finite association list with pairwise distinct keys
  (`GoMap`); only lookup, assignment, `delete` and `len` are used, and none of
  them depends on the iteration order;
* Go `int`, `time.Time` and `time.Duration` values are mathematical integers
  (durations in nanoseconds, times in nanoseconds since the zero `time.Time`);
* a Go `float64` is a rational number and its arithmetic is exact (`Float64`):
  rounding, infinities and NaN are not modelled, except in the loop bound of
  `Terminate`, an integer that depends on the rounding, where every float64
  operation is rounded to nearest, ties to even (`roundFloat64`);
* a Go `string` is a Lean string, one character standing for one byte;
* interaction with the operating system is an explicit trace of events, the
  answers of the system being a function of the trace so far.
-/

/-! ## Go values -/

/-- A Go `float64`, with exact arithmetic. -/
abbrev Float64 := ℚ

/-- The conversion `int(x)` of a `float64`: truncation toward zero (values
outside the range of `int` are not modelled). -/
def Float64.toInt (x : Float64) : Int := Int.tdiv x.num x.den

/-- Rounding of a rational number to the nearest integer, a tie going to the
even one. -/
def roundHalfEven (x : ℚ) : Int :=
  if x - ⌊x⌋ < 1 / 2 then ⌊x⌋
  else if 1 / 2 < x - ⌊x⌋ then ⌊x⌋ + 1
  else if ⌊x⌋ % 2 = 0 then ⌊x⌋
  else ⌊x⌋ + 1

/-- The `float64` that an operation with exact result `x` yields: `x` rounded
to 53 significant bits, to nearest and ties to even (IEEE 754 binary64; with
`2 ^ e ≤ |x| < 2 ^ (e + 1)` the spacing of the values is `2 ^ (e - 52)`).
Overflow and subnormal values are not modelled; neither occurs in what is
computed from a `time.Duration`. -/
def roundFloat64 (x : ℚ) : Float64 :=
  if x = 0 then 0
  else (roundHalfEven (x / (2 : ℚ) ^ (Int.log 2 |x| - 52)) : ℚ) * (2 : ℚ) ^ (Int.log 2 |x| - 52)

/-! ## package time -/

namespace time

/-- The method `Duration.Seconds` of the Go library: with `sec := d / Second`
and `nsec := d % Second` (both truncated) it returns
`float64(sec) + float64(nsec)/1e9`, each conversion and operation rounded. -/
def Duration.Seconds (d : Int) : Float64 :=
  roundFloat64
    (roundFloat64 ((Int.tdiv d 1000000000 : Int) : ℚ)
      + roundFloat64 (roundFloat64 ((Int.tmod d 1000000000 : Int) : ℚ) / 1000000000))

end time

/-! ## Go maps -/

/-- A Go map: finite association list with pairwise distinct keys. -/
abbrev GoMap (κ : Type) (ν : Type) := AList (fun _ : κ => ν)

namespace GoMap

variable {κ ν : Type} [DecidableEq κ]

/-- The expression `make(map[K]V)`. -/
def empty : GoMap κ ν := ∅

/-- The expression `v, ok := m[k]`. -/
def get? (m : GoMap κ ν) (k : κ) : Option ν := AList.lookup k m

/-- The expression `m[k]`, which yields the zero value of `V` for an absent key. -/
def get (m : GoMap κ ν) (k : κ) (zero : ν) : ν := (AList.lookup k m).getD zero

/-- The statement `m[k] = v`. -/
def set (m : GoMap κ ν) (k : κ) (v : ν) : GoMap κ ν := AList.insert k v m

/-- The statement `delete(m, k)`. -/
def delete (m : GoMap κ ν) (k : κ) : GoMap κ ν := AList.erase k m

/-- The expression `len(m)`. -/
def len (m : GoMap κ ν) : Nat := (AList.keys m).length

theorem get_set (m : GoMap κ ν) (k k' : κ) (v zero : ν) :
    GoMap.get (GoMap.set m k v) k' zero = if k' = k then v else GoMap.get m k' zero := by
  unfold GoMap.get GoMap.set
  by_cases h : k' = k
  · subst h; simp
  · simp [h, AList.lookup_insert_ne h]

theorem get_of_not_mem (m : GoMap κ ν) (k : κ) (zero : ν)
    (h : k ∉ AList.keys m) : GoMap.get m k zero = zero := by
  unfold GoMap.get
  rw [AList.lookup_eq_none.mpr (fun hk => h (AList.mem_keys.mp hk))]
  rfl

end GoMap

/-! ## package monitor: process records -/

namespace monitor

/-- The type `ProcessCategory` is a Go `int`. -/
abbrev ProcessCategory := Int

def CategoryUser : ProcessCategory := 0
def CategorySystem : ProcessCategory := 1
def CategoryKernel : ProcessCategory := 2
def CategoryEssential : ProcessCategory := 3

/-- The struct `ProcessInfo`; every field defaults to its Go zero value, so that
a structure instance reads like a Go composite literal. -/
structure ProcessInfo where
  PID : Int := 0
  Name : String := ""
  User : String := ""
  UID : Int := 0
  CPU : Float64 := 0
  Memory : Float64 := 0
  MemoryMB : Float64 := 0
  IORead : Int := 0
  IOWrite : Int := 0
  State : String := ""
  PPid : Int := 0
  Cmdline : String := ""
  StartTime : Int := 0
  Category : ProcessCategory := 0
  CPUTrend : Float64 := 0
  MemoryTrend : Float64 := 0
  prevUtime : Nat := 0
  prevStime : Nat := 0
  lastScan : Int := 0

end monitor

/-! ## package safety -/

namespace safety

open monitor

/-- The struct `ConsentManager` (the lock is not modelled). -/
structure ConsentManager where
  level : Int

/-- The function `NewConsentManager`. -/
def NewConsentManager (level : Int) : ConsentManager :=
  let level := if level < 0 then 0 else level
  let level := if level > 3 then 3 else level
  { level := level }

/-- The struct `safety.Manager` (the lock is not modelled). -/
structure Manager where
  protectedProcs : GoMap String Bool
  neverTerminate : GoMap String Bool
  consentMgr : ConsentManager

/-- The loop `for _, n := range names { m[n] = true }` on a fresh map. -/
def nameSet (names : List String) : GoMap String Bool :=
  names.foldl (fun m n => GoMap.set m n true) GoMap.empty

/-- The function `safety.NewManager`. -/
def NewManager (protectedNames neverTermNames : List String) (consentLevel : Int) : Manager :=
  { protectedProcs := nameSet protectedNames
    neverTerminate := nameSet neverTermNames
    consentMgr := NewConsentManager consentLevel }

/-- The method `Manager.IsProtected`. -/
def Manager.IsProtected (m : Manager) (proc : ProcessInfo) : Bool :=
  if proc.PID ≤ 2 then true
  else if proc.Category = CategoryKernel then true
  else if GoMap.get m.neverTerminate proc.Name false then true
  else if GoMap.get m.protectedProcs proc.Name false then true
  else false

/-- The method `Manager.ValidateTermination`: the pair `(allowed, reason)`. -/
def Manager.ValidateTermination (m : Manager) (proc : ProcessInfo) : Bool × String :=
  if proc.PID ≤ 2 then
    (false, "PID " ++ toString proc.PID ++ " is a critical system process")
  else if proc.Category = CategoryKernel then
    (false, "process '" ++ proc.Name ++ "' is a kernel thread")
  else if GoMap.get m.neverTerminate proc.Name false then
    (false, "process '" ++ proc.Name ++ "' is on the never-terminate list")
  else if GoMap.get m.protectedProcs proc.Name false then
    (false, "process '" ++ proc.Name ++ "' is protected")
  else
    (true, "termination allowed")

/-- The precedence table of the safety gate as the specification words it, over
the two name lists the manager is built from. -/
def validateTerminationRules (P N : List String) (p : ProcessInfo) : Bool × String :=
  if p.PID ≤ 2 then
    (false, "PID " ++ toString p.PID ++ " is a critical system process")
  else if p.Category = CategoryKernel then
    (false, "process '" ++ p.Name ++ "' is a kernel thread")
  else if p.Name ∈ N then
    (false, "process '" ++ p.Name ++ "' is on the never-terminate list")
  else if p.Name ∈ P then
    (false, "process '" ++ p.Name ++ "' is protected")
  else
    (true, "termination allowed")

end safety

/-! ## package process: the termination executor -/

namespace process

open monitor

/-- The signals the executor sends; `probe` is `syscall.Signal(0)`. -/
inductive Signal where
  | SIGKILL
  | SIGTERM
  | probe
  deriving DecidableEq, Repr

/-- What the executor does to the outside world. -/
inductive Event where
  | signal (pid : Int) (sig : Signal)
  | sleep (milliseconds : Nat)
  deriving DecidableEq, Repr

/-- The operating system as seen by the executor: whether `os.FindProcess`
and `proc.Signal` fail (`some err`) or succeed (`none`), given the events so far. -/
structure OS where
  findProcess : List Event → Int → Option String
  deliver : List Event → Int → Signal → Option String

/-- The struct `process.Manager`; `timeout` is a `time.Duration` in nanoseconds. -/
structure Manager where
  safetyMgr : safety.Manager
  timeout : Int

/-- The loop bound `int(m.timeout.Seconds()*10)`, computed in `float64` as
the code does: `Seconds()` and the product are rounded, the conversion
truncates. A negative bound runs the loop zero times. -/
def probeCount (timeout : Int) : Nat :=
  (Float64.toInt (roundFloat64 (time.Duration.Seconds timeout * 10))).toNat

/-- The body of the goroutine of `Terminate`: up to `n` liveness probes
100 ms apart, then SIGKILL, whose result is discarded. -/
def waitLoop (os : OS) (pid : Int) : Nat → List Event → List Event
  | 0, tr => tr ++ [Event.signal pid Signal.SIGKILL]
  | n + 1, tr =>
    match os.deliver tr pid Signal.probe with
    | some _ => tr ++ [Event.signal pid Signal.probe]
    | none => waitLoop os pid n (tr ++ [Event.signal pid Signal.probe, Event.sleep 100])

/-- The method `Manager.Terminate`: the error (`none` is `nil`) and the trace
of events afterwards. -/
def Manager.Terminate (os : OS) (m : Manager) (pid : Int) (force : Bool)
    (tr : List Event) : Option String × List Event :=
  match os.findProcess tr pid with
  | some err => (some ("finding process " ++ toString pid ++ ": " ++ err), tr)
  | none =>
    if force then
      match os.deliver tr pid Signal.SIGKILL with
      | some err =>
        (some ("sending SIGKILL to " ++ toString pid ++ ": " ++ err),
          tr ++ [Event.signal pid Signal.SIGKILL])
      | none => (none, tr ++ [Event.signal pid Signal.SIGKILL])
    else
      match os.deliver tr pid Signal.SIGTERM with
      | some err =>
        (some ("sending SIGTERM to " ++ toString pid ++ ": " ++ err),
          tr ++ [Event.signal pid Signal.SIGTERM])
      | none =>
        (none, waitLoop os pid (probeCount m.timeout) (tr ++ [Event.signal pid Signal.SIGTERM]))

/-- The method `Manager.SafeTerminate`. -/
def Manager.SafeTerminate (os : OS) (m : Manager) (procInfo : ProcessInfo) (force : Bool)
    (tr : List Event) : Option String × List Event :=
  let r := m.safetyMgr.ValidateTermination procInfo
  if !r.1 then (some ("termination blocked: " ++ r.2), tr)
  else m.Terminate os procInfo.PID force tr

end process

/-! ## package process: the dependency resolver -/

namespace process

open monitor

/-- The struct `DependencyTree`. -/
structure DependencyTree where
  children : GoMap Int (List Int)
  parents : GoMap Int Int

/-- The function `BuildDependencyTree`. -/
def BuildDependencyTree (procs : List ProcessInfo) : DependencyTree :=
  procs.foldl
    (fun dt p =>
      { parents := GoMap.set dt.parents p.PID p.PPid
        children := GoMap.set dt.children p.PPid (GoMap.get dt.children p.PPid [] ++ [p.PID]) })
    { children := GoMap.empty, parents := GoMap.empty }

/-- The method `DependencyTree.ChildrenOf` (a nil slice is the empty list). -/
def DependencyTree.ChildrenOf (dt : DependencyTree) (pid : Int) : List Int :=
  GoMap.get dt.children pid []

/-- The number of queue slots that the keys not yet visited can still add:
the measure under which the traversal loop terminates. -/
def pendingSlots (children : GoMap Int (List Int)) (visited : GoMap Int Bool) : Nat :=
  (((AList.keys children).filter (fun k => !(GoMap.get visited k false))).map
    (fun k => (GoMap.get children k []).length)).sum

theorem pendingSlots_aux (f : Int → Nat) (v : Int → Bool) (c : Int) (hc : v c = false)
    (l : List Int) :
    ((l.filter (fun k => !(if k = c then true else v k))).map f).sum
      + (if c ∈ l then f c else 0)
      ≤ ((l.filter (fun k => !(v k))).map f).sum := by
  induction l with
  | nil => simp
  | cons a t ih =>
    have hle : ((t.filter (fun k => !(if k = c then true else v k))).map f).sum
        ≤ ((t.filter (fun k => !(v k))).map f).sum := le_trans (Nat.le_add_right _ _) ih
    by_cases hac : a = c
    · subst hac
      rw [List.filter_cons_of_neg (by simp), List.filter_cons_of_pos (by simp [hc])]
      simp only [List.mem_cons, true_or, if_true, List.map_cons, List.sum_cons]
      omega
    · have hca : ¬ c = a := fun h => hac h.symm
      have hmem : (if c ∈ a :: t then f c else 0) = (if c ∈ t then f c else 0) := by
        simp [hca]
      rw [hmem]
      cases hv : v a
      · rw [List.filter_cons_of_pos (by simp [hac, hv]), List.filter_cons_of_pos (by simp [hv])]
        simp only [List.map_cons, List.sum_cons]
        omega
      · rw [List.filter_cons_of_neg (by simp [hac, hv]), List.filter_cons_of_neg (by simp [hv])]
        exact ih

theorem pendingSlots_set (children : GoMap Int (List Int)) (visited : GoMap Int Bool)
    (child : Int) (h : GoMap.get visited child false = false) :
    pendingSlots children (GoMap.set visited child true)
      + (GoMap.get children child []).length ≤ pendingSlots children visited := by
  have key := pendingSlots_aux (fun k => (GoMap.get children k []).length)
    (fun k => GoMap.get visited k false) child h (AList.keys children)
  unfold pendingSlots
  simp only [GoMap.get_set]
  by_cases hm : child ∈ AList.keys children
  · simpa [hm] using key
  · rw [GoMap.get_of_not_mem children child [] hm]
    simpa [hm] using key

/-- The loop of `AllDescendants`: `queue`, `visited` and `result` are the
three local variables; the value is `result` when the queue is empty. -/
def descendantsLoop (children : GoMap Int (List Int)) :
    List Int → GoMap Int Bool → List Int → List Int
  | [], _, result => result
  | child :: queue, visited, result =>
    match _h : GoMap.get visited child false with
    | true => descendantsLoop children queue visited result
    | false =>
      descendantsLoop children (queue ++ GoMap.get children child [])
        (GoMap.set visited child true) (result ++ [child])
termination_by queue visited _ => queue.length + pendingSlots children visited
decreasing_by
  · simp
  · have := pendingSlots_set children visited child (by assumption)
    simp only [List.length_append, List.length_cons]
    omega

/-- The loop of `AllDescendants` cut off after `fuel` iterations: a companion
of `descendantsLoop` that evaluates by structural recursion on concrete inputs. -/
def descendantsFuel (children : GoMap Int (List Int)) :
    Nat → List Int → GoMap Int Bool → List Int → Option (List Int)
  | _, [], _, result => some result
  | 0, _ :: _, _, _ => none
  | fuel + 1, child :: queue, visited, result =>
    if GoMap.get visited child false = true then
      descendantsFuel children fuel queue visited result
    else
      descendantsFuel children fuel (queue ++ GoMap.get children child [])
        (GoMap.set visited child true) (result ++ [child])

/-- The method `DependencyTree.AllDescendants`. -/
def DependencyTree.AllDescendants (dt : DependencyTree) (pid : Int) : List Int :=
  descendantsLoop dt.children (GoMap.get dt.children pid [])
    (GoMap.set GoMap.empty pid true) []

/-- The method `DependencyTree.SafeTerminationOrder`: a slice of
`len(descendants)+1` zeros, filled from the back by the loop, then `pid` in
the last slot. -/
def DependencyTree.SafeTerminationOrder (dt : DependencyTree) (pid : Int) : List Int :=
  let descendants := dt.AllDescendants pid
  let result := List.replicate (descendants.length + 1) (0 : Int)
  let result := descendants.enum.foldl
    (fun res x => res.set (descendants.length - 1 - x.1) x.2) result
  result.set descendants.length pid

/-- The method `DependencyTree.ParentOf`. -/
def DependencyTree.ParentOf (dt : DependencyTree) (pid : Int) : Int :=
  GoMap.get dt.parents pid 0

/-- The method `DependencyTree.WouldOrphan`. -/
def DependencyTree.WouldOrphan (dt : DependencyTree) (pid : Int) : List Int :=
  GoMap.get dt.children pid []

/-- A parent-to-child link of the children map: `b` is listed under `a`. -/
def DependencyTree.Link (dt : DependencyTree) (a b : Int) : Prop :=
  b ∈ dt.ChildrenOf a

/-- The pid `q` is reached from `pid` by one or more parent-to-child links. -/
def DependencyTree.Reaches (dt : DependencyTree) (pid q : Int) : Prop :=
  Relation.TransGen dt.Link pid q

/-- Children before parents: every listed pid `q` occurs after every listed
pid of a record of `procs` whose parent pid is `q`. -/
def ChildrenBeforeParents (procs : List ProcessInfo) (order : List Int) : Prop :=
  ∀ q ∈ order, ∀ r ∈ procs, r.PPid = q → r.PID ∈ order → [r.PID, q].Sublist order

/-- The method `Manager.Children`. -/
def Manager.Children (_m : Manager) (pid : Int) (allProcs : List ProcessInfo) : List Int :=
  allProcs.foldl (fun children p => if p.PPid = pid then children ++ [p.PID] else children) []

end process

/-! ## package ai: the advisory cache -/

namespace ai

/-- The struct `DecisionResponse`; `Action` is a Go string type and
`Timestamp` a `time.Time`. -/
structure DecisionResponse where
  ProcessPID : Int := 0
  ProcessName : String := ""
  Action : String := ""
  Confidence : Float64 := 0
  Reason : String := ""
  RiskScore : Float64 := 0
  SavingsWatt : Float64 := 0
  Timestamp : Int := 0
  FromCache : Bool := false

/-- The struct `cacheEntry`; the pointer `response` is modelled by the value it
points to. -/
structure cacheEntry where
  response : DecisionResponse
  createdAt : Int

/-- The struct `Cache` (the lock is not modelled: calls run one after another). -/
structure Cache where
  entries : GoMap String cacheEntry
  order : List String
  maxSize : Int
  ttl : Int

/-- The function `NewCache`. -/
def NewCache (maxSize : Int) (ttl : Int) : Cache :=
  { entries := GoMap.empty, order := [], maxSize := maxSize, ttl := ttl }

/-- The method `Cache.removeFromOrder` on the slice `c.order`: the first
occurrence of `key` is cut out. -/
def removeFromOrder : List String → String → List String
  | [], _ => []
  | k :: rest, key => if k = key then rest else k :: removeFromOrder rest key

/-- The method `Cache.Get` at time `now`: the returned response (`none` is
the miss `nil, false`) and the cache afterwards. -/
def Cache.Get (c : Cache) (signature : String) (now : Int) : Option DecisionResponse × Cache :=
  match GoMap.get? c.entries signature with
  | none => (none, c)
  | some entry =>
    if now - entry.createdAt > c.ttl then
      (none, { c with
        entries := GoMap.delete c.entries signature
        order := removeFromOrder c.order signature })
    else
      (some { entry.response with FromCache := true },
        { c with order := removeFromOrder c.order signature ++ [signature] })

/-- The eviction loop of `Cache.Put`:
`for len(c.entries) >= c.maxSize && len(c.order) > 0`. -/
def evictLoop (maxSize : Int) :
    GoMap String cacheEntry → List String → GoMap String cacheEntry × List String
  | entries, [] => (entries, [])
  | entries, oldest :: rest =>
    if (GoMap.len entries : Int) ≥ maxSize then
      evictLoop maxSize (GoMap.delete entries oldest) rest
    else (entries, oldest :: rest)

/-- The method `Cache.Put` at time `now`. -/
def Cache.Put (c : Cache) (signature : String) (response : DecisionResponse) (now : Int) :
    Cache :=
  let evicted := evictLoop c.maxSize c.entries c.order
  { c with
    entries := GoMap.set evicted.1 signature { response := response, createdAt := now }
    order := removeFromOrder evicted.2 signature ++ [signature] }

/-- The method `Cache.Size`. -/
def Cache.Size (c : Cache) : Nat := GoMap.len c.entries

/-- The method `Cache.Clear`. -/
def Cache.Clear (c : Cache) : Cache :=
  { c with entries := GoMap.empty, order := [] }

/-- The representation invariant of the cache: the recency order lists no key
twice and lists exactly the keys of the entry map. -/
def Consistent (entries : GoMap String cacheEntry) (order : List String) : Prop :=
  order.Nodup ∧ ∀ k, k ∈ order ↔ k ∈ AList.keys entries

/-- One call on a cache, with the clock reading at the call. -/
inductive Call where
  | put (signature : String) (response : DecisionResponse) (now : Int)
  | get (signature : String) (now : Int)
  | clear

/-- The cache after one call. -/
def Cache.step (c : Cache) : Call → Cache
  | Call.put k r now => c.Put k r now
  | Call.get k now => (c.Get k now).2
  | Call.clear => c.Clear

/-- The cache after a sequence of calls executed one after another. -/
def Cache.run (c : Cache) (calls : List Call) : Cache :=
  calls.foldl Cache.step c

/-- The entry map and the recency order hold exactly the puts `ps` (key,
response, time of the put), least recently used first. -/
def Holds (entries : GoMap String cacheEntry) (order : List String)
    (ps : List (String × DecisionResponse × Int)) : Prop :=
  order = ps.map (fun x => x.1)
  ∧ (∀ k, k ∈ AList.keys entries ↔ k ∈ ps.map (fun x => x.1))
  ∧ ∀ x ∈ ps, GoMap.get? entries x.1 = some { response := x.2.1, createdAt := x.2.2 }

/-- The call `Put(key, response)` made at the given time. -/
def putCall (x : String × DecisionResponse × Int) : Call :=
  Call.put x.1 x.2.1 x.2.2

end ai

/-! ## package safety: the consent policy -/

namespace safety

open monitor

def ConsentAutomatic : Int := 0
def ConsentNotifySystem : Int := 1
def ConsentConfirmAll : Int := 2
def ConsentMonitorOnly : Int := 3

/-- The method `ConsentManager.Level`. -/
def ConsentManager.Level (c : ConsentManager) : Int := c.level

/-- The method `ConsentManager.SetLevel`. -/
def ConsentManager.SetLevel (c : ConsentManager) (level : Int) : ConsentManager :=
  let level := if level < 0 then 0 else level
  let level := if level > 3 then 3 else level
  { c with level := level }

/-- The method `ConsentManager.NeedsConfirmation`: the `switch` on the level. -/
def ConsentManager.NeedsConfirmation (c : ConsentManager) (proc : ProcessInfo) : Bool :=
  if c.level = ConsentAutomatic then false
  else if c.level = ConsentNotifySystem then
    decide (proc.Category = CategorySystem) || decide (proc.Category = CategoryEssential)
  else if c.level = ConsentConfirmAll then true
  else if c.level = ConsentMonitorOnly then true
  else true

/-- The method `Manager.ConsentLevel`. -/
def Manager.ConsentLevel (m : Manager) : Int := m.consentMgr.Level

/-- The method `Manager.SetConsentLevel`. -/
def Manager.SetConsentLevel (m : Manager) (level : Int) : Manager :=
  { m with consentMgr := m.consentMgr.SetLevel level }

/-- The method `Manager.NeedsConfirmation`. -/
def Manager.NeedsConfirmation (m : Manager) (proc : ProcessInfo) : Bool :=
  m.consentMgr.NeedsConfirmation proc

/-- The method `Manager.IsMonitorOnly`. -/
def Manager.IsMonitorOnly (m : Manager) : Bool :=
  decide (m.consentMgr.Level = ConsentMonitorOnly)

end safety

/-! ## package process: the shape of a graceful wait -/

namespace process

/-- The events of `k` rounds of the wait loop: a liveness probe of `pid`
followed by a sleep of 100 ms, `k` times. -/
def probeRounds (pid : Int) (k : Nat) : List Event :=
  (List.replicate k [Event.signal pid Signal.probe, Event.sleep 100]).flatten

end process

/-! ## package monitor: the classifier -/

namespace strings

/-- The function `strings.HasPrefix`. -/
def HasPrefix (s : String) (pre : String) : Bool := pre.data.isPrefixOf s.data

/-- The function `strings.HasSuffix`. -/
def HasSuffix (s : String) (suf : String) : Bool := suf.data.isSuffixOf s.data

end strings

namespace monitor

/-- The keys of the map literal `knownSystemDaemons`. -/
def knownSystemDaemonNames : List String :=
  ["systemd", "init", "rsyslogd", "syslogd", "journald", "udevd", "dbus-daemon", "polkitd",
    "accounts-daemon", "cron", "atd", "acpid", "thermald", "irqbalance", "snapd",
    "packagekitd", "udisksd", "colord", "cupsd", "avahi-daemon", "bluetoothd",
    "wpa_supplicant", "dhclient", "NetworkManager", "ModemManager"]

/-- The package variable `knownSystemDaemons`: every listed name maps to `true`. -/
def knownSystemDaemons : GoMap String Bool :=
  knownSystemDaemonNames.foldl (fun m n => GoMap.set m n true) GoMap.empty

/-- The struct `Classifier`. -/
structure Classifier where
  protectedNames : GoMap String Bool

/-- The function `NewClassifier`. -/
def NewClassifier (protectedNames : List String) : Classifier :=
  { protectedNames := protectedNames.foldl (fun m n => GoMap.set m n true) GoMap.empty }

/-- The method `Classifier.Classify`. -/
def Classifier.Classify (c : Classifier) (p : ProcessInfo) : ProcessCategory :=
  if p.PID ≤ 2 ∨ p.PPid = 2 then CategoryKernel
  else if p.Cmdline = ""
      ∨ ( strings.HasPrefix p.Cmdline "[" = true ∧ strings.HasSuffix p.Cmdline "]" = true) then
    CategoryKernel
  else if GoMap.get c.protectedNames p.Name false = true then CategoryEssential
  else if p.UID = 0 ∨ GoMap.get knownSystemDaemons p.Name false = true then CategorySystem
  else CategoryUser

/-- The rule table of the classifier as the specification words it, over the
protected-name list `P`: first match wins. -/
def classifyRules (P : List String) (p : ProcessInfo) : ProcessCategory :=
  if p.PID ≤ 2 ∨ p.PPid = 2 then CategoryKernel
  else if p.Cmdline = ""
      ∨ (p.Cmdline.data.head? = some '[' ∧ p.Cmdline.data.getLast? = some ']') then
    CategoryKernel
  else if p.Name ∈ P then CategoryEssential
  else if p.UID = 0 ∨ p.Name ∈ knownSystemDaemonNames then CategorySystem
  else CategoryUser

end monitor

/-! ## package ai: the process fingerprint -/

namespace monitor

/-- The method `ProcessCategory.String`. -/
def ProcessCategory.String (c : ProcessCategory) : String :=
  if c = CategoryUser then "User"
  else if c = CategorySystem then "System"
  else if c = CategoryKernel then "Kernel"
  else if c = CategoryEssential then "Essential"
  else "Unknown"

end monitor

namespace ai

open monitor

/-- One lower-case hexadecimal digit. -/
def hexDigit (n : Nat) : Char := "0123456789abcdef".data.getD n '0'

/-- The verb `%x` on a byte slice: two lower-case hexadecimal digits per byte. -/
def hexString (bytes : List Nat) : String :=
  String.mk (bytes.flatMap (fun b => [hexDigit (b / 16 % 16), hexDigit (b % 16)]))

/-- The local variable `raw` of `ProcessSignature`: the string that is hashed. -/
def signatureInput (proc : ProcessInfo) : String :=
  let cpuBucket := Float64.toInt (proc.CPU / 5) * 5
  let memBucket := Float64.toInt (proc.Memory / 5) * 5
  proc.Name ++ "|" ++ proc.User ++ "|" ++ toString cpuBucket ++ "|" ++ toString memBucket
    ++ "|" ++ ProcessCategory.String proc.Category

/-- The function `ProcessSignature`; the library function `sha256.Sum256`, which
maps the bytes of a string to 32 bytes, is the parameter `Sum256`. -/
def ProcessSignature (Sum256 : String → List Nat) (proc : ProcessInfo) : String :=
  hexString ((Sum256 (signatureInput proc)).take 8)

end ai

/-! ## Go library functions used by the scanner

Strings are read as byte sequences, one character per byte. The functions
below follow the documented behaviour of the Go library on such strings;
`strings.Fields` is modelled for the ASCII white space bytes only. -/

namespace strings

/-- The function `strings.IndexByte`: the first index of `c`, or -1. -/
def IndexByte (s : List Char) (c : Char) : Int :=
  if c ∈ s then (s.indexOf c : Int) else -1

/-- The function `strings.LastIndexByte`: the last index of `c`, or -1. -/
def LastIndexByte (s : List Char) (c : Char) : Int :=
  if c ∈ s then (s.length : Int) - 1 - (s.reverse.indexOf c : Int) else -1

/-- The ASCII white space bytes: tab, line feed, vertical tab, form feed,
carriage return and blank. -/
def isSpace (c : Char) : Bool :=
  c.toNat = 9 || c.toNat = 10 || c.toNat = 11 || c.toNat = 12 || c.toNat = 13 || c.toNat = 32

/-- The function `strings.Fields`: the maximal runs of bytes that are not
white space. -/
def Fields (s : List Char) : List String :=
  ((s.splitOnP isSpace).filter (fun piece => !piece.isEmpty)).map String.mk

/-- The function `strings.Split(s, "\n")`. -/
def SplitLines (s : List Char) : List (List Char) :=
  s.splitOnP (fun c => c.toNat = 10)

end strings

/-- The slice expression `s[lo:hi]` on a string: `none` is the run-time panic
"slice bounds out of range". -/
def goSlice (s : List Char) (lo hi : Int) : Option (List Char) :=
  if 0 ≤ lo ∧ lo ≤ hi ∧ hi ≤ (s.length : Int) then
    some ((s.drop lo.toNat).take (hi - lo).toNat)
  else none

namespace strconv

/-- The two kinds of `*NumError`. -/
inductive NumError where
  | invalid
  | outOfRange
  deriving DecidableEq, Repr

/-- The digit loop of `ParseUint(s, 10, 64)`: `n` is the value so far. -/
def parseUintLoop : List Char → Nat → Nat × Option NumError
  | [], n => (n, none)
  | c :: rest, n =>
    if 48 ≤ c.toNat ∧ c.toNat ≤ 57 then
      if n ≥ 18446744073709551615 / 10 + 1 then (18446744073709551615, some NumError.outOfRange)
      else if n * 10 + (c.toNat - 48) > 18446744073709551615 then
        (18446744073709551615, some NumError.outOfRange)
      else parseUintLoop rest (n * 10 + (c.toNat - 48))
    else (0, some NumError.invalid)

/-- The function `strconv.ParseUint(s, 10, 64)`: value and error. -/
def ParseUint (s : List Char) : Nat × Option NumError :=
  if s = [] then (0, some NumError.invalid) else parseUintLoop s 0

/-- The function `strconv.Atoi` on a 64-bit platform: value and error. -/
def Atoi (s : List Char) : Int × Option NumError :=
  if s = [] then (0, some NumError.invalid)
  else
    let neg := s.head? = some '-'
    let digits := if s.head? = some '+' ∨ s.head? = some '-' then s.tail else s
    let r := ParseUint digits
    if r.2 = some NumError.invalid then (0, some NumError.invalid)
    else if ¬ neg ∧ r.1 ≥ 9223372036854775808 then
      (9223372036854775807, some NumError.outOfRange)
    else if neg ∧ r.1 > 9223372036854775808 then
      (-9223372036854775808, some NumError.outOfRange)
    else (if neg then -(r.1 : Int) else (r.1 : Int), none)

end strconv

/-! ## package monitor: the telemetry scanner -/

namespace monitor

/-- What a call leaves behind: a normal return with a nil error, a return with
an error (the value is the state at the return), or a run-time panic. -/
inductive Outcome (α : Type) where
  | ok (value : α)
  | error (value : α) (msg : String)
  | panic (msg : String)

/-- The loop of `getBootTime` over the lines of `/proc/stat`. -/
def bootTimeLoop : List (List Char) → Outcome Nat
  | [] => Outcome.ok 0
  | line :: rest =>
    if "btime ".data.isPrefixOf line then
      match ( strings.Fields line)[1]? with
      | some field => Outcome.ok (strconv.ParseUint field.data).1
      | none => Outcome.panic "index out of range"
    else bootTimeLoop rest

/-- The function `getBootTime`; `procStat` is what reading `/proc/stat`
yields, `none` being a read error. -/
def getBootTime (procStat : Option String) : Outcome Nat :=
  match procStat with
  | none => Outcome.ok 0
  | some data => bootTimeLoop ( strings.SplitLines data.data)

/-- The conversion `int64(u)` of a `uint64`. -/
def toInt64 (u : Nat) : Int :=
  if u % 18446744073709551616 < 9223372036854775808 then (u % 18446744073709551616 : Nat)
  else ((u % 18446744073709551616 : Nat) : Int) - 18446744073709551616

/-- The call `time.Unix(sec, 0)`, in nanoseconds since the zero `time.Time`. -/
def timeUnix (sec : Int) : Int := (sec + 62135596800) * 1000000000

/-- The difference `a - b` of two `uint64` values, taken modulo 2^64. -/
def subUint64 (a b : Nat) : Nat := (((a : Int) - (b : Int)) % 18446744073709551616).toNat

/-- The CPU percentage assignment of `parseStat`, with `clkTck = 100` and
`elapsed` in seconds. -/
def cpuPercent (utime stime prevUtime prevStime : Nat) (elapsed : Float64) : Float64 :=
  (((subUint64 utime prevUtime : Float64) + (subUint64 stime prevStime : Float64)) / 100)
    / elapsed * 100

/-- The part of `parseStat` from the jiffies on: start time, CPU percentage
and the stored counters. `fields` holds at least 20 entries. -/
def applyStat (p : ProcessInfo) (f0 f1 f11 f12 f19 : String) (bootTime : Nat) (now : Int) :
    ProcessInfo :=
  let ppid := (strconv.Atoi f1.data).1
  let utime := (strconv.ParseUint f11.data).1
  let stime := (strconv.ParseUint f12.data).1
  let starttime := (strconv.ParseUint f19.data).1
  let p := { p with
    State := f0
    PPid := ppid
    StartTime := timeUnix (toInt64 ((bootTime + starttime / 100) % 18446744073709551616)) }
  let p :=
    if p.lastScan ≠ 0 then
      let elapsed : Float64 := ((now - p.lastScan : Int) : Float64) / 1000000000
      if elapsed > 0 then { p with CPU := cpuPercent utime stime p.prevUtime p.prevStime elapsed }
      else p
    else p
  { p with prevUtime := utime, prevStime := stime, lastScan := now }

/-- The method `ProcessInfo.parseStat`. The arguments `file` and `procStat`
are what reading `/proc/<pid>/stat` and `/proc/stat` yields (`none` is a read
error) and `now` is the reading of the clock. -/
def ProcessInfo.parseStat (p : ProcessInfo) (file : Option String) (procStat : Option String)
    (now : Int) : Outcome ProcessInfo :=
  match file with
  | none => Outcome.error p "read error"
  | some content =>
    let nameStart := strings.IndexByte content.data '('
    let nameEnd := strings.LastIndexByte content.data ')'
    if nameStart < 0 ∨ nameEnd < 0 ∨ nameEnd ≤ nameStart then
      Outcome.error p ("invalid stat format for pid " ++ toString p.PID)
    else
      match goSlice content.data (nameStart + 1) nameEnd with
      | none => Outcome.panic "slice bounds out of range"
      | some name =>
        let p := { p with Name := String.mk name }
        match goSlice content.data (nameEnd + 2) content.data.length with
        | none => Outcome.panic "slice bounds out of range"
        | some tail =>
          let fields := strings.Fields tail
          if fields.length < 20 then
            Outcome.error p ("insufficient stat fields for pid " ++ toString p.PID)
          else
            match fields[0]?, fields[1]?, fields[11]?, fields[12]?, fields[19]? with
            | some f0, some f1, some f11, some f12, some f19 =>
              match getBootTime procStat with
              | Outcome.ok bootTime => Outcome.ok (applyStat p f0 f1 f11 f12 f19 bootTime now)
              | Outcome.error _ msg => Outcome.panic msg
              | Outcome.panic msg => Outcome.panic msg
            | _, _, _, _, _ => Outcome.panic "index out of range"

/-- What the steps `parseStatus`, `parseCmdline`, `parseIO` and `resolveUser`
leave in the fields they write; they read and write no other field apart from
`Name` and `UID`, which they read. -/
structure ProcDetails where
  UID : Int := 0
  MemoryMB : Float64 := 0
  Memory : Float64 := 0
  Cmdline : String := ""
  IORead : Int := 0
  IOWrite : Int := 0
  User : String := ""

/-- What the file system and the clock show while one directory entry of
`/proc` is processed: the entry itself, the two readings of the stat file
(the second one for the re-parse) with the clock and `/proc/stat` at each, and
the details of the other files. -/
structure ScanEntry where
  name : String
  isDir : Bool := true
  stat : Option String := none
  procStat : Option String := none
  now : Int := 0
  details : ProcDetails := {}
  statAgain : Option String := none
  procStatAgain : Option String := none
  nowAgain : Int := 0

/-- The function `parseProcessInfo`, on the part of the environment read while
the entry is processed. -/
def parseProcessInfo (pid : Int) (e : ScanEntry) : Outcome ProcessInfo :=
  match ProcessInfo.parseStat { PID := pid } e.stat e.procStat e.now with
  | Outcome.error p msg =>
    Outcome.error p ("parsing stat for pid " ++ toString pid ++ ": " ++ msg)
  | Outcome.panic msg => Outcome.panic msg
  | Outcome.ok proc =>
    Outcome.ok { proc with
      UID := e.details.UID
      MemoryMB := e.details.MemoryMB
      Memory := e.details.Memory
      Cmdline := e.details.Cmdline
      IORead := e.details.IORead
      IOWrite := e.details.IOWrite
      User := e.details.User }

/-- The struct `SystemMetrics`; `Uptime` is a `time.Duration`. -/
structure SystemMetrics where
  TotalCPU : Float64 := 0
  TotalMemory : Float64 := 0
  TotalMemMB : Float64 := 0
  FreeMemMB : Float64 := 0
  LoadAvg1 : Float64 := 0
  LoadAvg5 : Float64 := 0
  LoadAvg15 : Float64 := 0
  NumProcs : Int := 0
  Uptime : Int := 0

/-- The struct `ProcessMonitor`. The lock is not modelled; whether a callback
is registered (`onUpdate`) is an argument of `scanObserved`. -/
structure ProcessMonitor where
  processes : GoMap Int ProcessInfo
  classifier : Classifier
  scanInterval : Int
  historySize : Int
  metrics : SystemMetrics
  prevProcs : GoMap Int ProcessInfo

/-- The function `NewProcessMonitor`. -/
def NewProcessMonitor (scanInterval : Int) (historySize : Int) (protectedNames : List String) :
    ProcessMonitor :=
  { processes := GoMap.empty
    prevProcs := GoMap.empty
    classifier := NewClassifier protectedNames
    scanInterval := scanInterval
    historySize := historySize
    metrics := {} }

/-- The body of the loop of `scan` for one directory entry: the map
`newProcs` afterwards, or a panic. -/
def scanEntry (m : ProcessMonitor) (newProcs : GoMap Int ProcessInfo) (e : ScanEntry) :
    Outcome (GoMap Int ProcessInfo) :=
  if !e.isDir then Outcome.ok newProcs
  else
    match strconv.Atoi e.name.data with
    | (_, some _) => Outcome.ok newProcs
    | (pid, none) =>
      match parseProcessInfo pid e with
      | Outcome.error _ _ => Outcome.ok newProcs
      | Outcome.panic msg => Outcome.panic msg
      | Outcome.ok proc =>
        let carried : Outcome ProcessInfo :=
          match GoMap.get? m.prevProcs pid with
          | none => Outcome.ok proc
          | some prev =>
            let proc := { proc with
              prevUtime := prev.prevUtime
              prevStime := prev.prevStime
              lastScan := prev.lastScan }
            match proc.parseStat e.statAgain e.procStatAgain e.nowAgain with
            | Outcome.panic msg => Outcome.panic msg
            | Outcome.error proc _ =>
              Outcome.ok { proc with
                CPUTrend := proc.CPU - prev.CPU
                MemoryTrend := proc.Memory - prev.Memory }
            | Outcome.ok proc =>
              Outcome.ok { proc with
                CPUTrend := proc.CPU - prev.CPU
                MemoryTrend := proc.Memory - prev.Memory }
        match carried with
        | Outcome.panic msg => Outcome.panic msg
        | Outcome.error _ msg => Outcome.panic msg
        | Outcome.ok proc =>
          Outcome.ok (GoMap.set newProcs pid
            { proc with Category := m.classifier.Classify proc })

/-- The loop of `scan` over the directory entries. -/
def scanEntries (m : ProcessMonitor) :
    List ScanEntry → GoMap Int ProcessInfo → Outcome (GoMap Int ProcessInfo)
  | [], newProcs => Outcome.ok newProcs
  | e :: rest, newProcs =>
    match scanEntry m newProcs e with
    | Outcome.ok newProcs => scanEntries m rest newProcs
    | Outcome.error _ msg => Outcome.panic msg
    | Outcome.panic msg => Outcome.panic msg

/-- The method `ProcessMonitor.scan`; `dir` is what reading the directory
`/proc` yields (`none` is a read error), each entry with what is read while it
is processed, and `sysMetrics` is the result of `GetSystemMetrics`. -/
def ProcessMonitor.scan (m : ProcessMonitor) (dir : Option (List ScanEntry))
    (sysMetrics : SystemMetrics) : Outcome ProcessMonitor :=
  match dir with
  | none => Outcome.ok m
  | some entries =>
    match scanEntries m entries GoMap.empty with
    | Outcome.panic msg => Outcome.panic msg
    | Outcome.error _ msg => Outcome.panic msg
    | Outcome.ok newProcs =>
      let sysMetrics := { sysMetrics with
        NumProcs := (GoMap.len newProcs : Int)
        TotalCPU := ((AList.entries newProcs).map (fun x => x.2.CPU)).sum }
      Outcome.ok { m with prevProcs := m.processes, processes := newProcs, metrics := sysMetrics }

end monitor

/-! ## package monitor: the published process list -/

namespace monitor

/-- One step of a sort by insertion: `x` is placed before the first element
that it must precede. -/
def insertSorted {α : Type} (less : α → α → Bool) (x : α) : List α → List α
  | [] => [x]
  | y :: ys => if less x y then x :: y :: ys else y :: insertSorted less x ys

/-- The library function `sort.Slice`, of which only the contract is used (the
result is a permutation of the slice, sorted by `less`); a sort by insertion
stands for it. -/
def sortSlice {α : Type} (less : α → α → Bool) (l : List α) : List α :=
  l.foldl (fun sorted x => insertSorted less x sorted) []

/-- The values of a process map, in the order of the association list. -/
def mapValues (m : GoMap Int ProcessInfo) : List ProcessInfo :=
  (AList.entries m).map (fun e => e.2)

/-- The method `ProcessMonitor.Processes`. A `range` over a Go map yields its
entries in an unspecified order: `rangeOrder` is the rearrangement that the
run time applies. -/
def ProcessMonitor.Processes (rangeOrder : List ProcessInfo → List ProcessInfo)
    (m : ProcessMonitor) : List ProcessInfo :=
  sortSlice (fun a b => decide (a.CPU > b.CPU)) (rangeOrder (mapValues m.processes))

/-- The method `ProcessMonitor.scan` together with its callback: the monitor
afterwards and the arguments with which the callback is invoked, `none` when
it is not invoked. `registered` is the test `m.onUpdate != nil`. A scan that
cannot read the directory returns before publishing and invokes nothing; a
scan that publishes invokes a registered callback with `m.Processes()` and
the metrics it has stored. -/
def ProcessMonitor.scanObserved (rangeOrder : List ProcessInfo → List ProcessInfo)
    (registered : Bool) (m : ProcessMonitor) (dir : Option (List ScanEntry))
    (sysMetrics : SystemMetrics) :
    Outcome (ProcessMonitor × Option (List ProcessInfo × SystemMetrics)) :=
  match dir with
  | none => Outcome.ok (m, none)
  | some entries =>
    match m.scan (some entries) sysMetrics with
    | Outcome.ok m' =>
      if registered then Outcome.ok (m', some (m'.Processes rangeOrder, m'.metrics))
      else Outcome.ok (m', none)
    | Outcome.error _ msg => Outcome.panic msg
    | Outcome.panic msg => Outcome.panic msg

/-- The method `ProcessMonitor.SystemMetrics`. -/
def ProcessMonitor.SystemMetrics (m : ProcessMonitor) : monitor.SystemMetrics := m.metrics

end monitor

/-! ## package process: chains of links -/

namespace process

/-- There is a chain of exactly `n` parent-to-child links of the children map
from `pid` to `x`. -/
def DependencyTree.ChainTo (dt : DependencyTree) (pid : Int) : Nat → Int → Prop
  | 0, x => x = pid
  | n + 1, x => ∃ y, dt.ChainTo pid n y ∧ x ∈ dt.ChildrenOf y

/-- The length of the shortest chain of links from `pid` to `x` is `d`. -/
def DependencyTree.Distance (dt : DependencyTree) (pid x : Int) (d : Nat) : Prop :=
  dt.ChainTo pid d x ∧ ∀ n, dt.ChainTo pid n x → d ≤ n

end process

namespace process

/-- The invariant of the traversal loop of `AllDescendants(pid)` that gives the
breadth-first order. The queue is paired with the length of the chain by which
each entry was found; `d` is the level being worked on. The lengths are in
non-decreasing order and are `d` or `d + 1`; every entry is reached by a chain
of its length; every pid reached by a shorter chain than `d` is visited; every
pid reached by a chain of length `d` is visited or queued with length `d`; and
the children of a visited pid are visited or queued. -/
def LevelInv (dt : DependencyTree) (pid : Int) (lq : List (Int × Nat))
    (visited : GoMap Int Bool) (d : Nat) : Prop :=
  lq.Pairwise (fun a b => a.2 ≤ b.2)
  ∧ (∀ e ∈ lq, d ≤ e.2 ∧ e.2 ≤ d + 1)
  ∧ (∀ e ∈ lq, dt.ChainTo pid e.2 e.1)
  ∧ (∀ x n, dt.ChainTo pid n x → n < d → GoMap.get visited x false = true)
  ∧ (∀ x, dt.ChainTo pid d x → GoMap.get visited x false = true ∨ (x, d) ∈ lq)
  ∧ (∀ y, GoMap.get visited y false = true → ∀ x ∈ dt.ChildrenOf y,
      GoMap.get visited x false = true ∨ x ∈ lq.map Prod.fst)

end process

/-! ## Safety gate: theorems -/

namespace safety

open monitor

theorem get_foldl_set (names : List String) (n : String) (m : GoMap String Bool) :
    GoMap.get (names.foldl (fun m n => GoMap.set m n true) m) n false
      = (decide (n ∈ names) || GoMap.get m n false) := by
  induction names generalizing m with
  | nil => simp
  | cons a t ih =>
    rw [List.foldl_cons, ih, GoMap.get_set]
    by_cases h : n = a
    · simp [h]
    · simp [h]

theorem get_nameSet (names : List String) (n : String) :
    GoMap.get (nameSet names) n false = decide (n ∈ names) := by
  unfold nameSet
  rw [get_foldl_set]
  simp [GoMap.get, GoMap.empty]

/-- C2: on a manager built from a protected list `P` and a never-terminate list
`N`, `ValidateTermination` is the first matching rule of the precedence table
(pid at most 2, kernel category, never-terminate name, protected name,
otherwise allowed); a pid at most 2 is denied whatever the rest of the record
is, and a name on both lists gets the never-terminate reason. -/
theorem validateTermination_rules (P N : List String) (consentLevel : Int) (p : ProcessInfo) :
    (NewManager P N consentLevel).ValidateTermination p = validateTerminationRules P N p
    ∧ (p.PID ≤ 2 → (NewManager P N consentLevel).ValidateTermination p
        = (false, "PID " ++ toString p.PID ++ " is a critical system process"))
    ∧ (2 < p.PID → p.Category ≠ CategoryKernel → p.Name ∈ N → p.Name ∈ P →
        (NewManager P N consentLevel).ValidateTermination p
          = (false, "process '" ++ p.Name ++ "' is on the never-terminate list")) := by
  have hrules : (NewManager P N consentLevel).ValidateTermination p
      = validateTerminationRules P N p := by
    unfold Manager.ValidateTermination validateTerminationRules NewManager
    simp only [get_nameSet, decide_eq_true_eq]
  refine ⟨hrules, ?_, ?_⟩
  · intro h
    rw [hrules, validateTerminationRules, if_pos h]
  · intro h hk hN _
    rw [hrules, validateTerminationRules, if_neg (not_le.mpr h), if_neg hk, if_pos hN]

/-- The rules of C2 at a record with pid 1 and at a record named on both lists. -/
theorem validateTermination_rules_witness :
    (NewManager ["sshd"] ["systemd"] 0).ValidateTermination { PID := 1, Name := "sshd" }
        = (false, "PID " ++ toString (1 : Int) ++ " is a critical system process")
    ∧ (NewManager ["sshd", "init"] ["init"] 0).ValidateTermination { PID := 500, Name := "init" }
        = (false, "process '" ++ "init" ++ "' is on the never-terminate list") :=
  ⟨(validateTermination_rules ["sshd"] ["systemd"] 0 { PID := 1, Name := "sshd" }).2.1
      (by decide),
   (validateTermination_rules ["sshd", "init"] ["init"] 0 { PID := 500, Name := "init" }).2.2
      (by decide) (by decide) (by decide) (by decide)⟩

/-- C3: `IsProtected` holds exactly when `ValidateTermination` denies. -/
theorem isProtected_iff_denied (m : Manager) (p : ProcessInfo) :
    m.IsProtected p = true ↔ (m.ValidateTermination p).1 = false := by
  unfold Manager.IsProtected Manager.ValidateTermination
  split_ifs <;> simp

end safety

/-! ## Termination executor: theorems -/

namespace process

open monitor

/-- C1: when `ValidateTermination` denies a record, `SafeTerminate` returns the
error "termination blocked: " followed by the denial reason, for either value
of `force`, and the trace of events is the one it started from: no signal is
sent to any process. -/
theorem safeTerminate_blocked (os : OS) (m : Manager) (p : ProcessInfo) (force : Bool)
    (tr : List Event) (h : (m.safetyMgr.ValidateTermination p).1 = false) :
    m.SafeTerminate os p force tr
      = (some ("termination blocked: " ++ (m.safetyMgr.ValidateTermination p).2), tr) := by
  unfold Manager.SafeTerminate
  simp [h]

/-- C1 at pid 1 on a system that would deliver every signal. -/
theorem safeTerminate_blocked_witness :
    ((safety.NewManager ["sshd"] ["systemd"] 0).ValidateTermination
        { PID := 1, Name := "systemd" }).1 = false
    ∧ Manager.SafeTerminate
        { findProcess := fun _ _ => none, deliver := fun _ _ _ => none }
        { safetyMgr := safety.NewManager ["sshd"] ["systemd"] 0, timeout := 5000000000 }
        { PID := 1, Name := "systemd" } true []
      = (some ("termination blocked: "
          ++ ((safety.NewManager ["sshd"] ["systemd"] 0).ValidateTermination
              { PID := 1, Name := "systemd" }).2), []) :=
  ⟨by decide, safeTerminate_blocked _ _ _ true [] (by decide)⟩

end process

/-! ## Dependency resolver: theorems -/

namespace process

open monitor

theorem descendantsLoop_of_fuel (children : GoMap Int (List Int)) (fuel : Nat) :
    ∀ (queue : List Int) (visited : GoMap Int Bool) (result out : List Int),
      descendantsFuel children fuel queue visited result = some out →
      descendantsLoop children queue visited result = out := by
  induction fuel with
  | zero =>
    intro queue visited result out h
    cases queue with
    | nil => rw [descendantsLoop]; simpa [descendantsFuel] using h
    | cons c q => simp [descendantsFuel] at h
  | succ n ih =>
    intro queue visited result out h
    cases queue with
    | nil => rw [descendantsLoop]; simpa [descendantsFuel] using h
    | cons c q =>
      rw [descendantsLoop]
      rw [descendantsFuel] at h
      split
      · next hv => rw [if_pos hv] at h; exact ih _ _ _ _ h
      · next hv => rw [if_neg (by simp [hv])] at h; exact ih _ _ _ _ h

theorem fill_from_back (n : Nat) (ds : List Int) :
    ∀ (start : Nat) (A B : List Int), A.length + start = n → ds.length ≤ A.length →
      (ds.enumFrom start).foldl (fun res x => res.set (n - 1 - x.1) x.2) (A ++ B)
        = A.take (A.length - ds.length) ++ ds.reverse ++ B := by
  induction ds with
  | nil => intro start A B _ _; simp
  | cons d t ih =>
    intro start A B hn hlen
    rcases List.eq_nil_or_concat A with hA | ⟨A', z, hA⟩
    · subst hA; simp at hlen
    · subst hA
      simp only [List.concat_eq_append, List.length_append, List.length_cons,
        List.length_nil] at hn hlen
      have hidx : n - 1 - start = A'.length := by omega
      rw [List.enumFrom_cons, List.foldl_cons]
      simp only [hidx, List.concat_eq_append, List.append_assoc, List.singleton_append]
      rw [List.set_append_right _ _ (le_refl _), Nat.sub_self, List.set_cons_zero]
      rw [ih (start + 1) A' (d :: B) (by omega) (by simpa using hlen)]
      have htake : List.take ((A' ++ [z]).length - (d :: t).length) (A' ++ [z])
          = List.take (A'.length - t.length) A' := by
        have : (A' ++ [z]).length - (d :: t).length = A'.length - t.length := by simp
        rw [this, List.take_append_of_le_length (Nat.sub_le _ _)]
      simp only [List.length_append, List.length_cons, List.length_nil]
      simp only [List.length_append, List.length_cons, List.length_nil] at htake
      rw [htake]
      simp

theorem safeTerminationOrder_eq (dt : DependencyTree) (pid : Int) :
    dt.SafeTerminationOrder pid = (dt.AllDescendants pid).reverse ++ [pid] := by
  unfold DependencyTree.SafeTerminationOrder
  generalize dt.AllDescendants pid = ds
  simp only [List.enum]
  have h := fill_from_back ds.length ds 0 (List.replicate ds.length 0) [0] (by simp) (by simp)
  have hrep : List.replicate (ds.length + 1) (0 : Int) = List.replicate ds.length 0 ++ [0] := by
    rw [List.replicate_succ']
  rw [hrep, h]
  simp only [List.length_replicate, Nat.sub_self, List.take_zero, List.nil_append]
  rw [List.set_append_right _ _ (by simp)]
  simp

/-- What one run of the traversal loop adds to `result`: the new pids are
pairwise distinct and unvisited, each is in the queue or a child of an earlier
new pid, each is reached from the queue, and the visited and new pids together
contain the queue and the children of every new pid. -/
theorem descendantsLoop_spec (children : GoMap Int (List Int)) :
    ∀ (queue : List Int) (visited : GoMap Int Bool) (result : List Int),
      ∃ new : List Int,
        descendantsLoop children queue visited result = result ++ new
        ∧ new.Nodup
        ∧ (∀ x ∈ new, GoMap.get visited x false = false)
        ∧ (∀ x ∈ new, x ∈ queue
            ∨ ∃ y, [y, x].Sublist new ∧ x ∈ GoMap.get children y [])
        ∧ (∀ x ∈ new, ∃ s ∈ queue,
            Relation.ReflTransGen (fun a b => b ∈ GoMap.get children a []) s x)
        ∧ (∀ x ∈ queue, GoMap.get visited x false = true ∨ x ∈ new)
        ∧ (∀ y ∈ new, ∀ x ∈ GoMap.get children y [],
            GoMap.get visited x false = true ∨ x ∈ new) := by
  intro queue visited result
  induction queue, visited, result using descendantsLoop.induct children with
  | case1 visited result =>
    exact ⟨[], by rw [descendantsLoop]; simp, by simp, by simp, by simp, by simp,
      by simp, by simp⟩
  | case2 child queue visited result hv ih =>
    obtain ⟨new, heq, hnd, hunv, hsrc, hreach, hq, hcl⟩ := ih
    refine ⟨new, ?_, hnd, hunv, ?_, ?_, ?_, hcl⟩
    · rw [descendantsLoop]
      split
      · exact heq
      · next h => rw [hv] at h; exact absurd h (by simp)
    · intro x hx
      rcases hsrc x hx with h | h
      · exact Or.inl (List.mem_cons_of_mem _ h)
      · exact Or.inr h
    · intro x hx
      obtain ⟨s, hs, hr⟩ := hreach x hx
      exact ⟨s, List.mem_cons_of_mem _ hs, hr⟩
    · intro x hx
      rcases List.mem_cons.mp hx with h | h
      · exact Or.inl (h ▸ hv)
      · exact hq x h
  | case3 child queue visited result hv ih =>
    obtain ⟨new, heq, hnd, hunv, hsrc, hreach, hq, hcl⟩ := ih
    have hvis : ∀ x, GoMap.get (GoMap.set visited child true) x false
        = if x = child then true else GoMap.get visited x false :=
      fun x => GoMap.get_set visited child x true false
    have hchild : child ∉ new := by
      intro hmem
      have := hunv child hmem
      rw [hvis] at this
      simp at this
    have hstep : ∀ x, GoMap.get (GoMap.set visited child true) x false = true ∨ x ∈ new →
        GoMap.get visited x false = true ∨ x ∈ child :: new := by
      intro x hx
      rcases hx with h | h
      · rw [hvis] at h
        by_cases hxc : x = child
        · exact Or.inr (hxc ▸ List.mem_cons_self _ _)
        · rw [if_neg hxc] at h; exact Or.inl h
      · exact Or.inr (List.mem_cons_of_mem _ h)
    refine ⟨child :: new, ?_, ?_, ?_, ?_, ?_, ?_, ?_⟩
    · rw [descendantsLoop]
      split
      · next h => rw [hv] at h; exact absurd h (by simp)
      · rw [heq]; simp
    · exact List.nodup_cons.mpr ⟨hchild, hnd⟩
    · intro x hx
      rcases List.mem_cons.mp hx with h | h
      · exact h ▸ hv
      · have := hunv x h
        rw [hvis] at this
        by_cases hxc : x = child
        · rw [if_pos hxc] at this; exact absurd this (by simp)
        · rw [if_neg hxc] at this; exact this
    · intro x hx
      rcases List.mem_cons.mp hx with h | h
      · exact Or.inl (h ▸ List.mem_cons_self _ _)
      · rcases hsrc x h with h1 | ⟨y, hy, hc⟩
        · rcases List.mem_append.mp h1 with h2 | h2
          · exact Or.inl (List.mem_cons_of_mem _ h2)
          · exact Or.inr ⟨child,
              List.Sublist.cons₂ _ (List.singleton_sublist.mpr h), h2⟩
        · exact Or.inr ⟨y, List.Sublist.cons _ hy, hc⟩
    · intro x hx
      rcases List.mem_cons.mp hx with h | h
      · exact ⟨child, List.mem_cons_self _ _, h ▸ Relation.ReflTransGen.refl⟩
      · obtain ⟨s, hs, hr⟩ := hreach x h
        rcases List.mem_append.mp hs with h2 | h2
        · exact ⟨s, List.mem_cons_of_mem _ h2, hr⟩
        · exact ⟨child, List.mem_cons_self _ _, Relation.ReflTransGen.head h2 hr⟩
    · intro x hx
      rcases List.mem_cons.mp hx with h | h
      · exact Or.inr (h ▸ List.mem_cons_self _ _)
      · exact hstep x (hq x (List.mem_append_left _ h))
    · intro y hy x hx
      rcases List.mem_cons.mp hy with h | h
      · subst h
        exact hstep x (hq x (List.mem_append_right _ hx))
      · exact hstep x (hcl y h x hx)

/-- The traversal from `pid`, in terms of the children map alone. -/
theorem allDescendants_facts (dt : DependencyTree) (pid : Int) :
    (dt.AllDescendants pid).Nodup
    ∧ pid ∉ dt.AllDescendants pid
    ∧ (∀ x ∈ dt.AllDescendants pid, x ∈ dt.ChildrenOf pid
        ∨ ∃ y, [y, x].Sublist (dt.AllDescendants pid) ∧ x ∈ dt.ChildrenOf y)
    ∧ (∀ q, q ∈ dt.AllDescendants pid ↔ q ≠ pid ∧ dt.Reaches pid q) := by
  obtain ⟨new, heq, hnd, hunv, hsrc, hreach, hq, hcl⟩ :=
    descendantsLoop_spec dt.children (GoMap.get dt.children pid [])
      (GoMap.set GoMap.empty pid true) []
  have hdesc : dt.AllDescendants pid = new := by
    unfold DependencyTree.AllDescendants
    rw [heq, List.nil_append]
  have hvis : ∀ x, GoMap.get (GoMap.set (GoMap.empty : GoMap Int Bool) pid true) x false
      = if x = pid then true else false := by
    intro x
    rw [GoMap.get_set]
    simp [GoMap.get, GoMap.empty]
  have hpid : pid ∉ new := by
    intro hmem
    have := hunv pid hmem
    rw [hvis] at this
    simp at this
  have hin : ∀ x, GoMap.get (GoMap.set (GoMap.empty : GoMap Int Bool) pid true) x false = true
      ∨ x ∈ new → x = pid ∨ x ∈ new := by
    intro x hx
    rcases hx with h | h
    · rw [hvis] at h
      by_cases hxp : x = pid
      · exact Or.inl hxp
      · rw [if_neg hxp] at h; exact absurd h (by simp)
    · exact Or.inr h
  have hclosed : ∀ q, dt.Reaches pid q → q = pid ∨ q ∈ new := by
    intro q hr
    induction hr with
    | single h => exact hin _ (hq _ h)
    | tail _ hbc ih =>
      rcases ih with h | h
      · subst h; exact hin _ (hq _ hbc)
      · exact hin _ (hcl _ h _ hbc)
  rw [hdesc]
  refine ⟨hnd, hpid, hsrc, ?_⟩
  intro q
  constructor
  · intro hmem
    refine ⟨fun h => hpid (h ▸ hmem), ?_⟩
    obtain ⟨s, hs, hr⟩ := hreach q hmem
    exact Relation.TransGen.head' hs hr
  · rintro ⟨hne, hr⟩
    rcases hclosed q hr with h | h
    · exact absurd h hne
    · exact h

theorem children_foldl (procs : List ProcessInfo) (a : Int) :
    ∀ dt : DependencyTree,
      GoMap.get (procs.foldl
        (fun dt p =>
          { parents := GoMap.set dt.parents p.PID p.PPid
            children := GoMap.set dt.children p.PPid
              (GoMap.get dt.children p.PPid [] ++ [p.PID]) })
        dt).children a []
      = GoMap.get dt.children a [] ++ (procs.filter (fun r => r.PPid = a)).map (fun r => r.PID) := by
  induction procs with
  | nil => intro dt; simp
  | cons p t ih =>
    intro dt
    rw [List.foldl_cons, ih]
    simp only [GoMap.get_set]
    by_cases h : p.PPid = a
    · subst h
      rw [List.filter_cons_of_pos (by simp)]
      simp
    · have h' : ¬ a = p.PPid := fun e => h e.symm
      rw [List.filter_cons_of_neg (by simp [h]), if_neg h']

/-- The children listed under `a` are the pids of the records whose parent pid
is `a`, in the order of the records. -/
theorem childrenOf_build (procs : List ProcessInfo) (a : Int) :
    (BuildDependencyTree procs).ChildrenOf a
      = (procs.filter (fun r => r.PPid = a)).map (fun r => r.PID) := by
  unfold DependencyTree.ChildrenOf BuildDependencyTree
  rw [children_foldl]
  simp [GoMap.get, GoMap.empty]

theorem mem_childrenOf_build (procs : List ProcessInfo) (a c : Int) :
    c ∈ (BuildDependencyTree procs).ChildrenOf a ↔ ∃ r ∈ procs, r.PPid = a ∧ r.PID = c := by
  rw [childrenOf_build]
  simp [List.mem_map, List.mem_filter, and_assoc]

theorem parent_unique (procs : List ProcessInfo)
    (hpids : (procs.map (fun r => r.PID)).Nodup) (a b c : Int)
    (ha : c ∈ (BuildDependencyTree procs).ChildrenOf a)
    (hb : c ∈ (BuildDependencyTree procs).ChildrenOf b) : a = b := by
  obtain ⟨r, hr, hra, hrc⟩ := (mem_childrenOf_build procs a c).mp ha
  obtain ⟨r', hr', hrb, hrc'⟩ := (mem_childrenOf_build procs b c).mp hb
  have : r = r' := List.inj_on_of_nodup_map hpids hr hr' (hrc.trans hrc'.symm)
  subst this
  exact hra.symm.trans hrb

/-- C4, amended: when no pid occurs in two records of `procs` and no record of
`pid` names as its parent a pid of the order (`pid` itself or one of its
descendants), `SafeTerminationOrder(pid)` on `BuildDependencyTree(procs)` lists
no pid twice and lists every pid after each of its direct children that is
listed. -/
theorem safeTerminationOrder_children_first (procs : List ProcessInfo) (pid : Int)
    (hpids : (procs.map (fun r => r.PID)).Nodup)
    (hroot : ∀ r ∈ procs, r.PID = pid →
      r.PPid ∉ (BuildDependencyTree procs).SafeTerminationOrder pid) :
    ((BuildDependencyTree procs).SafeTerminationOrder pid).Nodup
    ∧ ChildrenBeforeParents procs ((BuildDependencyTree procs).SafeTerminationOrder pid) := by
  obtain ⟨hnd, hpid, hsrc, -⟩ := allDescendants_facts (BuildDependencyTree procs) pid
  rw [safeTerminationOrder_eq] at hroot ⊢
  constructor
  · rw [List.nodup_append]
    refine ⟨List.nodup_reverse.mpr hnd, List.nodup_singleton _, ?_⟩
    intro x hx hx'
    rw [List.mem_singleton] at hx'
    rw [hx'] at hx
    exact hpid (List.mem_reverse.mp hx)
  · intro q hq r hr hpp hc
    have hcq : r.PID ∈ (BuildDependencyTree procs).ChildrenOf q :=
      (mem_childrenOf_build procs q r.PID).mpr ⟨r, hr, hpp, rfl⟩
    by_cases hcp : r.PID = pid
    · exact absurd (hpp ▸ hq) (hroot r hr hcp)
    · have hcd : r.PID ∈ (BuildDependencyTree procs).AllDescendants pid := by
        rcases List.mem_append.mp hc with h | h
        · exact List.mem_reverse.mp h
        · exact absurd (List.mem_singleton.mp h) hcp
      by_cases hqp : q = pid
      · rw [hqp]
        exact List.Sublist.append
          (List.singleton_sublist.mpr (List.mem_reverse.mpr hcd)) (List.Sublist.refl [pid])
      · rcases hsrc _ hcd with h | ⟨y, hy, hcy⟩
        · exact absurd (parent_unique procs hpids q pid r.PID hcq h) hqp
        · have hyq : y = q := parent_unique procs hpids y q r.PID hcy hcq
          rw [hyq] at hy
          have hrev : [r.PID, q].Sublist ((BuildDependencyTree procs).AllDescendants pid).reverse :=
            List.reverse_sublist.mpr hy
          exact hrev.trans (List.sublist_append_left _ _)

/-- C4 on the tree 10 → 20, 30 and 20 → 40. -/
theorem safeTerminationOrder_children_first_witness :
    (([{ PID := 20, PPid := 10 }, { PID := 30, PPid := 10 }, { PID := 40, PPid := 20 }] :
        List ProcessInfo).map (fun r => r.PID)).Nodup
    ∧ ((BuildDependencyTree
          [{ PID := 20, PPid := 10 }, { PID := 30, PPid := 10 },
            { PID := 40, PPid := 20 }]).SafeTerminationOrder 10).Nodup
    ∧ ChildrenBeforeParents
        [{ PID := 20, PPid := 10 }, { PID := 30, PPid := 10 }, { PID := 40, PPid := 20 }]
        ((BuildDependencyTree
          [{ PID := 20, PPid := 10 }, { PID := 30, PPid := 10 },
            { PID := 40, PPid := 20 }]).SafeTerminationOrder 10) :=
  ⟨by decide,
   safeTerminationOrder_children_first
    [{ PID := 20, PPid := 10 }, { PID := 30, PPid := 10 }, { PID := 40, PPid := 20 }] 10
    (by decide)
    (by
      intro r hr h
      simp only [List.mem_cons, List.mem_singleton, List.not_mem_nil, or_false] at hr
      rcases hr with rfl | rfl | rfl <;> exact absurd h (by decide))⟩

/-- C4 as stated fails in two ways: on a cycle of parent links through the
start pid (records 30 ← 20 and 20 ← 30, start 20: the order is `[30, 20]`, so
30 precedes its child 20), and on a pid that occurs in two records (30 under
10 and under 20, start 10: the order is `[20, 30, 10]`, so 20 precedes its
child 30). -/
theorem safeTerminationOrder_children_first_counterexample :
    ¬ ChildrenBeforeParents [{ PID := 30, PPid := 20 }, { PID := 20, PPid := 30 }]
        ((BuildDependencyTree
          [{ PID := 30, PPid := 20 }, { PID := 20, PPid := 30 }]).SafeTerminationOrder 20)
    ∧ ¬ ChildrenBeforeParents
        [{ PID := 30, PPid := 10 }, { PID := 20, PPid := 10 }, { PID := 30, PPid := 20 }]
        ((BuildDependencyTree
          [{ PID := 30, PPid := 10 }, { PID := 20, PPid := 10 },
            { PID := 30, PPid := 20 }]).SafeTerminationOrder 10) := by
  have h1 : (BuildDependencyTree
      [{ PID := 30, PPid := 20 }, { PID := 20, PPid := 30 }]).SafeTerminationOrder 20
      = [30, 20] := by
    rw [safeTerminationOrder_eq]
    have hd : (BuildDependencyTree
        [{ PID := 30, PPid := 20 }, { PID := 20, PPid := 30 }]).AllDescendants 20 = [30] :=
      descendantsLoop_of_fuel _ 8 _ _ _ _ (by decide)
    rw [hd]
    rfl
  have h2 : (BuildDependencyTree
      [{ PID := 30, PPid := 10 }, { PID := 20, PPid := 10 },
        { PID := 30, PPid := 20 }]).SafeTerminationOrder 10 = [20, 30, 10] := by
    rw [safeTerminationOrder_eq]
    have hd : (BuildDependencyTree
        [{ PID := 30, PPid := 10 }, { PID := 20, PPid := 10 },
          { PID := 30, PPid := 20 }]).AllDescendants 10 = [30, 20] :=
      descendantsLoop_of_fuel _ 8 _ _ _ _ (by decide)
    rw [hd]
    rfl
  rw [h1, h2]
  constructor
  · intro h
    have := h 30 (by decide) { PID := 20, PPid := 30 }
      (List.mem_cons_of_mem _ (List.mem_cons_self _ _)) rfl (by decide)
    exact absurd this (by decide)
  · intro h
    have := h 20 (by decide) { PID := 30, PPid := 20 }
      (List.mem_cons_of_mem _ (List.mem_cons_of_mem _ (List.mem_cons_self _ _))) rfl
      (by decide)
    exact absurd this (by decide)

/-- C5: `SafeTerminationOrder(pid)` is the reverse of `AllDescendants(pid)`
followed by `pid`; its length is one more than that of `AllDescendants(pid)`;
for a pid without children it is `[pid]`; and for root 10 with children 20, 30
and 20 with child 40 it is `[40, 30, 20, 10]`. -/
theorem safeTerminationOrder_reverse (dt : DependencyTree) (pid : Int) :
    dt.SafeTerminationOrder pid = (dt.AllDescendants pid).reverse ++ [pid]
    ∧ (dt.SafeTerminationOrder pid).length = (dt.AllDescendants pid).length + 1
    ∧ (dt.ChildrenOf pid = [] → dt.SafeTerminationOrder pid = [pid])
    ∧ (BuildDependencyTree
        [{ PID := 20, PPid := 10 }, { PID := 30, PPid := 10 },
          { PID := 40, PPid := 20 }]).SafeTerminationOrder 10 = [40, 30, 20, 10] := by
  refine ⟨safeTerminationOrder_eq dt pid, ?_, ?_, ?_⟩
  · rw [safeTerminationOrder_eq]; simp
  · intro h
    rw [safeTerminationOrder_eq]
    have hd : dt.AllDescendants pid = [] := by
      unfold DependencyTree.AllDescendants
      unfold DependencyTree.ChildrenOf at h
      rw [h, descendantsLoop]
    rw [hd]
    rfl
  · rw [safeTerminationOrder_eq]
    have hd : (BuildDependencyTree
        [{ PID := 20, PPid := 10 }, { PID := 30, PPid := 10 },
          { PID := 40, PPid := 20 }]).AllDescendants 10 = [20, 30, 40] :=
      descendantsLoop_of_fuel _ 8 _ _ _ _ (by decide)
    rw [hd]
    rfl

/-- C5 at the leaf 40 of the tree 10 → 20, 30 and 20 → 40. -/
theorem safeTerminationOrder_reverse_witness :
    (BuildDependencyTree
        [{ PID := 20, PPid := 10 }, { PID := 30, PPid := 10 },
          { PID := 40, PPid := 20 }]).ChildrenOf 40 = []
    ∧ (BuildDependencyTree
        [{ PID := 20, PPid := 10 }, { PID := 30, PPid := 10 },
          { PID := 40, PPid := 20 }]).SafeTerminationOrder 40 = [40] :=
  ⟨by decide,
   (safeTerminationOrder_reverse
      (BuildDependencyTree
        [{ PID := 20, PPid := 10 }, { PID := 30, PPid := 10 }, { PID := 40, PPid := 20 }])
      40).2.2.1 (by decide)⟩

/-- C6: `AllDescendants(pid)` on the tree of any process list contains no pid
twice, does not contain `pid`, and contains `q` exactly when `q` differs from
`pid` and is reached from `pid` by one or more parent-to-child links of the
children map; nothing is assumed of the list, so cycles of parent links and
pids occurring in several records are covered. -/
theorem allDescendants_reachable (procs : List ProcessInfo) (pid : Int) :
    ((BuildDependencyTree procs).AllDescendants pid).Nodup
    ∧ pid ∉ (BuildDependencyTree procs).AllDescendants pid
    ∧ ∀ q, q ∈ (BuildDependencyTree procs).AllDescendants pid
        ↔ q ≠ pid ∧ (BuildDependencyTree procs).Reaches pid q := by
  obtain ⟨hnd, hpid, -, hiff⟩ := allDescendants_facts (BuildDependencyTree procs) pid
  exact ⟨hnd, hpid, hiff⟩

end process

/-! ## Advisory cache: theorems -/

namespace ai

theorem removeFromOrder_eq_erase (l : List String) (key : String) :
    removeFromOrder l key = l.erase key := by
  induction l with
  | nil => simp [removeFromOrder]
  | cons a t ih =>
    rw [removeFromOrder, List.erase_cons, ih]
    by_cases h : a = key
    · simp [h]
    · simp [h]

theorem len_eq_of_consistent {entries : GoMap String cacheEntry} {order : List String}
    (h : Consistent entries order) : GoMap.len entries = order.length := by
  unfold GoMap.len
  exact ((List.perm_ext_iff_of_nodup h.1 (AList.keys_nodup entries)).mpr h.2).length_eq.symm

theorem consistent_delete {entries : GoMap String cacheEntry} {order : List String}
    (h : Consistent entries order) (k : String) :
    Consistent (GoMap.delete entries k) (order.erase k) := by
  refine ⟨h.1.erase k, fun k' => ?_⟩
  unfold GoMap.delete
  rw [AList.keys_erase, h.1.mem_erase_iff, (AList.keys_nodup entries).mem_erase_iff, h.2]

theorem consistent_delete_head {entries : GoMap String cacheEntry} {oldest : String}
    {rest : List String} (h : Consistent entries (oldest :: rest)) :
    Consistent (GoMap.delete entries oldest) rest := by
  have := consistent_delete h oldest
  rwa [List.erase_cons_head] at this

theorem consistent_set {entries : GoMap String cacheEntry} {order : List String}
    (h : Consistent entries order) (k : String) (v : cacheEntry) :
    Consistent (GoMap.set entries k v) (order.erase k ++ [k]) := by
  constructor
  · rw [List.nodup_append]
    refine ⟨h.1.erase k, List.nodup_singleton _, ?_⟩
    intro x hx hx'
    rw [List.mem_singleton] at hx'
    rw [hx'] at hx
    exact h.1.not_mem_erase hx
  · intro k'
    unfold GoMap.set
    rw [← AList.mem_keys, AList.mem_insert, AList.mem_keys, ← h.2, List.mem_append,
      h.1.mem_erase_iff, List.mem_singleton]
    by_cases e : k' = k
    · simp [e]
    · simp [e]

theorem consistent_touch {entries : GoMap String cacheEntry} {order : List String}
    (h : Consistent entries order) (k : String) (hk : k ∈ AList.keys entries) :
    Consistent entries (order.erase k ++ [k]) := by
  constructor
  · rw [List.nodup_append]
    refine ⟨h.1.erase k, List.nodup_singleton _, ?_⟩
    intro x hx hx'
    rw [List.mem_singleton] at hx'
    rw [hx'] at hx
    exact h.1.not_mem_erase hx
  · intro k'
    rw [List.mem_append, h.1.mem_erase_iff, List.mem_singleton, ← h.2]
    by_cases e : k' = k
    · simp [e, (h.2 k).mpr hk]
    · simp [e]

theorem evictLoop_consistent (maxSize : Int) (order : List String) :
    ∀ entries : GoMap String cacheEntry, Consistent entries order →
      Consistent (evictLoop maxSize entries order).1 (evictLoop maxSize entries order).2 := by
  induction order with
  | nil => intro entries h; simpa [evictLoop] using h
  | cons a t ih =>
    intro entries h
    rw [evictLoop]
    split
    · exact ih _ (consistent_delete_head h)
    · exact h

theorem evictLoop_len (maxSize : Int) (hpos : 1 ≤ maxSize) (order : List String) :
    ∀ entries : GoMap String cacheEntry, Consistent entries order →
      (GoMap.len (evictLoop maxSize entries order).1 : Int) < maxSize := by
  induction order with
  | nil =>
    intro entries h
    rw [evictLoop, len_eq_of_consistent h]
    simpa using hpos
  | cons a t ih =>
    intro entries h
    rw [evictLoop]
    split
    · exact ih _ (consistent_delete_head h)
    · next hlt => simpa using hlt

theorem len_set_le (entries : GoMap String cacheEntry) (k : String) (v : cacheEntry) :
    GoMap.len (GoMap.set entries k v) ≤ GoMap.len entries + 1 := by
  unfold GoMap.len GoMap.set
  rw [AList.keys_insert, List.length_cons]
  exact Nat.succ_le_succ (List.length_erase_le _ _)

theorem len_delete_le (entries : GoMap String cacheEntry) (k : String) :
    GoMap.len (GoMap.delete entries k) ≤ GoMap.len entries := by
  unfold GoMap.len GoMap.delete
  rw [AList.keys_erase]
  exact List.length_erase_le _ _

theorem consistent_new (maxSize ttl : Int) :
    Consistent (NewCache maxSize ttl).entries (NewCache maxSize ttl).order := by
  simp [Consistent, NewCache, GoMap.empty]

theorem consistent_put (c : Cache) (k : String) (r : DecisionResponse) (now : Int)
    (h : Consistent c.entries c.order) :
    Consistent (c.Put k r now).entries (c.Put k r now).order := by
  unfold Cache.Put
  simp only [removeFromOrder_eq_erase]
  exact consistent_set (evictLoop_consistent _ _ _ h) _ _

theorem consistent_get (c : Cache) (k : String) (now : Int)
    (h : Consistent c.entries c.order) :
    Consistent (c.Get k now).2.entries (c.Get k now).2.order := by
  unfold Cache.Get
  split
  · exact h
  · next entry hl =>
    split
    · simp only [removeFromOrder_eq_erase]
      exact consistent_delete h k
    · simp only [removeFromOrder_eq_erase]
      refine consistent_touch h k (AList.mem_keys.mp ?_)
      unfold GoMap.get? at hl
      exact AList.lookup_isSome.mp (by rw [hl]; rfl)

theorem consistent_step (c : Cache) (call : Call) (h : Consistent c.entries c.order) :
    Consistent (c.step call).entries (c.step call).order := by
  cases call with
  | put k r now => exact consistent_put c k r now h
  | get k now => exact consistent_get c k now h
  | clear => simp [Cache.step, Cache.Clear, Consistent, GoMap.empty]

theorem consistent_run (calls : List Call) :
    ∀ c : Cache, Consistent c.entries c.order →
      Consistent (c.run calls).entries (c.run calls).order := by
  induction calls with
  | nil => intro c h; exact h
  | cons a t ih =>
    intro c h
    exact ih _ (consistent_step c a h)

theorem maxSize_step (c : Cache) (call : Call) : (c.step call).maxSize = c.maxSize := by
  cases call with
  | put k r now => rfl
  | get k now =>
    simp only [Cache.step, Cache.Get]
    split
    · rfl
    · split <;> rfl
  | clear => rfl

theorem size_step_le (c : Cache) (call : Call) (h : Consistent c.entries c.order)
    (hpos : 1 ≤ c.maxSize) (hsize : (c.Size : Int) ≤ c.maxSize) :
    ((c.step call).Size : Int) ≤ c.maxSize := by
  cases call with
  | put k r now =>
    have hlt := evictLoop_len c.maxSize hpos c.order c.entries h
    have hle := len_set_le (evictLoop c.maxSize c.entries c.order).1 k
      { response := r, createdAt := now }
    simp only [Cache.step, Cache.Put, Cache.Size]
    omega
  | get k now =>
    simp only [Cache.step, Cache.Get]
    split
    · exact hsize
    · split
      · have := len_delete_le c.entries k
        simp only [Cache.Size] at hsize ⊢
        omega
      · exact hsize
  | clear =>
    simp only [Cache.step, Cache.Clear, Cache.Size, GoMap.len, GoMap.empty, AList.keys_empty,
      List.length_nil]
    omega

theorem size_run_le (calls : List Call) :
    ∀ c : Cache, Consistent c.entries c.order → 1 ≤ c.maxSize → (c.Size : Int) ≤ c.maxSize →
      ((c.run calls).Size : Int) ≤ c.maxSize := by
  induction calls with
  | nil => intro c _ _ h; exact h
  | cons a t ih =>
    intro c h hpos hsize
    have h1 := ih (c.step a) (consistent_step c a h)
      (by rw [maxSize_step]; exact hpos)
      (by rw [maxSize_step]; exact size_step_le c a h hpos hsize)
    rw [maxSize_step] at h1
    exact h1

/-- C7, amended: for a cache created by `NewCache(maxSize, ttl)` with
`maxSize` at least 1, `Size()` is at most `maxSize` after every sequence of
`Put`, `Get` and `Clear` calls executed one after another. -/
theorem size_le_maxSize (maxSize ttl : Int) (hpos : 1 ≤ maxSize) (calls : List Call) :
    (((NewCache maxSize ttl).run calls).Size : Int) ≤ maxSize :=
  size_run_le calls (NewCache maxSize ttl) (consistent_new maxSize ttl) hpos
    (by simp only [Cache.Size, NewCache, GoMap.len, GoMap.empty, AList.keys_empty,
          List.length_nil]; omega)

/-- C7 on a cache of capacity 3 after four puts, a get and a put. -/
theorem size_le_maxSize_witness :
    (1 : Int) ≤ 3
    ∧ (((NewCache 3 300).run
        [Call.put "key1" {} 0, Call.put "key2" {} 1, Call.put "key3" {} 2,
          Call.put "key4" {} 3, Call.get "key2" 4, Call.put "key5" {} 5]).Size : Int) ≤ 3 :=
  ⟨by decide, size_le_maxSize 3 300 (by decide) _⟩

/-- C7 as stated fails for a capacity of 0: the eviction loop leaves the empty
cache as it is and `Put` then stores the entry, so `Size()` is 1. -/
theorem size_le_maxSize_counterexample :
    ¬ ((((NewCache 0 300).run [Call.put "key1" {} 0]).Size : Int) ≤ 0) := by
  decide

/-- C9: a `Get(k)` right after `Put(k, r)`, at a time when `now - createdAt`
is not greater than the TTL, is a hit whose response is `r` with `FromCache`
set; the entry stored under `k` still holds `r` itself. -/
theorem get_after_put (c : Cache) (k : String) (r : DecisionResponse) (t0 now : Int)
    (hfresh : ¬ (now - t0 > c.ttl)) :
    ((c.Put k r t0).Get k now).1 = some { r with FromCache := true }
    ∧ GoMap.get? ((c.Put k r t0).Get k now).2.entries k
        = some { response := r, createdAt := t0 } := by
  have hl : GoMap.get? (c.Put k r t0).entries k = some { response := r, createdAt := t0 } := by
    simp [Cache.Put, GoMap.get?, GoMap.set]
  have httl : (c.Put k r t0).ttl = c.ttl := rfl
  unfold Cache.Get
  rw [hl]
  simp only [httl, if_neg hfresh]
  exact ⟨trivial, hl⟩

/-- C9 on the cache of the test: capacity 3, TTL five minutes. -/
theorem get_after_put_witness :
    ¬ ((1 : Int) - 0 > (NewCache 3 300000000000).ttl)
    ∧ (((NewCache 3 300000000000).Put "key1" { ProcessPID := 100, ProcessName := "test" } 0).Get
        "key1" 1).1
      = some { ProcessPID := 100, ProcessName := "test", FromCache := true } :=
  ⟨by decide,
   (get_after_put (NewCache 3 300000000000) "key1"
      { ProcessPID := 100, ProcessName := "test" } 0 1 (by decide)).1⟩

/-- C10: on a cache reached from `NewCache` by calls executed one after
another, a `Get(k)` of a present key made when `now - createdAt` exceeds the
TTL is a miss that removes `k` from the entry map and from the recency order;
`Size()` drops by exactly one, every other key keeps its entry, and the
recency order is the old one with `k` left out. -/
theorem get_expired_removes (maxSize ttl : Int) (calls : List Call) (k : String) (now : Int)
    (entry : cacheEntry)
    (hpresent : GoMap.get? ((NewCache maxSize ttl).run calls).entries k = some entry)
    (hexpired : now - entry.createdAt > ((NewCache maxSize ttl).run calls).ttl) :
    (((NewCache maxSize ttl).run calls).Get k now).1 = none
    ∧ GoMap.get? (((NewCache maxSize ttl).run calls).Get k now).2.entries k = none
    ∧ k ∉ (((NewCache maxSize ttl).run calls).Get k now).2.order
    ∧ (((NewCache maxSize ttl).run calls).Get k now).2.Size + 1
        = ((NewCache maxSize ttl).run calls).Size
    ∧ (∀ k', k' ≠ k →
        GoMap.get? (((NewCache maxSize ttl).run calls).Get k now).2.entries k'
          = GoMap.get? ((NewCache maxSize ttl).run calls).entries k')
    ∧ (((NewCache maxSize ttl).run calls).Get k now).2.order
        = ((NewCache maxSize ttl).run calls).order.filter (fun x => x != k) := by
  have hc := consistent_run calls (NewCache maxSize ttl) (consistent_new maxSize ttl)
  generalize (NewCache maxSize ttl).run calls = c at hpresent hexpired hc
  have hmem : k ∈ AList.keys c.entries := by
    unfold GoMap.get? at hpresent
    exact AList.mem_keys.mp (AList.lookup_isSome.mp (by rw [hpresent]; rfl))
  have hget : c.Get k now = (none, { c with
      entries := GoMap.delete c.entries k
      order := removeFromOrder c.order k }) := by
    unfold Cache.Get
    rw [hpresent]
    simp only [if_pos hexpired]
  rw [hget]
  simp only [removeFromOrder_eq_erase]
  refine ⟨trivial, ?_, hc.1.not_mem_erase, ?_, ?_, hc.1.erase_eq_filter k⟩
  · simp [GoMap.get?, GoMap.delete]
  · simp only [Cache.Size, GoMap.len, GoMap.delete, AList.keys_erase]
    rw [List.length_erase_of_mem hmem]
    have : 0 < (AList.keys c.entries).length := List.length_pos_of_mem hmem
    omega
  · intro k' hne
    simp only [GoMap.get?, GoMap.delete]
    exact AList.lookup_erase_ne hne

theorem holds_consistent {entries : GoMap String cacheEntry} {order : List String}
    {ps : List (String × DecisionResponse × Int)} (h : Holds entries order ps)
    (hnd : (ps.map (fun x => x.1)).Nodup) : Consistent entries order := by
  obtain ⟨ho, hk, -⟩ := h
  refine ⟨ho ▸ hnd, fun k => ?_⟩
  rw [ho, hk]

theorem holds_len {entries : GoMap String cacheEntry} {order : List String}
    {ps : List (String × DecisionResponse × Int)} (h : Holds entries order ps)
    (hnd : (ps.map (fun x => x.1)).Nodup) : GoMap.len entries = ps.length := by
  rw [len_eq_of_consistent (holds_consistent h hnd), h.1, List.length_map]

theorem evictLoop_room (maxSize : Int) (entries : GoMap String cacheEntry)
    (order : List String) (h : (GoMap.len entries : Int) < maxSize) :
    evictLoop maxSize entries order = (entries, order) := by
  cases order with
  | nil => rw [evictLoop]
  | cons a t => rw [evictLoop, if_neg (not_le.mpr h)]

theorem holds_delete_head {entries : GoMap String cacheEntry} {order : List String}
    {p : String × DecisionResponse × Int} {ps : List (String × DecisionResponse × Int)}
    (h : Holds entries order (p :: ps)) (hnd : ((p :: ps).map (fun x => x.1)).Nodup) :
    Holds (GoMap.delete entries p.1) (ps.map (fun x => x.1)) ps := by
  obtain ⟨-, hk, hl⟩ := h
  rw [List.map_cons, List.nodup_cons] at hnd
  refine ⟨rfl, fun k => ?_, fun x hx => ?_⟩
  · unfold GoMap.delete
    rw [AList.keys_erase, (AList.keys_nodup entries).mem_erase_iff, hk, List.map_cons,
      List.mem_cons]
    constructor
    · rintro ⟨hne, h | h⟩
      · exact absurd h hne
      · exact h
    · intro h
      exact ⟨fun e => hnd.1 (e ▸ h), Or.inr h⟩
  · have hne : x.1 ≠ p.1 := fun e => hnd.1 (e ▸ List.mem_map_of_mem (fun x => x.1) hx)
    unfold GoMap.get? GoMap.delete
    rw [AList.lookup_erase_ne hne]
    exact hl x (List.mem_cons_of_mem _ hx)

theorem evictLoop_full {maxSize : Int} {entries : GoMap String cacheEntry}
    {order : List String} {p : String × DecisionResponse × Int}
    {ps : List (String × DecisionResponse × Int)}
    (h : Holds entries order (p :: ps)) (hnd : ((p :: ps).map (fun x => x.1)).Nodup)
    (hm : maxSize = (ps.length : Int) + 1) :
    evictLoop maxSize entries order = (GoMap.delete entries p.1, ps.map (fun x => x.1)) := by
  have hlen := holds_len h hnd
  have hlen' := holds_len (holds_delete_head h hnd) (List.nodup_cons.mp hnd).2
  rw [h.1, List.map_cons, evictLoop, if_pos (by rw [hlen, List.length_cons]; omega)]
  exact evictLoop_room _ _ _ (by rw [hlen']; omega)

theorem holds_insert {entries : GoMap String cacheEntry} {order : List String}
    {ps : List (String × DecisionResponse × Int)} (x : String × DecisionResponse × Int)
    (h : Holds entries order ps) (hx : x.1 ∉ ps.map (fun x => x.1)) :
    Holds (GoMap.set entries x.1 { response := x.2.1, createdAt := x.2.2 })
      (removeFromOrder order x.1 ++ [x.1]) (ps ++ [x]) := by
  obtain ⟨ho, hk, hl⟩ := h
  refine ⟨?_, fun k => ?_, fun y hy => ?_⟩
  · rw [removeFromOrder_eq_erase, ho, List.erase_of_not_mem hx]
    simp
  · unfold GoMap.set
    rw [← AList.mem_keys, AList.mem_insert, AList.mem_keys, hk]
    simp only [List.map_append, List.map_cons, List.map_nil, List.mem_append,
      List.mem_singleton]
    exact or_comm
  · unfold GoMap.get? GoMap.set
    rcases List.mem_append.mp hy with hy | hy
    · have hne : y.1 ≠ x.1 := fun e => hx (e ▸ List.mem_map_of_mem (fun x => x.1) hy)
      rw [AList.lookup_insert_ne hne]
      exact hl y hy
    · rw [List.mem_singleton] at hy
      rw [hy, AList.lookup_insert]

theorem run_append (c : Cache) (calls : List Call) (call : Call) :
    c.run (calls ++ [call]) = (c.run calls).step call := by
  simp [Cache.run, List.foldl_append]

theorem run_puts (maxSize ttl : Int) (ps : List (String × DecisionResponse × Int)) :
    (ps.map (fun x => x.1)).Nodup → (ps.length : Int) ≤ maxSize →
      Holds ((NewCache maxSize ttl).run (ps.map putCall)).entries
          ((NewCache maxSize ttl).run (ps.map putCall)).order ps
      ∧ ((NewCache maxSize ttl).run (ps.map putCall)).maxSize = maxSize
      ∧ ((NewCache maxSize ttl).run (ps.map putCall)).ttl = ttl := by
  induction ps using List.reverseRecOn with
  | nil =>
    intro _ _
    simp [Holds, Cache.run, NewCache, GoMap.empty]
  | append_singleton ps x ih =>
    intro hnd hlen
    rw [List.map_append, List.nodup_append] at hnd
    rw [List.length_append, List.length_singleton] at hlen
    obtain ⟨hh, hm, ht⟩ := ih hnd.1 (by push_cast at hlen; omega)
    have hx : x.1 ∉ ps.map (fun x => x.1) := fun hmem =>
      hnd.2.2 hmem (by simp)
    rw [List.map_append, List.map_singleton, run_append]
    generalize (NewCache maxSize ttl).run (ps.map putCall) = c at hh hm ht
    have hev : evictLoop c.maxSize c.entries c.order = (c.entries, c.order) :=
      evictLoop_room _ _ _ (by rw [holds_len hh hnd.1, hm]; push_cast at hlen; omega)
    refine ⟨?_, hm, ht⟩
    simp only [Cache.step, putCall, Cache.Put, hev]
    exact holds_insert x hh hx

/-- C8: for a capacity `n` at least 1, putting `n + 1` pairwise distinct keys
into the empty cache, with no `Get` in between, evicts exactly the first:
afterwards `Size()` is `n`, `Get` of the first key is a miss, and `Get` of any
later key within its TTL is a hit returning the response put under it. -/
theorem put_overflow_evicts_first (n : Nat) (hn : 1 ≤ n) (ttl : Int)
    (first : String × DecisionResponse × Int) (rest : List (String × DecisionResponse × Int))
    (hlen : rest.length = n) (hnd : ((first :: rest).map (fun x => x.1)).Nodup) :
    ((NewCache n ttl).run ((first :: rest).map putCall)).Size = n
    ∧ (∀ now, (((NewCache n ttl).run ((first :: rest).map putCall)).Get first.1 now).1 = none)
    ∧ (∀ x ∈ rest, ∀ now, ¬ (now - x.2.2 > ttl) →
        (((NewCache n ttl).run ((first :: rest).map putCall)).Get x.1 now).1
          = some { x.2.1 with FromCache := true }) := by
  rcases List.eq_nil_or_concat rest with hnil | ⟨front, last, hcat⟩
  · subst hnil; simp at hlen; omega
  rw [List.concat_eq_append] at hcat
  subst hcat
  rw [List.length_append, List.length_singleton] at hlen
  have hnd' : ((first :: front).map (fun x => x.1)).Nodup ∧
      last.1 ∉ (first :: front).map (fun x => x.1) := by
    rw [← List.cons_append, List.map_append, List.nodup_append] at hnd
    exact ⟨hnd.1, fun hmem => hnd.2.2 hmem (by simp)⟩
  obtain ⟨hh, hm, ht⟩ := run_puts n ttl (first :: front) hnd'.1
    (by rw [List.length_cons]; push_cast; omega)
  have hfinal : Holds ((NewCache n ttl).run ((first :: (front ++ [last])).map putCall)).entries
      ((NewCache n ttl).run ((first :: (front ++ [last])).map putCall)).order
      (front ++ [last])
      ∧ ((NewCache n ttl).run ((first :: (front ++ [last])).map putCall)).ttl = ttl := by
    rw [← List.cons_append, List.map_append, List.map_singleton, run_append]
    generalize (NewCache n ttl).run ((first :: front).map putCall) = c at hh hm ht
    have hev := @evictLoop_full c.maxSize _ _ _ _ hh hnd'.1 (by rw [hm]; omega)
    refine ⟨?_, ht⟩
    simp only [Cache.step, putCall, Cache.Put, hev]
    exact holds_insert last (holds_delete_head hh hnd'.1)
      (fun hmem => hnd'.2 (List.mem_cons_of_mem _ hmem))
  generalize (NewCache n ttl).run ((first :: (front ++ [last])).map putCall) = c at hfinal
  obtain ⟨hh', ht'⟩ := hfinal
  have hndrest : ((front ++ [last]).map (fun x => x.1)).Nodup := by
    rw [List.map_cons, List.nodup_cons] at hnd
    exact hnd.2
  refine ⟨?_, ?_, ?_⟩
  · rw [Cache.Size, holds_len hh' hndrest, List.length_append, List.length_singleton, hlen]
  · intro now
    have habs : GoMap.get? c.entries first.1 = none := by
      unfold GoMap.get?
      rw [AList.lookup_eq_none, AList.mem_keys, hh'.2.1]
      rw [List.map_cons, List.nodup_cons] at hnd
      exact hnd.1
    unfold Cache.Get
    rw [habs]
  · intro x hx now hfresh
    unfold Cache.Get
    rw [hh'.2.2 x hx]
    simp only [ht', if_neg hfresh]

/-- C8 on the cache of the test: capacity 3, keys key1 to key4. -/
theorem put_overflow_evicts_first_witness :
    1 ≤ 3
    ∧ ([("key2", ({} : DecisionResponse), (1 : Int)), ("key3", {}, 2),
        ("key4", {}, 3)]).length = 3
    ∧ ((NewCache (3 : Nat) 300).run
        ((("key1", ({} : DecisionResponse), (0 : Int)) ::
          [("key2", {}, 1), ("key3", {}, 2), ("key4", {}, 3)]).map putCall)).Size = 3 :=
  ⟨by decide, rfl,
   (put_overflow_evicts_first 3 (by decide) 300 ("key1", {}, 0)
      [("key2", {}, 1), ("key3", {}, 2), ("key4", {}, 3)] rfl (by decide)).1⟩

/-- C10 on a cache with TTL 50 whose only entry was put at time 0, read at
time 100. -/
theorem get_expired_removes_witness :
    GoMap.get? ((NewCache 10 50).run [Call.put "key1" {} 0]).entries "key1"
        = some { response := {}, createdAt := 0 }
    ∧ (100 : Int) - 0 > ((NewCache 10 50).run [Call.put "key1" {} 0]).ttl
    ∧ (((NewCache 10 50).run [Call.put "key1" {} 0]).Get "key1" 100).1 = none :=
  ⟨rfl, by decide,
   (get_expired_removes 10 50 [Call.put "key1" {} 0] "key1" 100
      { response := {}, createdAt := 0 } rfl (by decide)).1⟩

end ai

/-! ## Consent policy: theorems -/

namespace safety

open monitor

/-- C18: `NeedsConfirmation` is false at level 0; at level 1 it is true exactly
for the categories System and Essential, hence false for User and Kernel; it
is true at level 2 and at level 3; the manager answers what its consent
manager answers, and `IsMonitorOnly` is true exactly at level 3. -/
theorem needsConfirmation_levels (m : Manager) (p : ProcessInfo) :
    (m.consentMgr.Level = 0 → m.NeedsConfirmation p = false)
    ∧ (m.consentMgr.Level = 1 →
        (m.NeedsConfirmation p = true
          ↔ p.Category = CategorySystem ∨ p.Category = CategoryEssential))
    ∧ (m.consentMgr.Level = 1 → p.Category = CategoryUser ∨ p.Category = CategoryKernel →
        m.NeedsConfirmation p = false)
    ∧ (m.consentMgr.Level = 2 → m.NeedsConfirmation p = true)
    ∧ (m.consentMgr.Level = 3 → m.NeedsConfirmation p = true)
    ∧ m.NeedsConfirmation p = m.consentMgr.NeedsConfirmation p
    ∧ (m.IsMonitorOnly = true ↔ m.ConsentLevel = 3) := by
  unfold Manager.NeedsConfirmation ConsentManager.NeedsConfirmation ConsentManager.Level
    Manager.IsMonitorOnly Manager.ConsentLevel ConsentManager.Level
  simp only [ConsentAutomatic, ConsentNotifySystem, ConsentConfirmAll, ConsentMonitorOnly,
    CategorySystem, CategoryEssential, CategoryUser, CategoryKernel]
  refine ⟨?_, ?_, ?_, ?_, ?_, trivial, ?_⟩
  · intro h; simp [h]
  · intro h; simp [h]
  · intro h hc
    rcases hc with hc | hc <;> simp [h, hc]
  · intro h; simp [h]
  · intro h; simp [h]
  · simp

/-- C18 at the two records of the test, for the levels 0 to 3. -/
theorem needsConfirmation_levels_witness :
    (NewManager [] [] 0).NeedsConfirmation { PID := 1000, Name := "firefox" } = false
    ∧ (NewManager [] [] 1).NeedsConfirmation
        { PID := 500, Name := "cron", Category := CategorySystem } = true
    ∧ (NewManager [] [] 1).NeedsConfirmation { PID := 1000, Name := "firefox" } = false
    ∧ (NewManager [] [] 2).NeedsConfirmation { PID := 1000, Name := "firefox" } = true
    ∧ (NewManager [] [] 3).NeedsConfirmation { PID := 1000, Name := "firefox" } = true :=
  ⟨(needsConfirmation_levels (NewManager [] [] 0) { PID := 1000, Name := "firefox" }).1
      (by decide),
   ((needsConfirmation_levels (NewManager [] [] 1)
      { PID := 500, Name := "cron", Category := CategorySystem }).2.1 (by decide)).mpr
      (Or.inl rfl),
   (needsConfirmation_levels (NewManager [] [] 1) { PID := 1000, Name := "firefox" }).2.2.1
      (by decide) (Or.inl rfl),
   (needsConfirmation_levels (NewManager [] [] 2) { PID := 1000, Name := "firefox" }).2.2.2.1
      (by decide),
   (needsConfirmation_levels (NewManager [] [] 3) { PID := 1000, Name := "firefox" }).2.2.2.2.1
      (by decide)⟩

theorem clamp_eq (n : Int) :
    (if (if n < 0 then 0 else n) > 3 then 3 else (if n < 0 then 0 else n)) = min 3 (max 0 n) := by
  split_ifs <;> omega

/-- C19: after `NewConsentManager(n)`, `SetLevel(n)`, `NewManager(_, _, n)` or
`SetConsentLevel(n)` the level read back is `min(3, max(0, n))`, and every
state reached from `NewConsentManager` by `SetLevel` calls has its level
within 0 and 3. -/
theorem consent_level_clamped (n : Int) :
    (NewConsentManager n).Level = min 3 (max 0 n)
    ∧ (∀ c : ConsentManager, (c.SetLevel n).Level = min 3 (max 0 n))
    ∧ (∀ P N : List String, (NewManager P N n).ConsentLevel = min 3 (max 0 n))
    ∧ (∀ m : Manager, (m.SetConsentLevel n).ConsentLevel = min 3 (max 0 n))
    ∧ (∀ levels : List Int,
        0 ≤ (levels.foldl ConsentManager.SetLevel (NewConsentManager n)).Level
        ∧ (levels.foldl ConsentManager.SetLevel (NewConsentManager n)).Level ≤ 3) := by
  have hnew : ∀ k : Int, (NewConsentManager k).Level = min 3 (max 0 k) := fun k => clamp_eq k
  have hset : ∀ (c : ConsentManager) (k : Int), (c.SetLevel k).Level = min 3 (max 0 k) :=
    fun _ k => clamp_eq k
  refine ⟨hnew n, fun c => hset c n, fun _ _ => hnew n, fun m => hset m.consentMgr n, ?_⟩
  intro levels
  have hinv : ∀ (ls : List Int) (c : ConsentManager), 0 ≤ c.Level ∧ c.Level ≤ 3 →
      0 ≤ (ls.foldl ConsentManager.SetLevel c).Level
      ∧ (ls.foldl ConsentManager.SetLevel c).Level ≤ 3 := by
    intro ls
    induction ls with
    | nil => intro c h; exact h
    | cons a t ih =>
      intro c _
      refine ih (c.SetLevel a) ?_
      rw [hset]
      omega
  refine hinv levels _ ?_
  rw [hnew]
  omega

end safety

/-! ## Advisory cache: recency -/

namespace ai

theorem keys_after_hit (k1 k2 ke : String) (R : List String)
    (h : (k1 :: k2 :: R ++ [ke]).Nodup) :
    (k1 :: k2 :: R).Nodup ∧ (k2 :: (R ++ [k1])).Nodup ∧ ke ∉ R ++ [k1]
      ∧ k2 ∉ R ++ [k1] ++ [ke] ∧ (R ++ [k1] ++ [ke]).Nodup := by
  have hp : (k2 :: (R ++ [k1] ++ [ke])).Perm (k1 :: k2 :: R ++ [ke]) := by
    have h1 : (R ++ [k1] ++ [ke]).Perm (k1 :: (R ++ [ke])) := by
      rw [List.append_assoc]
      exact (List.perm_middle).trans (List.Perm.refl _)
    exact (List.Perm.cons k2 h1).trans (List.Perm.swap k1 k2 _)
  have hn := hp.nodup_iff.mpr h
  have h0 : (k1 :: k2 :: R).Nodup := by
    have : (k1 :: k2 :: R).Sublist (k1 :: k2 :: R ++ [ke]) := by
      simp
    exact h.sublist this
  rw [List.nodup_cons] at hn
  obtain ⟨hk2, hrest⟩ := hn
  have hrest' := hrest
  rw [List.nodup_append] at hrest'
  obtain ⟨hR1, -, hdis⟩ := hrest'
  refine ⟨h0, List.nodup_cons.mpr ⟨fun hm => hk2 (List.mem_append_left _ hm), hR1⟩, ?_, hk2, hrest⟩
  intro hm
  exact hdis hm (List.mem_singleton_self _)

/-- C11: for a capacity `n` at least 2 (two keys and `n - 2` more), after `n`
pairwise distinct keys are put into the empty cache, a `Get` of the first key that hits, and a `Put` of a
further distinct key, the second key is the one evicted: it is absent, while
the first key, the remaining keys and the new key are present, in that
recency order, and `Size()` is `n`. -/
theorem hit_refreshes_recency (n : Nat) (ttl : Int)
    (first second : String × DecisionResponse × Int)
    (rest : List (String × DecisionResponse × Int)) (extra : String × DecisionResponse × Int)
    (now : Int) (hlen : rest.length + 2 = n)
    (hnd : ((first :: second :: rest ++ [extra]).map (fun x => x.1)).Nodup)
    (hfresh : ¬ (now - first.2.2 > ttl)) :
    (((NewCache n ttl).run ((first :: second :: rest).map putCall)).Get first.1 now).1
        = some { first.2.1 with FromCache := true }
    ∧ GoMap.get?
        (((((NewCache n ttl).run ((first :: second :: rest).map putCall)).Get first.1 now).2).Put
          extra.1 extra.2.1 extra.2.2).entries second.1 = none
    ∧ GoMap.get?
        (((((NewCache n ttl).run ((first :: second :: rest).map putCall)).Get first.1 now).2).Put
          extra.1 extra.2.1 extra.2.2).entries first.1
        = some { response := first.2.1, createdAt := first.2.2 }
    ∧ (((((NewCache n ttl).run ((first :: second :: rest).map putCall)).Get first.1 now).2).Put
          extra.1 extra.2.1 extra.2.2).order
        = rest.map (fun x => x.1) ++ [first.1, extra.1]
    ∧ (((((NewCache n ttl).run ((first :: second :: rest).map putCall)).Get first.1 now).2).Put
          extra.1 extra.2.1 extra.2.2).Size = n := by
  have hkeys : ((first :: second :: rest).map (fun x => x.1)).Nodup
      ∧ ((second :: (rest ++ [first])).map (fun x => x.1)).Nodup
      ∧ extra.1 ∉ (rest ++ [first]).map (fun x => x.1)
      ∧ second.1 ∉ (rest ++ [first] ++ [extra]).map (fun x => x.1)
      ∧ ((rest ++ [first] ++ [extra]).map (fun x => x.1)).Nodup := by
    have := keys_after_hit first.1 second.1 extra.1 (rest.map (fun x => x.1))
      (by simpa using hnd)
    simpa using this
  obtain ⟨hnd0, hnd1, hextra, hsecond, hnd2⟩ := hkeys
  obtain ⟨hh, hm, ht⟩ := run_puts n ttl (first :: second :: rest) hnd0
    (by simp only [List.length_cons]; push_cast; omega)
  generalize (NewCache n ttl).run ((first :: second :: rest).map putCall) = c at hh hm ht
  have hlook : GoMap.get? c.entries first.1
      = some { response := first.2.1, createdAt := first.2.2 } :=
    hh.2.2 first (List.mem_cons_self _ _)
  have hget : c.Get first.1 now = (some { first.2.1 with FromCache := true },
      { c with order := removeFromOrder c.order first.1 ++ [first.1] }) := by
    unfold Cache.Get
    rw [hlook]
    simp only [ht, if_neg hfresh]
  rw [hget]
  have hh1 : Holds c.entries (removeFromOrder c.order first.1 ++ [first.1])
      (second :: (rest ++ [first])) := by
    obtain ⟨ho, hk, hl⟩ := hh
    refine ⟨?_, fun k => ?_, fun x hx => ?_⟩
    · rw [ho, List.map_cons, removeFromOrder, if_pos rfl]
      simp
    · rw [hk]
      simp only [List.map_cons, List.map_append, List.map_nil, List.mem_cons, List.mem_append,
        List.mem_singleton, List.not_mem_nil, or_false]
      tauto
    · refine hl x ?_
      simp only [List.mem_cons, List.mem_append, List.mem_singleton, List.not_mem_nil,
        or_false] at hx ⊢
      tauto
  have hev := @evictLoop_full c.maxSize _ _ _ _ hh1 hnd1
    (by rw [hm, List.length_append, List.length_singleton]; push_cast; omega)
  have hh2 := holds_insert extra (holds_delete_head hh1 hnd1) hextra
  have hput : ∀ c' : Cache, c'.entries = c.entries →
      c'.order = removeFromOrder c.order first.1 ++ [first.1] → c'.maxSize = c.maxSize →
      Holds (c'.Put extra.1 extra.2.1 extra.2.2).entries
        (c'.Put extra.1 extra.2.1 extra.2.2).order (rest ++ [first] ++ [extra]) := by
    intro c' he ho hms
    simp only [Cache.Put, he, ho, hms, hev]
    exact hh2
  have hfinal := hput { c with order := removeFromOrder c.order first.1 ++ [first.1] }
    rfl rfl rfl
  refine ⟨rfl, ?_, ?_, ?_, ?_⟩
  · unfold GoMap.get?
    rw [AList.lookup_eq_none, AList.mem_keys, hfinal.2.1]
    exact hsecond
  · exact hfinal.2.2 first (by simp)
  · rw [hfinal.1]
    simp
  · rw [Cache.Size, holds_len hfinal hnd2]
    simp only [List.length_append, List.length_singleton]
    omega

/-- C11 on a cache of capacity 3: keys key1, key2, key3, a hit on key1, then
key4. -/
theorem hit_refreshes_recency_witness :
    ([("key3", ({} : DecisionResponse), (2 : Int))]).length + 2 = 3
    ∧ GoMap.get?
        (((((NewCache (3 : Nat) 300).run
            ((("key1", ({} : DecisionResponse), (0 : Int)) ::
              ("key2", {}, 1) :: [("key3", {}, 2)]).map putCall)).Get "key1" 3).2).Put
          "key4" {} 4).entries "key2" = none :=
  ⟨rfl,
   (hit_refreshes_recency 3 300 ("key1", {}, 0) ("key2", {}, 1) [("key3", {}, 2)]
      ("key4", {}, 4) 3 rfl (by decide) (by decide)).2.1⟩

end ai

/-! ## float64 rounding: theorems -/

theorem roundHalfEven_of_near (x : ℚ) (n : Int) (h : |x - n| < 1 / 2) : roundHalfEven x = n := by
  rw [abs_lt] at h
  obtain ⟨h1, h2⟩ := h
  by_cases hx : (n : ℚ) ≤ x
  · have hf : ⌊x⌋ = n := Int.floor_eq_iff.mpr ⟨hx, by linarith⟩
    unfold roundHalfEven
    rw [hf, if_pos (by linarith)]
  · have hf : ⌊x⌋ = n - 1 := Int.floor_eq_iff.mpr ⟨by push_cast; linarith, by push_cast; linarith⟩
    unfold roundHalfEven
    rw [hf, if_neg (by push_cast; linarith), if_pos (by push_cast; linarith)]
    ring

theorem roundHalfEven_err (x : ℚ) : |(roundHalfEven x : ℚ) - x| ≤ 1 / 2 := by
  have h1 := Int.floor_le x
  have h2 := Int.lt_floor_add_one x
  unfold roundHalfEven
  rw [abs_le]
  split
  · constructor <;> linarith
  · split
    · push_cast; constructor <;> linarith
    · split
      · constructor <;> linarith
      · push_cast; constructor <;> linarith

theorem roundHalfEven_nonneg (x : ℚ) (h : 0 ≤ x) : 0 ≤ roundHalfEven x := by
  have h1 : 0 ≤ ⌊x⌋ := Int.floor_nonneg.mpr h
  unfold roundHalfEven
  split
  · exact h1
  · split
    · omega
    · split
      · exact h1
      · omega

theorem log_eq_of_bounds (x : ℚ) (e : Int) (hlo : (2 : ℚ) ^ e ≤ |x|) (hhi : |x| < (2 : ℚ) ^ (e + 1)) :
    Int.log 2 |x| = e := by
  have hpos : 0 < |x| := lt_of_lt_of_le (zpow_pos (by norm_num) e) hlo
  have h1 : e ≤ Int.log 2 |x| := (Int.zpow_le_iff_le_log (by norm_num) hpos).mp (by exact_mod_cast hlo)
  have h2 : Int.log 2 |x| < e + 1 := (Int.lt_zpow_iff_log_lt (by norm_num) hpos).mp (by exact_mod_cast hhi)
  omega

theorem roundFloat64_of_bounds (x : ℚ) (e n : Int) (hlo : (2 : ℚ) ^ e ≤ |x|)
    (hhi : |x| < (2 : ℚ) ^ (e + 1)) (hn : |x / (2 : ℚ) ^ (e - 52) - n| < 1 / 2) :
    roundFloat64 x = (n : ℚ) * (2 : ℚ) ^ (e - 52) := by
  have hpos : 0 < |x| := lt_of_lt_of_le (zpow_pos (by norm_num) e) hlo
  have hx : x ≠ 0 := abs_pos.mp hpos
  unfold roundFloat64
  rw [if_neg hx, log_eq_of_bounds x e hlo hhi, roundHalfEven_of_near _ n hn]

theorem roundHalfEven_tie_odd (x : ℚ) (f : Int) (h : x = (f : ℚ) + 1 / 2) (hodd : f % 2 = 1) :
    roundHalfEven x = f + 1 := by
  have hf : ⌊x⌋ = f := Int.floor_eq_iff.mpr ⟨by linarith, by linarith⟩
  unfold roundHalfEven
  rw [hf, if_neg (by linarith), if_neg (by linarith), if_neg (by omega)]

theorem roundFloat64_tie_odd (x : ℚ) (e f : Int) (hlo : (2 : ℚ) ^ e ≤ |x|)
    (hhi : |x| < (2 : ℚ) ^ (e + 1)) (hf : x / (2 : ℚ) ^ (e - 52) = (f : ℚ) + 1 / 2)
    (hodd : f % 2 = 1) :
    roundFloat64 x = ((f + 1 : Int) : ℚ) * (2 : ℚ) ^ (e - 52) := by
  have hpos : 0 < |x| := lt_of_lt_of_le (zpow_pos (by norm_num) e) hlo
  have hx : x ≠ 0 := abs_pos.mp hpos
  unfold roundFloat64
  rw [if_neg hx, log_eq_of_bounds x e hlo hhi, roundHalfEven_tie_odd _ f hf hodd]

theorem roundFloat64_err (x : ℚ) : |roundFloat64 x - x| ≤ |x| / 2 ^ 53 := by
  by_cases hx : x = 0
  · simp [roundFloat64, hx]
  · have hpos : 0 < |x| := abs_pos.mpr hx
    have hu : (0 : ℚ) < (2 : ℚ) ^ (Int.log 2 |x| - 52) := zpow_pos (by norm_num) _
    have hle : (2 : ℚ) ^ (Int.log 2 |x|) ≤ |x| := by
      have := @Int.zpow_log_le_self ℚ _ _ 2 |x| (by norm_num) hpos
      exact_mod_cast this
    have hsplit : (2 : ℚ) ^ (Int.log 2 |x| - 52) = (2 : ℚ) ^ (Int.log 2 |x|) / 2 ^ 52 := by
      rw [zpow_sub₀ (by norm_num)]
      norm_num
    unfold roundFloat64
    rw [if_neg hx]
    have herr := roundHalfEven_err (x / (2 : ℚ) ^ (Int.log 2 |x| - 52))
    have heq : (roundHalfEven (x / (2 : ℚ) ^ (Int.log 2 |x| - 52)) : ℚ)
          * (2 : ℚ) ^ (Int.log 2 |x| - 52) - x
        = ((roundHalfEven (x / (2 : ℚ) ^ (Int.log 2 |x| - 52)) : ℚ)
            - x / (2 : ℚ) ^ (Int.log 2 |x| - 52)) * (2 : ℚ) ^ (Int.log 2 |x| - 52) := by
      field_simp
    rw [heq, abs_mul, abs_of_pos hu]
    calc _ ≤ 1 / 2 * (2 : ℚ) ^ (Int.log 2 |x| - 52) := mul_le_mul_of_nonneg_right herr hu.le
      _ = (2 : ℚ) ^ (Int.log 2 |x|) / 2 ^ 53 := by rw [hsplit]; ring
      _ ≤ |x| / 2 ^ 53 := div_le_div_of_nonneg_right hle (by norm_num)

theorem roundFloat64_nonneg (x : ℚ) (h : 0 ≤ x) : 0 ≤ roundFloat64 x := by
  unfold roundFloat64
  split
  · exact le_refl _
  · have hu : (0 : ℚ) < (2 : ℚ) ^ (Int.log 2 |x| - 52) := zpow_pos (by norm_num) _
    have := roundHalfEven_nonneg (x / (2 : ℚ) ^ (Int.log 2 |x| - 52)) (div_nonneg h hu.le)
    exact mul_nonneg (by exact_mod_cast this) hu.le

theorem roundFloat64_int (n : Int) (h : |n| < 2 ^ 53) : roundFloat64 (n : ℚ) = n := by
  by_cases hn : n = 0
  · simp [roundFloat64, hn]
  · have hx : (n : ℚ) ≠ 0 := by exact_mod_cast hn
    have hpos : 0 < |(n : ℚ)| := abs_pos.mpr hx
    have hlt : Int.log 2 |(n : ℚ)| < 53 := by
      apply (Int.lt_zpow_iff_log_lt (by norm_num) hpos).mp
      have : |(n : ℚ)| < 2 ^ 53 := by exact_mod_cast h
      exact_mod_cast this
    obtain ⟨k, hk⟩ : ∃ k : ℕ, 52 - Int.log 2 |(n : ℚ)| = k := ⟨(52 - Int.log 2 |(n : ℚ)|).toNat, by omega⟩
    have hexp : Int.log 2 |(n : ℚ)| - 52 = -(k : Int) := by omega
    unfold roundFloat64
    rw [if_neg hx, hexp, zpow_neg, zpow_natCast]
    have hint : (n : ℚ) / ((2 : ℚ) ^ k)⁻¹ = ((n * 2 ^ k : Int) : ℚ) := by
      push_cast
      field_simp
    rw [hint, roundHalfEven_of_near _ (n * 2 ^ k) (by simp)]
    push_cast
    field_simp

theorem toInt_intCast (k : Int) : Float64.toInt ((k : Int) : ℚ) = k := by
  simp [Float64.toInt]

theorem toInt_of_nonneg (c : ℚ) (h : 0 ≤ c) : Float64.toInt c = ⌊c⌋ := by
  unfold Float64.toInt
  rw [Int.tdiv_eq_ediv (Rat.num_nonneg.mpr h) (by exact_mod_cast Nat.zero_le _), Rat.floor_def]

/-! ## Termination executor: the graceful path -/

namespace process

theorem probeRounds_succ (pid : Int) (k : Nat) :
    probeRounds pid (k + 1)
      = [Event.signal pid Signal.probe, Event.sleep 100] ++ probeRounds pid k := by
  simp [probeRounds, List.replicate_succ]

theorem waitLoop_spec (os : OS) (pid : Int) (n : Nat) :
    ∀ tr : List Event, ∃ k, k ≤ n
      ∧ (∀ j, j < k → os.deliver (tr ++ probeRounds pid j) pid Signal.probe = none)
      ∧ ((k < n ∧ (os.deliver (tr ++ probeRounds pid k) pid Signal.probe).isSome = true
            ∧ waitLoop os pid n tr
              = tr ++ probeRounds pid k ++ [Event.signal pid Signal.probe])
          ∨ (k = n ∧ waitLoop os pid n tr
              = tr ++ probeRounds pid n ++ [Event.signal pid Signal.SIGKILL])) := by
  induction n with
  | zero =>
    intro tr
    exact ⟨0, le_refl _, fun j hj => absurd hj (Nat.not_lt_zero j),
      Or.inr ⟨rfl, by simp [waitLoop, probeRounds]⟩⟩
  | succ n ih =>
    intro tr
    cases hd : os.deliver tr pid Signal.probe with
    | some e =>
      refine ⟨0, Nat.zero_le _, fun j hj => absurd hj (Nat.not_lt_zero j),
        Or.inl ⟨Nat.succ_pos n, ?_, ?_⟩⟩
      · simp [probeRounds, hd]
      · simp [waitLoop, hd, probeRounds]
    | none =>
      obtain ⟨k, hk, hall, hend⟩ :=
        ih (tr ++ [Event.signal pid Signal.probe, Event.sleep 100])
      have hshift : ∀ j, tr ++ probeRounds pid (j + 1)
          = tr ++ [Event.signal pid Signal.probe, Event.sleep 100] ++ probeRounds pid j := by
        intro j
        rw [probeRounds_succ, List.append_assoc]
      refine ⟨k + 1, Nat.succ_le_succ hk, ?_, ?_⟩
      · intro j hj
        cases j with
        | zero => simpa [probeRounds] using hd
        | succ j =>
          rw [hshift]
          exact hall j (Nat.lt_of_succ_lt_succ hj)
      · rcases hend with ⟨hlt, hgone, htr⟩ | ⟨heq, htr⟩
        · refine Or.inl ⟨Nat.succ_lt_succ hlt, ?_, ?_⟩
          · rw [hshift]; exact hgone
          · rw [hshift, waitLoop, hd]
            exact htr
        · refine Or.inr ⟨by rw [heq], ?_⟩
          rw [hshift, waitLoop, hd]
          exact htr

theorem probeCount_seconds (s : Int) (h0 : 0 ≤ s) (h63 : s * 1000000000 < 2 ^ 63) :
    (probeCount (s * 1000000000) : Int) = s * 10 := by
  have hdiv : Int.tdiv (s * 1000000000) 1000000000 = s := by
    rw [Int.tdiv_eq_ediv (by omega) (by decide)]
    omega
  have hmod : Int.tmod (s * 1000000000) 1000000000 = 0 := by
    rw [Int.tmod_eq_emod (by omega) (by decide)]
    omega
  have hs : roundFloat64 (s : ℚ) = s := roundFloat64_int s (by rw [abs_of_nonneg h0]; omega)
  have hz : roundFloat64 0 = 0 := by simp [roundFloat64]
  have h10 : roundFloat64 ((s : ℚ) * 10) = ((s * 10 : Int) : ℚ) := by
    have := roundFloat64_int (s * 10) (by rw [abs_of_nonneg (by omega)]; omega)
    push_cast at this ⊢
    exact this
  unfold probeCount time.Duration.Seconds
  rw [hdiv, hmod]
  simp only [Int.cast_zero, hz, zero_div, add_zero, hs, h10, toInt_intCast]
  omega

theorem probeCount_near (t : Int) (h0 : 0 ≤ t) (h63 : t < 2 ^ 63) :
    t * 10 / 1000000000 - 1 ≤ (probeCount t : Int)
    ∧ (probeCount t : Int) ≤ t * 10 / 1000000000 + 1 := by
  have hdiv : Int.tdiv t 1000000000 = t / 1000000000 :=
    Int.tdiv_eq_ediv h0 (by decide)
  have hmod : Int.tmod t 1000000000 = t % 1000000000 :=
    Int.tmod_eq_emod h0 (by decide)
  have hfloor : t * 10 / 1000000000
      = ⌊(((t / 1000000000 : Int) : ℚ) + ((t % 1000000000 : Int) : ℚ) / 1000000000) * 10⌋ := by
    have hsplit : t = t / 1000000000 * 1000000000 + t % 1000000000 := by omega
    have hq : (((t / 1000000000 : Int) : ℚ) + ((t % 1000000000 : Int) : ℚ) / 1000000000) * 10
        = ((t * 10 : Int) : ℚ) / ((1000000000 : ℕ) : ℚ) := by
      nth_rewrite 3 [hsplit]
      push_cast
      ring
    rw [hq, Rat.floor_intCast_div_natCast]
    rfl
  have hs0 : 0 ≤ t / 1000000000 := by omega
  have hs1 : t / 1000000000 ≤ 9223372036 := by omega
  have hn0 : 0 ≤ t % 1000000000 := by omega
  have hn1 : t % 1000000000 < 1000000000 := by omega
  unfold probeCount time.Duration.Seconds
  rw [hdiv, hmod, hfloor]
  generalize t / 1000000000 = s at *
  generalize t % 1000000000 = n at *
  rw [roundFloat64_int s (by rw [abs_of_nonneg hs0]; omega),
    roundFloat64_int n (by rw [abs_of_nonneg hn0]; omega)]
  have hsq0 : (0 : ℚ) ≤ s := by exact_mod_cast hs0
  have hsq1 : (s : ℚ) ≤ 9223372036 := by exact_mod_cast hs1
  have hnq0 : (0 : ℚ) ≤ n := by exact_mod_cast hn0
  have hnq1 : (n : ℚ) < 1000000000 := by exact_mod_cast hn1
  have hr0 : (0 : ℚ) ≤ (n : ℚ) / 1000000000 := by positivity
  have hr1 : (n : ℚ) / 1000000000 < 1 := by
    rw [div_lt_one (by norm_num)]
    exact hnq1
  have ha0 := roundFloat64_nonneg _ hr0
  have ha := roundFloat64_err ((n : ℚ) / 1000000000)
  rw [abs_of_nonneg hr0, abs_le] at ha
  generalize roundFloat64 ((n : ℚ) / 1000000000) = a at *
  have hy0 : (0 : ℚ) ≤ (s : ℚ) + a := by linarith
  have hS0 := roundFloat64_nonneg _ hy0
  have hS := roundFloat64_err ((s : ℚ) + a)
  rw [abs_of_nonneg hy0, abs_le] at hS
  generalize roundFloat64 ((s : ℚ) + a) = S at *
  have hz0 : (0 : ℚ) ≤ S * 10 := by linarith
  have hc0 := roundFloat64_nonneg _ hz0
  have hc := roundFloat64_err (S * 10)
  rw [abs_of_nonneg hz0, abs_le] at hc
  generalize roundFloat64 (S * 10) = c at *
  rw [toInt_of_nonneg c hc0, Int.toNat_of_nonneg (Int.floor_nonneg.mpr hc0)]
  have hX1 := Int.floor_le (((s : ℚ) + (n : ℚ) / 1000000000) * 10)
  have hX2 := Int.lt_floor_add_one (((s : ℚ) + (n : ℚ) / 1000000000) * 10)
  constructor
  · apply Int.le_floor.mpr
    push_cast
    linarith
  · have : ⌊c⌋ < ⌊(((s : ℚ) + (n : ℚ) / 1000000000) * 10)⌋ + 2 := by
      apply Int.floor_lt.mpr
      push_cast
      linarith
    omega

theorem probeCount_rounds_up : probeCount 6710886699999999 = 67108867 := by
  have hdiv : Int.tdiv 6710886699999999 1000000000 = 6710886 := by decide
  have hmod : Int.tmod 6710886699999999 1000000000 = 699999999 := by decide
  have hs : roundFloat64 ((6710886 : Int) : ℚ) = 6710886 := by
    have := roundFloat64_int 6710886 (by decide)
    exact_mod_cast this
  have hn : roundFloat64 ((699999999 : Int) : ℚ) = 699999999 := by
    have := roundFloat64_int 699999999 (by decide)
    exact_mod_cast this
  have ha : roundFloat64 ((699999999 : ℚ) / 1000000000) = 6305039469311495 / 2 ^ 53 := by
    rw [roundFloat64_of_bounds _ (-1) 6305039469311495 (by norm_num [abs_of_pos])
      (by norm_num [abs_of_pos]) (by rw [abs_lt]; norm_num)]
    norm_num
  have hb : roundFloat64 ((6710886 : ℚ) + 6305039469311495 / 2 ^ 53)
      = 7205759725915340 / 2 ^ 30 := by
    rw [roundFloat64_of_bounds _ 22 7205759725915340 (by norm_num [abs_of_pos])
      (by norm_num [abs_of_pos]) (by rw [abs_lt]; norm_num)]
    norm_num
  have hc : roundFloat64 ((7205759725915340 : ℚ) / 2 ^ 30 * 10) = 67108867 := by
    rw [roundFloat64_tie_odd _ 26 4503599828697087 (by norm_num [abs_of_pos])
      (by norm_num [abs_of_pos]) (by norm_num) (by decide)]
    norm_num
  unfold probeCount time.Duration.Seconds
  have hint : Float64.toInt (67108867 : ℚ) = 67108867 := by
    have h := toInt_intCast 67108867
    exact_mod_cast h
  rw [hdiv, hmod, hs, hn, ha, hb, hc, hint]
  rfl

theorem waitLoop_alive (os : OS) (pid : Int) (n : Nat) (tr : List Event)
    (halive : ∀ tr', os.deliver tr' pid Signal.probe = none) :
    waitLoop os pid n tr = tr ++ probeRounds pid n ++ [Event.signal pid Signal.SIGKILL] := by
  obtain ⟨k, -, -, h | h⟩ := waitLoop_spec os pid n tr
  · rw [halive] at h
    exact absurd h.2.1 (by simp)
  · exact h.2

/-- C20 (amended): when the process is found, `Terminate(pid, false)` behaves
as follows. If SIGTERM is not delivered it returns an error and the only event
is the SIGTERM attempt: no probe and no SIGKILL. If SIGTERM is delivered it
returns nil, and with `N` the loop bound `int(timeout.Seconds()*10)` as float64
arithmetic yields it, the events after SIGTERM are either `k < N` rounds of
probe and 100 ms sleep followed by the probe that finds the process gone, and
no SIGKILL, or `N` such rounds, every probe finding the process alive,
followed by one SIGKILL. For a timeout of a whole number of seconds `N` is the
floor of ten times the timeout in seconds; for every timeout that is not
negative `N` differs from that floor by at most one. -/
theorem terminate_graceful (os : OS) (m : Manager) (pid : Int) (tr : List Event)
    (hfind : os.findProcess tr pid = none) :
    (0 ≤ m.timeout → m.timeout < 2 ^ 63 →
        m.timeout * 10 / 1000000000 - 1 ≤ (probeCount m.timeout : Int)
        ∧ (probeCount m.timeout : Int) ≤ m.timeout * 10 / 1000000000 + 1)
    ∧ (∀ s : Int, 0 ≤ s → s * 1000000000 < 2 ^ 63 → m.timeout = s * 1000000000 →
        (probeCount m.timeout : Int) = m.timeout * 10 / 1000000000)
    ∧ (∀ err, os.deliver tr pid Signal.SIGTERM = some err →
        m.Terminate os pid false tr
          = (some ("sending SIGTERM to " ++ toString pid ++ ": " ++ err),
              tr ++ [Event.signal pid Signal.SIGTERM]))
    ∧ (os.deliver tr pid Signal.SIGTERM = none →
        (m.Terminate os pid false tr).1 = none
        ∧ ∃ k, k ≤ probeCount m.timeout
          ∧ (∀ j, j < k →
              os.deliver (tr ++ [Event.signal pid Signal.SIGTERM] ++ probeRounds pid j)
                pid Signal.probe = none)
          ∧ ((k < probeCount m.timeout
              ∧ (os.deliver (tr ++ [Event.signal pid Signal.SIGTERM] ++ probeRounds pid k)
                  pid Signal.probe).isSome = true
              ∧ (m.Terminate os pid false tr).2
                = tr ++ [Event.signal pid Signal.SIGTERM] ++ probeRounds pid k
                    ++ [Event.signal pid Signal.probe])
            ∨ (k = probeCount m.timeout
              ∧ (m.Terminate os pid false tr).2
                = tr ++ [Event.signal pid Signal.SIGTERM]
                    ++ probeRounds pid (probeCount m.timeout)
                    ++ [Event.signal pid Signal.SIGKILL]))) := by
  refine ⟨probeCount_near m.timeout, ?_, ?_, ?_⟩
  · intro s h0 h63 hs
    rw [hs, probeCount_seconds s h0 h63]
    omega
  · intro err herr
    simp [Manager.Terminate, hfind, herr]
  · intro hterm
    have hrun : m.Terminate os pid false tr
        = (none, waitLoop os pid (probeCount m.timeout)
            (tr ++ [Event.signal pid Signal.SIGTERM])) := by
      simp [Manager.Terminate, hfind, hterm]
    rw [hrun]
    exact ⟨rfl, waitLoop_spec os pid (probeCount m.timeout)
      (tr ++ [Event.signal pid Signal.SIGTERM])⟩

/-- C20 with the default timeout of 5 s on a process that answers the first
probe and is gone at the second: the call returns nil, and the loop bound is
50. -/
theorem terminate_graceful_witness :
    (Manager.Terminate
        { findProcess := fun _ _ => none
          deliver := fun tr _ sig =>
            if sig = Signal.probe ∧ 3 ≤ tr.length then some "no such process" else none }
        { safetyMgr := safety.NewManager [] [] 0, timeout := 5000000000 } 77 false []).1
      = none
    ∧ (probeCount 5000000000 : Int) = 5000000000 * 10 / 1000000000 :=
  ⟨((terminate_graceful
      { findProcess := fun _ _ => none
        deliver := fun tr _ sig =>
          if sig = Signal.probe ∧ 3 ≤ tr.length then some "no such process" else none }
      { safetyMgr := safety.NewManager [] [] 0, timeout := 5000000000 } 77 [] rfl).2.2.2
        rfl).1,
   (terminate_graceful
      { findProcess := fun _ _ => none
        deliver := fun tr _ sig =>
          if sig = Signal.probe ∧ 3 ≤ tr.length then some "no such process" else none }
      { safetyMgr := safety.NewManager [] [] 0, timeout := 5000000000 } 77 [] rfl).2.1
        5 (by decide) (by decide) rfl⟩

/-- C20 as stated fails: with a timeout of 6710886699999999 ns the floor of
ten times the timeout in seconds is 67108866, but `Seconds()` yields
`7205759725915340 / 2 ^ 30` (just below 6710886.7) and ten times that lies
exactly halfway between two float64 values, the tie going to the even
significand, which is 67108867; so on a process that stays alive the loop
makes 67108867 probes, all of which find it alive, before the SIGKILL. -/
theorem terminate_graceful_counterexample :
    (6710886699999999 : Int) * 10 / 1000000000 = 67108866
    ∧ Manager.Terminate
        { findProcess := fun _ _ => none, deliver := fun _ _ _ => none }
        { safetyMgr := safety.NewManager [] [] 0, timeout := 6710886699999999 } 77 false []
      = (none,
          [Event.signal 77 Signal.SIGTERM] ++ probeRounds 77 67108867
            ++ [Event.signal 77 Signal.SIGKILL]) := by
  refine ⟨by decide, ?_⟩
  have hrun : Manager.Terminate
        { findProcess := fun _ _ => none, deliver := fun _ _ _ => none }
        { safetyMgr := safety.NewManager [] [] 0, timeout := 6710886699999999 } 77 false []
      = (none, waitLoop { findProcess := fun _ _ => none, deliver := fun _ _ _ => none } 77
          (probeCount 6710886699999999) ([] ++ [Event.signal 77 Signal.SIGTERM])) := rfl
  rw [hrun, probeCount_rounds_up, waitLoop_alive _ _ _ _ (fun _ => rfl)]
  rfl

end process

/-! ## Classifier: theorems -/

namespace monitor

theorem hasPrefix_bracket (s : String) :
    strings.HasPrefix s "[" = true ↔ s.data.head? = some '[' := by
  unfold strings.HasPrefix
  have : ("[" : String).data = ['['] := rfl
  rw [this]
  cases s.data with
  | nil =>
    simp only [List.isPrefixOf, List.head?_nil]
    constructor <;> intro h <;> cases h
  | cons a t =>
    simp only [List.isPrefixOf, List.head?_cons, Bool.and_true, beq_iff_eq, Option.some.injEq]
    exact eq_comm

theorem hasSuffix_bracket (s : String) :
    strings.HasSuffix s "]" = true ↔ s.data.getLast? = some ']' := by
  unfold strings.HasSuffix
  have : ("]" : String).data = [']'] := rfl
  rw [this, List.isSuffixOf, ← List.head?_reverse]
  have hrev : [']'].reverse = [']'] := rfl
  rw [hrev]
  cases s.data.reverse with
  | nil =>
    simp only [List.isPrefixOf, List.head?_nil]
    constructor <;> intro h <;> cases h
  | cons a t =>
    simp only [List.isPrefixOf, List.head?_cons, Bool.and_true, beq_iff_eq, Option.some.injEq]
    exact eq_comm

theorem get_nameMap (names : List String) (n : String) :
    GoMap.get (names.foldl (fun m n => GoMap.set m n true) GoMap.empty) n false
      = decide (n ∈ names) := by
  rw [safety.get_foldl_set]
  simp [GoMap.get, GoMap.empty]

/-- C14: `Classify` is a total function and, on a classifier built from the
protected-name list `P`, returns the category of the first matching rule of
the table (pid at most 2 or parent pid 2; command line empty or bracketed;
name in `P`; uid 0 or a built-in daemon name; otherwise User). A protected
name owned by uid 0 is Essential when the first two rules do not apply. -/
theorem classify_rules (P : List String) (p : ProcessInfo) :
    (NewClassifier P).Classify p = classifyRules P p
    ∧ (2 < p.PID → p.PPid ≠ 2 → p.Cmdline ≠ "" →
        ¬ (p.Cmdline.data.head? = some '[' ∧ p.Cmdline.data.getLast? = some ']') →
        p.Name ∈ P → p.UID = 0 → (NewClassifier P).Classify p = CategoryEssential) := by
  have hrules : (NewClassifier P).Classify p = classifyRules P p := by
    unfold Classifier.Classify classifyRules NewClassifier knownSystemDaemons
    simp only [get_nameMap, hasPrefix_bracket, hasSuffix_bracket, decide_eq_true_eq]
  refine ⟨hrules, ?_⟩
  intro hpid hppid hcmd hbr hname _
  rw [hrules, classifyRules, if_neg (by simp only [not_or, not_le]; exact ⟨hpid, hppid⟩),
    if_neg (by simp only [not_or]; exact ⟨hcmd, hbr⟩), if_pos hname]

/-- C14 at the protected root-owned record of the test. -/
theorem classify_rules_witness :
    (NewClassifier ["sshd", "nginx"]).Classify
        { PID := 500, Name := "sshd", PPid := 1, UID := 0, Cmdline := "/usr/sbin/sshd" }
      = CategoryEssential :=
  (classify_rules ["sshd", "nginx"]
    { PID := 500, Name := "sshd", PPid := 1, UID := 0, Cmdline := "/usr/sbin/sshd" }).2
    (by decide) (by decide) (by decide) (by decide) (by decide) rfl

end monitor

/-! ## Process fingerprint: theorems -/

namespace ai

open monitor

/-- C12: two records with the same name, user and category whose CPU values
and whose memory values fall into the same 5-unit bucket have the same
fingerprint, whatever their other fields are. -/
theorem processSignature_stable (Sum256 : String → List Nat) (a b : ProcessInfo)
    (hname : a.Name = b.Name) (huser : a.User = b.User) (hcat : a.Category = b.Category)
    (hcpu : Float64.toInt (a.CPU / 5) = Float64.toInt (b.CPU / 5))
    (hmem : Float64.toInt (a.Memory / 5) = Float64.toInt (b.Memory / 5)) :
    ProcessSignature Sum256 a = ProcessSignature Sum256 b := by
  unfold ProcessSignature signatureInput
  simp only [hname, huser, hcat, hcpu, hmem]

theorem append_sep_cancel (c : Char) :
    ∀ (l1 l2 r1 r2 : List Char), c ∉ l1 → c ∉ l2 → l1 ++ c :: r1 = l2 ++ c :: r2 → l1 = l2 := by
  intro l1
  induction l1 with
  | nil =>
    intro l2 r1 r2 _ h2 h
    cases l2 with
    | nil => rfl
    | cons x t =>
      simp only [List.nil_append, List.cons_append, List.cons.injEq] at h
      exact absurd (h.1 ▸ List.mem_cons_self _ _) h2
  | cons y t ih =>
    intro l2 r1 r2 h1 h2 h
    cases l2 with
    | nil =>
      simp only [List.nil_append, List.cons_append, List.cons.injEq] at h
      exact absurd (h.1 ▸ List.mem_cons_self _ _) h1
    | cons x t' =>
      simp only [List.cons_append, List.cons.injEq] at h
      rw [h.1, ih t' r1 r2 (fun hm => h1 (List.mem_cons_of_mem _ hm))
        (fun hm => h2 (List.mem_cons_of_mem _ hm)) h.2]

theorem signatureInput_data (p : ProcessInfo) :
    ∃ r : List Char, (signatureInput p).data = p.Name.data ++ '|' :: r := by
  refine ⟨(p.User ++ "|" ++ toString (Float64.toInt (p.CPU / 5) * 5) ++ "|"
    ++ toString (Float64.toInt (p.Memory / 5) * 5) ++ "|"
    ++ ProcessCategory.String p.Category).data, ?_⟩
  have hbar : ("|" : String).data = ['|'] := rfl
  simp only [signatureInput, String.data_append, hbar, List.append_assoc,
    List.singleton_append, List.cons_append, List.nil_append]

end ai

theorem toInt_of_bounds (x : Float64) (n : Nat) (hlo : (n : Float64) ≤ x)
    (hhi : x < (n : Float64) + 1) : Float64.toInt x = n := by
  unfold Float64.toInt
  have hx : (0 : ℚ) ≤ x := le_trans (by exact_mod_cast Nat.zero_le n) hlo
  have hnum : 0 ≤ x.num := Rat.num_nonneg.mpr hx
  rw [Int.tdiv_eq_ediv hnum (by exact_mod_cast Nat.zero_le x.den), ← Rat.floor_def,
    Int.floor_eq_iff]
  exact ⟨by exact_mod_cast hlo, by exact_mod_cast hhi⟩

namespace ai

open monitor

theorem signatureInput_idle (p : ProcessInfo) (hcpu : p.CPU = 0) (hmem : p.Memory = 0) :
    signatureInput p
      = p.Name ++ "|" ++ p.User ++ "|" ++ "0" ++ "|" ++ "0" ++ "|"
        ++ ProcessCategory.String p.Category := by
  have h0 : Float64.toInt ((0 : Float64) / 5) * 5 = 0 := by
    rw [toInt_of_bounds (0 / 5) 0 (by norm_num) (by norm_num)]
    rfl
  have hs : toString (0 : Int) = "0" := by decide
  simp only [signatureInput, hcpu, hmem, h0, hs]

/-- C12 on the two records of the test, which differ in pid, CPU and memory. -/
theorem processSignature_stable_witness :
    ProcessSignature (fun s => s.data.map Char.toNat)
        { PID := 7, Name := "firefox", User := "testuser", CPU := 23, Memory := 12 }
      = ProcessSignature (fun s => s.data.map Char.toNat)
        { PID := 8, Name := "firefox", User := "testuser", CPU := 24, Memory := 13 } :=
  processSignature_stable _ _ _ rfl rfl rfl
    (by
      show Float64.toInt ((23 : Float64) / 5) = Float64.toInt ((24 : Float64) / 5)
      rw [toInt_of_bounds (23 / 5) 4 (by norm_num) (by norm_num),
        toInt_of_bounds (24 / 5) 4 (by norm_num) (by norm_num)])
    (by
      show Float64.toInt ((12 : Float64) / 5) = Float64.toInt ((13 : Float64) / 5)
      rw [toInt_of_bounds (12 / 5) 2 (by norm_num) (by norm_num),
        toInt_of_bounds (13 / 5) 2 (by norm_num) (by norm_num)])

/-- C13, amended: two records whose names differ and contain no `|` are hashed
from different strings, so their fingerprints differ unless the truncated hash
collides on these two strings. -/
theorem processSignature_distinct (Sum256 : String → List Nat) (a b : ProcessInfo)
    (hname : a.Name ≠ b.Name) (ha : '|' ∉ a.Name.data) (hb : '|' ∉ b.Name.data)
    (hcollide : ProcessSignature Sum256 a = ProcessSignature Sum256 b →
      signatureInput a = signatureInput b) :
    signatureInput a ≠ signatureInput b
    ∧ ProcessSignature Sum256 a ≠ ProcessSignature Sum256 b := by
  have hraw : signatureInput a ≠ signatureInput b := by
    intro h
    obtain ⟨ra, hra⟩ := signatureInput_data a
    obtain ⟨rb, hrb⟩ := signatureInput_data b
    have hd : a.Name.data ++ '|' :: ra = b.Name.data ++ '|' :: rb := by
      rw [← hra, ← hrb, h]
    exact hname (String.ext (append_sep_cancel '|' _ _ _ _ ha hb hd))
  exact ⟨hraw, fun h => hraw (hcollide h)⟩

/-- C13 as stated fails whatever the hash function is: the record named `x|y`
of user `z` and the record named `x` of user `y|z` are hashed from the same
string, so their fingerprints are equal. -/
theorem processSignature_distinct_counterexample :
    ({ Name := "x|y", User := "z" } : ProcessInfo).Name
        ≠ ({ Name := "x", User := "y|z" } : ProcessInfo).Name
    ∧ ∀ Sum256 : String → List Nat,
        ProcessSignature Sum256 { Name := "x|y", User := "z" }
          = ProcessSignature Sum256 { Name := "x", User := "y|z" } := by
  refine ⟨by decide, fun Sum256 => ?_⟩
  have h : signatureInput { Name := "x|y", User := "z" }
      = signatureInput { Name := "x", User := "y|z" } := by
    rw [signatureInput_idle _ rfl rfl, signatureInput_idle _ rfl rfl]
    decide
  unfold ProcessSignature
  rw [h]

/-- C13 on the records named firefox and chrome of the test, with the byte
values of the first characters standing for the hash. -/
theorem processSignature_distinct_witness :
    ProcessSignature (fun s => s.data.map Char.toNat) { Name := "firefox", User := "testuser" }
      ≠ ProcessSignature (fun s => s.data.map Char.toNat)
          { Name := "chrome", User := "testuser" } :=
  (processSignature_distinct (fun s => s.data.map Char.toNat)
    { Name := "firefox", User := "testuser" } { Name := "chrome", User := "testuser" }
    (by decide) (by decide) (by decide)
    (by
      intro h
      exfalso
      revert h
      unfold ProcessSignature
      rw [signatureInput_idle _ rfl rfl, signatureInput_idle _ rfl rfl]
      decide)).2

end ai

/-! ## Telemetry scanner: theorems -/

namespace monitor

theorem parseStat_ok_inv (p p' : ProcessInfo) (file procStat : Option String) (now : Int)
    (h : p.parseStat file procStat now = Outcome.ok p') :
    ∃ (name f0 f1 f11 f12 f19 : String) (bootTime : Nat),
      p' = applyStat { p with Name := name } f0 f1 f11 f12 f19 bootTime now := by
  unfold ProcessInfo.parseStat at h
  split at h
  · cases h
  · simp only at h
    split at h
    · cases h
    · split at h
      · cases h
      · split at h
        · cases h
        · split at h
          · cases h
          · split at h
            · split at h
              · injection h with h
                exact ⟨_, _, _, _, _, _, _, h.symm⟩
              · cases h
              · cases h
            · cases h

theorem applyStat_facts (q : ProcessInfo) (f0 f1 f11 f12 f19 : String) (bootTime : Nat)
    (now : Int) :
    (q.lastScan ≠ 0 → now - q.lastScan > 0 →
      (applyStat q f0 f1 f11 f12 f19 bootTime now).CPU
        = cpuPercent (applyStat q f0 f1 f11 f12 f19 bootTime now).prevUtime
            (applyStat q f0 f1 f11 f12 f19 bootTime now).prevStime q.prevUtime q.prevStime
            (((now - q.lastScan : Int) : Float64) / 1000000000))
    ∧ (q.lastScan = 0 ∨ now - q.lastScan ≤ 0 →
        (applyStat q f0 f1 f11 f12 f19 bootTime now).CPU = q.CPU)
    ∧ (applyStat q f0 f1 f11 f12 f19 bootTime now).lastScan = now := by
  have hpos : (0 : Float64) < (((now - q.lastScan : Int) : Float64) / 1000000000)
      ↔ 0 < now - q.lastScan := by
    rw [div_pos_iff_of_pos_right (by norm_num)]
    exact Int.cast_pos
  refine ⟨?_, ?_, rfl⟩
  · intro hset helapsed
    simp only [applyStat, ne_eq, hset, not_false_eq_true, if_true, gt_iff_lt, hpos.mpr helapsed]
  · intro hnone
    rcases hnone with hz | hle
    · simp only [applyStat, ne_eq, hz, not_true_eq_false, if_false]
    · have hnot : ¬ (0 : Float64) < (((now - q.lastScan : Int) : Float64) / 1000000000) :=
        fun hlt => absurd (hpos.mp hlt) (not_lt.mpr hle)
      by_cases hz : q.lastScan = 0
      · simp only [applyStat, ne_eq, hz, not_true_eq_false, if_false]
      · simp only [applyStat, ne_eq, hz, not_false_eq_true, if_true, gt_iff_lt, hnot, if_false]

theorem parseStat_cpu_facts (p p' : ProcessInfo) (file procStat : Option String) (now : Int)
    (hok : p.parseStat file procStat now = Outcome.ok p') :
    (p.lastScan ≠ 0 → now - p.lastScan > 0 →
      p'.CPU = (((subUint64 p'.prevUtime p.prevUtime : Float64)
          + (subUint64 p'.prevStime p.prevStime : Float64)) / 100)
        / (((now - p.lastScan : Int) : Float64) / 1000000000) * 100)
    ∧ (p.lastScan = 0 ∨ now - p.lastScan ≤ 0 → p'.CPU = p.CPU) := by
  obtain ⟨name, f0, f1, f11, f12, f19, bootTime, rfl⟩ := parseStat_ok_inv p p' file procStat now hok
  obtain ⟨h1, h2, -⟩ := applyStat_facts { p with Name := name } f0 f1 f11 f12 f19 bootTime now
  exact ⟨fun hset hel => by rw [h1 hset hel]; rfl, h2⟩

/-- C16: when `parseStat` returns normally on a record with a previous
observation and positive elapsed time, the CPU field is
`((Δutime + Δstime) / 100) / elapsedSeconds * 100`, the deltas being taken
against the stored counters and the new counters being the ones stored on
return; without a previous observation, or when the elapsed time is not
positive, the CPU field keeps its value, which is 0 on a fresh record. With
stored counters 100 and 100, new counters 200 and 200 and two seconds elapsed
the result is 100. -/
theorem parseStat_cpu (p p' : ProcessInfo) (file procStat : Option String) (now : Int)
    (hok : p.parseStat file procStat now = Outcome.ok p') :
    (p.lastScan ≠ 0 → now - p.lastScan > 0 →
      p'.CPU = (((subUint64 p'.prevUtime p.prevUtime : Float64)
          + (subUint64 p'.prevStime p.prevStime : Float64)) / 100)
        / (((now - p.lastScan : Int) : Float64) / 1000000000) * 100)
    ∧ (p.lastScan = 0 ∨ now - p.lastScan ≤ 0 → p'.CPU = p.CPU)
    ∧ (p.lastScan = 0 ∨ now - p.lastScan ≤ 0 → p.CPU = 0 → p'.CPU = 0)
    ∧ ∃ q, ProcessInfo.parseStat
          { PID := 100, prevUtime := 100, prevStime := 100, lastScan := 1000000000 }
          (some "100 (a) S 1 0 0 0 0 0 0 0 0 0 200 200 0 0 0 0 0 0 0 0 0") none 3000000000
        = Outcome.ok q ∧ q.CPU = 100 := by
  obtain ⟨h1, h2⟩ := parseStat_cpu_facts p p' file procStat now hok
  refine ⟨h1, h2, fun h hz => (h2 h).trans hz, ?_⟩
  obtain ⟨q, hq, hu, hs⟩ : ∃ q, ProcessInfo.parseStat
        { PID := 100, prevUtime := 100, prevStime := 100, lastScan := 1000000000 }
        (some "100 (a) S 1 0 0 0 0 0 0 0 0 0 200 200 0 0 0 0 0 0 0 0 0") none 3000000000
      = Outcome.ok q ∧ q.prevUtime = 200 ∧ q.prevStime = 200 := ⟨_, rfl, rfl, rfl⟩
  refine ⟨q, hq, ?_⟩
  have hd : subUint64 200 100 = 100 := by decide
  rw [(parseStat_cpu_facts _ q _ _ _ hq).1 (by decide) (by decide), hu, hs]
  simp only [hd]
  norm_num

/-- C16 on a fresh record: no previous observation, so the CPU field stays 0. -/
theorem parseStat_cpu_witness :
    ∃ q, ProcessInfo.parseStat { PID := 100 }
          (some "100 (a) S 1 0 0 0 0 0 0 0 0 0 200 200 0 0 0 0 0 0 0 0 0") none 3000000000
        = Outcome.ok q ∧ q.CPU = 0 :=
  ⟨_, rfl,
    (parseStat_cpu { PID := 100 } _
      (some "100 (a) S 1 0 0 0 0 0 0 0 0 0 200 200 0 0 0 0 0 0 0 0 0") none 3000000000
      rfl).2.2.1 (Or.inl rfl) rfl⟩

/-- C17 fails: on the stat content `1 (a)`, which ends with the closing
parenthesis, the slice `content[nameEnd+2:]` is out of bounds, so `parseStat`
panics instead of returning an error, and a scan that meets such an entry
panics as a whole. -/
theorem parseStat_truncated_panics (p : ProcessInfo) (procStat : Option String) (now : Int)
    (m : ProcessMonitor) (sysMetrics : SystemMetrics) :
    p.parseStat (some "1 (a)") procStat now = Outcome.panic "slice bounds out of range"
    ∧ m.scan (some [{ name := "1", stat := some "1 (a)" }]) sysMetrics
        = Outcome.panic "slice bounds out of range" :=
  ⟨rfl, rfl⟩

/-- A scan of a single entry whose pid has a record in `prevProcs`: the
published record is the one left by the re-parse against that record. -/
theorem scan_single_carried (m : ProcessMonitor) (e : ScanEntry) (sysMetrics : SystemMetrics)
    (pid : Int) (proc prev proc2 : ProcessInfo) (hdir : e.isDir = true)
    (hpid : strconv.Atoi e.name.data = (pid, none))
    (hparse : parseProcessInfo pid e = Outcome.ok proc)
    (hprev : GoMap.get? m.prevProcs pid = some prev)
    (hre : ProcessInfo.parseStat
        { proc with
          prevUtime := prev.prevUtime, prevStime := prev.prevStime, lastScan := prev.lastScan }
        e.statAgain e.procStatAgain e.nowAgain = Outcome.ok proc2) :
    ∃ m' p, m.scan (some [e]) sysMetrics = Outcome.ok m'
      ∧ GoMap.get? m'.processes pid = some p
      ∧ p.CPU = proc2.CPU ∧ p.prevUtime = proc2.prevUtime ∧ p.prevStime = proc2.prevStime
      ∧ p.lastScan = proc2.lastScan := by
  have hentry : scanEntry m GoMap.empty e
      = Outcome.ok (GoMap.set GoMap.empty pid
          { ({ proc2 with
                CPUTrend := proc2.CPU - prev.CPU
                MemoryTrend := proc2.Memory - prev.Memory } : ProcessInfo) with
            Category := m.classifier.Classify
              { proc2 with
                CPUTrend := proc2.CPU - prev.CPU
                MemoryTrend := proc2.Memory - prev.Memory } }) := by
    unfold scanEntry
    simp only [hdir, hpid, hparse, hprev, hre, Bool.not_true, Bool.false_eq_true, if_false]
  have hscan : ∃ m', m.scan (some [e]) sysMetrics = Outcome.ok m'
      ∧ m'.processes = GoMap.set GoMap.empty pid
          { ({ proc2 with
                CPUTrend := proc2.CPU - prev.CPU
                MemoryTrend := proc2.Memory - prev.Memory } : ProcessInfo) with
            Category := m.classifier.Classify
              { proc2 with
                CPUTrend := proc2.CPU - prev.CPU
                MemoryTrend := proc2.Memory - prev.Memory } } := by
    simp only [ProcessMonitor.scan, scanEntries, hentry]
    exact ⟨_, rfl, rfl⟩
  obtain ⟨m', hm', hprocs⟩ := hscan
  have hlook : ∃ p, GoMap.get? m'.processes pid = some p
      ∧ p.CPU = proc2.CPU ∧ p.prevUtime = proc2.prevUtime ∧ p.prevStime = proc2.prevStime
      ∧ p.lastScan = proc2.lastScan := by
    rw [hprocs]
    exact ⟨_, AList.lookup_insert _, rfl, rfl, rfl, rfl⟩
  obtain ⟨p, hp⟩ := hlook
  exact ⟨m', p, hm', hp⟩

/-- C15 fails: pid 100 is present in the first three scans of a new monitor,
with counters 100 and 100 at the first scan and 200 and 200 at the second and
at the third, the scans being two seconds apart. The first scan stores its
counters in the published record but leaves `prevProcs` empty (it receives the
empty process map of the new monitor), so the second scan finds no previous
record for the pid and publishes CPU 0, where the counters stored by the first
scan give 100. The third scan computes against the record of the first scan,
not of the second: it publishes 50, where the counters stored by the second
scan give 0. -/
theorem scan_second_observation_idle :
    ∃ m1 m2 m3 p1 p2 p3,
      (NewProcessMonitor 2000000000 100 []).scan
          (some [{ name := "100"
                   stat := some "100 (a) S 1 0 0 0 0 0 0 0 0 0 100 100 0 0 0 0 0 0 0 0 0"
                   now := 1000000000 }]) {} = Outcome.ok m1
      ∧ m1.scan
          (some [{ name := "100"
                   stat := some "100 (a) S 1 0 0 0 0 0 0 0 0 0 200 200 0 0 0 0 0 0 0 0 0"
                   now := 3000000000 }]) {} = Outcome.ok m2
      ∧ m2.scan
          (some [{ name := "100"
                   stat := some "100 (a) S 1 0 0 0 0 0 0 0 0 0 200 200 0 0 0 0 0 0 0 0 0"
                   now := 5000000000
                   statAgain := some "100 (a) S 1 0 0 0 0 0 0 0 0 0 200 200 0 0 0 0 0 0 0 0 0"
                   nowAgain := 5000000000 }]) {} = Outcome.ok m3
      ∧ GoMap.get? m1.processes 100 = some p1
      ∧ GoMap.get? m1.prevProcs 100 = none
      ∧ GoMap.get? m2.processes 100 = some p2
      ∧ GoMap.get? m2.prevProcs 100 = some p1
      ∧ GoMap.get? m3.processes 100 = some p3
      ∧ p1.prevUtime = 100 ∧ p1.prevStime = 100 ∧ p1.lastScan = 1000000000
      ∧ p2.prevUtime = 200 ∧ p2.prevStime = 200 ∧ p2.lastScan = 3000000000
      ∧ p3.prevUtime = 200 ∧ p3.prevStime = 200 ∧ p3.lastScan = 5000000000
      ∧ p2.CPU = 0
      ∧ cpuPercent p2.prevUtime p2.prevStime p1.prevUtime p1.prevStime
          (((p2.lastScan - p1.lastScan : Int) : Float64) / 1000000000) = 100
      ∧ p3.CPU = 50
      ∧ cpuPercent p3.prevUtime p3.prevStime p2.prevUtime p2.prevStime
          (((p3.lastScan - p2.lastScan : Int) : Float64) / 1000000000) = 0 := by
  obtain ⟨m1, m2, p1, p2, proc3, h1, h2, h4, h5, h6, h7, hu1, hs1, hl1, hu2, hs2, hl2, hc2,
      hparse⟩ :
      ∃ m1 m2 p1 p2 proc3,
      (NewProcessMonitor 2000000000 100 []).scan
          (some [{ name := "100"
                   stat := some "100 (a) S 1 0 0 0 0 0 0 0 0 0 100 100 0 0 0 0 0 0 0 0 0"
                   now := 1000000000 }]) {} = Outcome.ok m1
      ∧ m1.scan
          (some [{ name := "100"
                   stat := some "100 (a) S 1 0 0 0 0 0 0 0 0 0 200 200 0 0 0 0 0 0 0 0 0"
                   now := 3000000000 }]) {} = Outcome.ok m2
      ∧ GoMap.get? m1.processes 100 = some p1
      ∧ GoMap.get? m1.prevProcs 100 = none
      ∧ GoMap.get? m2.processes 100 = some p2
      ∧ GoMap.get? m2.prevProcs 100 = some p1
      ∧ p1.prevUtime = 100 ∧ p1.prevStime = 100 ∧ p1.lastScan = 1000000000
      ∧ p2.prevUtime = 200 ∧ p2.prevStime = 200 ∧ p2.lastScan = 3000000000
      ∧ p2.CPU = 0
      ∧ parseProcessInfo 100
          { name := "100"
            stat := some "100 (a) S 1 0 0 0 0 0 0 0 0 0 200 200 0 0 0 0 0 0 0 0 0"
            now := 5000000000
            statAgain := some "100 (a) S 1 0 0 0 0 0 0 0 0 0 200 200 0 0 0 0 0 0 0 0 0"
            nowAgain := 5000000000 } = Outcome.ok proc3 :=
    ⟨_, _, _, _, _, rfl, rfl, rfl, rfl, rfl, rfl, rfl, rfl, rfl, rfl, rfl, rfl, rfl, rfl⟩
  obtain ⟨proc4, hre, hu4, hs4, hl4⟩ : ∃ proc4,
      ProcessInfo.parseStat
        { proc3 with
          prevUtime := p1.prevUtime, prevStime := p1.prevStime, lastScan := p1.lastScan }
        (some "100 (a) S 1 0 0 0 0 0 0 0 0 0 200 200 0 0 0 0 0 0 0 0 0") none 5000000000
        = Outcome.ok proc4
      ∧ proc4.prevUtime = 200 ∧ proc4.prevStime = 200 ∧ proc4.lastScan = 5000000000 :=
    ⟨_, rfl, rfl, rfl, rfl⟩
  obtain ⟨m3, p3, h3, h8, hc3, hu3, hs3, hl3⟩ := scan_single_carried m2
    { name := "100"
      stat := some "100 (a) S 1 0 0 0 0 0 0 0 0 0 200 200 0 0 0 0 0 0 0 0 0"
      now := 5000000000
      statAgain := some "100 (a) S 1 0 0 0 0 0 0 0 0 0 200 200 0 0 0 0 0 0 0 0 0"
      nowAgain := 5000000000 } {} 100 proc3 p1 proc4 rfl rfl hparse h7 hre
  have hd : subUint64 200 100 = 100 := by decide
  have hz : subUint64 200 200 = 0 := by decide
  have hcpu4 := (parseStat_cpu_facts _ proc4 _ _ _ hre).1
    (by show p1.lastScan ≠ 0; rw [hl1]; decide)
    (by show 5000000000 - p1.lastScan > 0; rw [hl1]; decide)
  refine ⟨m1, m2, m3, p1, p2, p3, h1, h2, h3, h4, h5, h6, h7, h8, hu1, hs1, hl1, hu2, hs2, hl2,
    hu3.trans hu4, hs3.trans hs4, hl3.trans hl4, hc2, ?_, ?_, ?_⟩
  · rw [hu1, hs1, hl1, hu2, hs2, hl2]
    simp only [cpuPercent, hd]
    norm_num
  · rw [hc3, hcpu4, hu4, hs4]
    simp only [hu1, hs1, hl1, hd]
    norm_num
  · rw [hu2, hs2, hl2, hu3.trans hu4, hs3.trans hs4, hl3.trans hl4]
    simp only [cpuPercent, hz]
    norm_num

end monitor

/-! ## Dependency resolver: direct children -/

namespace process

open monitor

theorem children_foldl_eq (pid : Int) (allProcs : List ProcessInfo) :
    ∀ acc : List Int,
      allProcs.foldl (fun children p => if p.PPid = pid then children ++ [p.PID] else children) acc
        = acc ++ (allProcs.filter (fun r => r.PPid = pid)).map (fun r => r.PID) := by
  induction allProcs with
  | nil => intro acc; simp
  | cons p t ih =>
    intro acc
    rw [List.foldl_cons, ih]
    by_cases h : p.PPid = pid
    · rw [if_pos h, List.filter_cons_of_pos (by simp [h])]
      simp
    · rw [if_neg h, List.filter_cons_of_neg (by simp [h])]

/-- C22: on the tree built from `procs`, `ChildrenOf(pid)` is the list of the
pids of the records whose parent pid is `pid`, in the order of the records; it
equals `Manager.Children(pid, procs)` and `WouldOrphan(pid)`. -/
theorem childrenOf_records (m : Manager) (procs : List ProcessInfo) (pid : Int) :
    (BuildDependencyTree procs).ChildrenOf pid
        = (procs.filter (fun r => r.PPid = pid)).map (fun r => r.PID)
    ∧ (BuildDependencyTree procs).ChildrenOf pid = m.Children pid procs
    ∧ (BuildDependencyTree procs).WouldOrphan pid = (BuildDependencyTree procs).ChildrenOf pid := by
  refine ⟨childrenOf_build procs pid, ?_, rfl⟩
  rw [childrenOf_build, Manager.Children, children_foldl_eq, List.nil_append]

end process

/-! ## Advisory cache: the representation invariant -/

namespace ai

/-- C26: every cache reached from `NewCache` by `Put`, `Get` and `Clear` calls
executed one after another has a recency order without repeated keys whose
keys are exactly the keys of the entry map; the order is therefore as long as
`Size()`. -/
theorem reachable_consistent (maxSize ttl : Int) (calls : List Call) :
    ((NewCache maxSize ttl).run calls).order.Nodup
    ∧ (∀ k, k ∈ ((NewCache maxSize ttl).run calls).order
        ↔ k ∈ AList.keys ((NewCache maxSize ttl).run calls).entries)
    ∧ ((NewCache maxSize ttl).run calls).order.length = ((NewCache maxSize ttl).run calls).Size := by
  have h := consistent_run calls (NewCache maxSize ttl) (consistent_new maxSize ttl)
  exact ⟨h.1, h.2, (len_eq_of_consistent h).symm⟩

end ai

/-! ## Telemetry scanner: sign of the CPU percentage -/

namespace monitor

theorem subUint64_spec (a b : Nat) :
    ((subUint64 a b : Nat) : Int) = ((a : Int) - (b : Int)) % 18446744073709551616
    ∧ subUint64 a b < 18446744073709551616 := by
  unfold subUint64
  have hnn : 0 ≤ ((a : Int) - (b : Int)) % 18446744073709551616 :=
    Int.emod_nonneg _ (by decide)
  have hlt : ((a : Int) - (b : Int)) % 18446744073709551616 < 18446744073709551616 :=
    Int.emod_lt_of_pos _ (by decide)
  constructor
  · exact Int.toNat_of_nonneg hnn
  · omega

theorem cpuPercent_nonneg (utime stime prevUtime prevStime : Nat) (elapsed : Float64)
    (h : 0 < elapsed) : 0 ≤ cpuPercent utime stime prevUtime prevStime elapsed := by
  unfold cpuPercent
  have h1 : (0 : Float64) ≤ (subUint64 utime prevUtime : Float64) := Nat.cast_nonneg _
  have h2 : (0 : Float64) ≤ (subUint64 stime prevStime : Float64) := Nat.cast_nonneg _
  positivity

/-- C30: the deltas of `parseStat` are differences modulo 2^64, so they are
never negative, also when the current counter is below the stored one; the
CPU percentage computed from them with a positive elapsed time is at least 0,
and so is the CPU field that `parseStat` leaves on a record that carries a
previous observation older than `now`. -/
theorem parseStat_cpu_nonneg (utime stime prevUtime prevStime : Nat) (elapsed : Float64)
    (helapsed : 0 < elapsed) :
    ((subUint64 utime prevUtime : Nat) : Int)
        = ((utime : Int) - (prevUtime : Int)) % 18446744073709551616
    ∧ ((subUint64 stime prevStime : Nat) : Int)
        = ((stime : Int) - (prevStime : Int)) % 18446744073709551616
    ∧ 0 ≤ cpuPercent utime stime prevUtime prevStime elapsed
    ∧ (∀ (p p' : ProcessInfo) (file procStat : Option String) (now : Int),
        p.parseStat file procStat now = Outcome.ok p' → p.lastScan ≠ 0 → now - p.lastScan > 0 →
        0 ≤ p'.CPU) := by
  refine ⟨(subUint64_spec utime prevUtime).1, (subUint64_spec stime prevStime).1,
    cpuPercent_nonneg _ _ _ _ _ helapsed, ?_⟩
  intro p p' file procStat now hok hset hpos
  rw [(parseStat_cpu_facts p p' file procStat now hok).1 hset hpos]
  have hel : (0 : Float64) < ((now - p.lastScan : Int) : Float64) / 1000000000 :=
    div_pos (by exact_mod_cast hpos) (by norm_num)
  exact cpuPercent_nonneg _ _ _ _ _ hel

/-- C30 for a current counter below the stored one (50 after 100), two
seconds of elapsed time. -/
theorem parseStat_cpu_nonneg_witness :
    (0 : Float64) < 2 ∧ 0 ≤ cpuPercent 50 50 100 100 2
    ∧ ((subUint64 50 100 : Nat) : Int) = 18446744073709551566 :=
  ⟨by norm_num, (parseStat_cpu_nonneg 50 50 100 100 2 (by norm_num)).2.2.1,
    (parseStat_cpu_nonneg 50 50 100 100 2 (by norm_num)).1.trans (by decide)⟩

end monitor

/-! ## Classifier and safety gate together -/

namespace safety

open monitor

theorem classify_values (P : List String) (p : ProcessInfo) :
    ((NewClassifier P).Classify p = CategoryKernel
      ∨ ((NewClassifier P).Classify p = CategoryEssential ∧ p.Name ∈ P)
      ∨ (NewClassifier P).Classify p = CategorySystem
      ∨ (NewClassifier P).Classify p = CategoryUser) := by
  unfold Classifier.Classify NewClassifier
  simp only [get_nameMap, decide_eq_true_eq]
  split_ifs with h1 h2 h3 h4
  · exact Or.inl rfl
  · exact Or.inl rfl
  · exact Or.inr (Or.inl ⟨rfl, h3⟩)
  · exact Or.inr (Or.inr (Or.inl rfl))
  · exact Or.inr (Or.inr (Or.inr rfl))

theorem denied_of_kernel_or_protected (P N : List String) (consentLevel : Int)
    (p : ProcessInfo) (h : p.Category = CategoryKernel ∨ p.Name ∈ P) :
    ((NewManager P N consentLevel).ValidateTermination p).1 = false
    ∧ (NewManager P N consentLevel).IsProtected p = true := by
  unfold Manager.ValidateTermination Manager.IsProtected NewManager
  simp only [get_nameSet, decide_eq_true_eq]
  rcases h with h | h
  · split_ifs <;> simp_all
  · split_ifs <;> simp_all

/-- C28: with a classifier and a safety manager built from the same
protected-name list, a record whose category is the one `Classify` gives it is
denied by `ValidateTermination`, and protected for `IsProtected`, whenever
that category is Kernel or Essential; termination is allowed only for the
categories System and User. -/
theorem classified_kernel_essential_denied (P N : List String) (consentLevel : Int)
    (p : ProcessInfo) :
    (((NewClassifier P).Classify p = CategoryKernel
        ∨ (NewClassifier P).Classify p = CategoryEssential) →
      ((NewManager P N consentLevel).ValidateTermination
          { p with Category := (NewClassifier P).Classify p }).1 = false
      ∧ (NewManager P N consentLevel).IsProtected
          { p with Category := (NewClassifier P).Classify p } = true)
    ∧ (((NewManager P N consentLevel).ValidateTermination
          { p with Category := (NewClassifier P).Classify p }).1 = true →
      (NewClassifier P).Classify p = CategorySystem
        ∨ (NewClassifier P).Classify p = CategoryUser) := by
  have hden : ((NewClassifier P).Classify p = CategoryKernel
        ∨ (NewClassifier P).Classify p = CategoryEssential) →
      ((NewManager P N consentLevel).ValidateTermination
          { p with Category := (NewClassifier P).Classify p }).1 = false
      ∧ (NewManager P N consentLevel).IsProtected
          { p with Category := (NewClassifier P).Classify p } = true := by
    intro h
    apply denied_of_kernel_or_protected
    rcases h with h | h
    · exact Or.inl h
    · rcases classify_values P p with h' | ⟨-, hP⟩ | h' | h'
      · exact Or.inl h'
      · exact Or.inr hP
      · rw [h'] at h; exact absurd h (by decide)
      · rw [h'] at h; exact absurd h (by decide)
  refine ⟨hden, ?_⟩
  intro hallowed
  rcases classify_values P p with h | ⟨h, -⟩ | h | h
  · rw [(hden (Or.inl h)).1] at hallowed; exact absurd hallowed (by decide)
  · rw [(hden (Or.inr h)).1] at hallowed; exact absurd hallowed (by decide)
  · exact Or.inl h
  · exact Or.inr h

/-- C28 at a protected daemon owned by root. -/
theorem classified_kernel_essential_denied_witness :
    (NewClassifier ["sshd"]).Classify
        { PID := 500, Name := "sshd", PPid := 1, Cmdline := "/usr/sbin/sshd" } = CategoryEssential
    ∧ ((NewManager ["sshd"] [] 0).ValidateTermination
        { ({ PID := 500, Name := "sshd", PPid := 1, Cmdline := "/usr/sbin/sshd" } : ProcessInfo) with
          Category := (NewClassifier ["sshd"]).Classify
            { PID := 500, Name := "sshd", PPid := 1, Cmdline := "/usr/sbin/sshd" } }).1 = false :=
  ⟨by decide,
   ((classified_kernel_essential_denied ["sshd"] [] 0
      { PID := 500, Name := "sshd", PPid := 1, Cmdline := "/usr/sbin/sshd" }).1
      (Or.inr (by decide))).1⟩

end safety

/-! ## Advisory cache: update of a present key, and absolute age -/

namespace ai

/-- C27: in a cache of capacity `n` that holds `n` entries, `Put(k, r)` of a
key that is present and is not the least recently used one evicts the least
recently used entry although no key is added: `n` is at least 2, afterwards
`Size()` is `n - 1`, `k` maps to `r` and is the most recently used key, and
the former least recently used key is a miss. -/
theorem put_present_evicts_oldest (c : Cache) (n : Nat) (lru k : String) (rest : List String)
    (r : DecisionResponse) (now : Int) (hcons : Consistent c.entries c.order)
    (hcap : c.maxSize = n) (hsize : c.Size = n) (horder : c.order = lru :: rest)
    (hk : k ∈ rest) :
    2 ≤ n
    ∧ (c.Put k r now).Size = n - 1
    ∧ GoMap.get? (c.Put k r now).entries k = some { response := r, createdAt := now }
    ∧ (c.Put k r now).order = rest.erase k ++ [k]
    ∧ (c.Put k r now).order.getLast? = some k
    ∧ GoMap.get? (c.Put k r now).entries lru = none
    ∧ ∀ t, ((c.Put k r now).Get lru t).1 = none := by
  have hlen : GoMap.len c.entries = rest.length + 1 := by
    rw [len_eq_of_consistent hcons, horder, List.length_cons]
  have hn : n = rest.length + 1 := by
    rw [← hsize, Cache.Size, hlen]
  have hrest : 0 < rest.length := List.length_pos_of_mem hk
  have hcons1 : Consistent (GoMap.delete c.entries lru) rest :=
    consistent_delete_head (horder ▸ hcons)
  have hlen1 : GoMap.len (GoMap.delete c.entries lru) = rest.length :=
    len_eq_of_consistent hcons1
  have hne : lru ≠ k := by
    have hnd := hcons.1
    rw [horder, List.nodup_cons] at hnd
    exact fun e => hnd.1 (e ▸ hk)
  have hev : evictLoop c.maxSize c.entries c.order = (GoMap.delete c.entries lru, rest) := by
    rw [horder, evictLoop, if_pos (by rw [hlen, hcap, hn])]
    exact evictLoop_room _ _ _ (by rw [hlen1, hcap, hn]; push_cast; omega)
  have hentries : (c.Put k r now).entries
      = GoMap.set (GoMap.delete c.entries lru) k { response := r, createdAt := now } := by
    simp only [Cache.Put, hev]
  have horder' : (c.Put k r now).order = rest.erase k ++ [k] := by
    simp only [Cache.Put, hev, removeFromOrder_eq_erase]
  have hkmem : k ∈ AList.keys (GoMap.delete c.entries lru) := (hcons1.2 k).mp hk
  have hlru : GoMap.get? (c.Put k r now).entries lru = none := by
    rw [hentries]
    unfold GoMap.get? GoMap.set GoMap.delete
    rw [AList.lookup_insert_ne hne, AList.lookup_erase]
  refine ⟨by omega, ?_, ?_, horder', ?_, hlru, ?_⟩
  · rw [Cache.Size, hentries]
    unfold GoMap.len GoMap.set
    rw [AList.keys_insert, List.length_cons, List.length_erase_of_mem hkmem]
    unfold GoMap.len at hlen1
    omega
  · rw [hentries]
    unfold GoMap.get? GoMap.set
    exact AList.lookup_insert _
  · rw [horder']
    simp
  · intro t
    unfold Cache.Get
    rw [hlru]

/-- C27 on a cache of capacity 2 holding key1 and key2, when key2 is put
again. -/
theorem put_present_evicts_oldest_witness :
    (((NewCache 2 300).run [Call.put "key1" {} 0, Call.put "key2" {} 1]).Put "key2" {} 2).Size
      = 2 - 1 :=
  (put_present_evicts_oldest ((NewCache 2 300).run [Call.put "key1" {} 0, Call.put "key2" {} 1])
    2 "key1" "key2" ["key2"] {} 2
    (consistent_run _ _ (consistent_new 2 300)) rfl (by decide) (by decide) (by decide)).2.1

theorem ttl_run (calls : List Call) : ∀ c : Cache, (c.run calls).ttl = c.ttl := by
  induction calls with
  | nil => intro c; rfl
  | cons a t ih =>
    intro c
    have hstep : (c.step a).ttl = c.ttl := by
      cases a with
      | put k r now => rfl
      | get k now =>
        simp only [Cache.step, Cache.Get]
        split
        · rfl
        · split <;> rfl
      | clear => rfl
    exact (ih (c.step a)).trans hstep

theorem evictLoop_lookup (maxSize : Int) (order : List String) (k : String) :
    ∀ entries : GoMap String cacheEntry,
      GoMap.get? (evictLoop maxSize entries order).1 k = none
      ∨ GoMap.get? (evictLoop maxSize entries order).1 k = GoMap.get? entries k := by
  induction order with
  | nil => intro entries; exact Or.inr (by rw [evictLoop])
  | cons a t ih =>
    intro entries
    rw [evictLoop]
    split
    · rcases ih (GoMap.delete entries a) with h | h
      · exact Or.inl h
      · by_cases hka : k = a
        · left
          rw [h, hka]
          exact AList.lookup_erase a entries
        · right
          rw [h]
          exact AList.lookup_erase_ne hka
    · exact Or.inr rfl

/-- A call other than a `Put` of `k` leaves the entry of `k` as it is or
removes it. -/
theorem step_lookup (c : Cache) (k : String) (call : Call)
    (hcall : ∀ r t, call ≠ Call.put k r t) :
    GoMap.get? (c.step call).entries k = none
    ∨ GoMap.get? (c.step call).entries k = GoMap.get? c.entries k := by
  cases call with
  | put k' r now =>
    have hne : k ≠ k' := fun e => hcall r now (e ▸ rfl)
    have hset : GoMap.get? (c.Put k' r now).entries k
        = GoMap.get? (evictLoop c.maxSize c.entries c.order).1 k := by
      simp only [Cache.Put, GoMap.get?, GoMap.set]
      exact AList.lookup_insert_ne hne
    simp only [Cache.step]
    rw [hset]
    exact evictLoop_lookup _ _ _ _
  | get k' now =>
    simp only [Cache.step, Cache.Get]
    split
    · exact Or.inr rfl
    · split
      · by_cases hk : k = k'
        · left
          rw [hk]
          exact AList.lookup_erase k' c.entries
        · right
          exact AList.lookup_erase_ne hk
      · exact Or.inr rfl
  | clear =>
    left
    simp [Cache.step, Cache.Clear, GoMap.get?, GoMap.empty]

theorem run_lookup (k : String) (calls : List Call)
    (hcalls : ∀ call ∈ calls, ∀ r t, call ≠ Call.put k r t) :
    ∀ c : Cache, GoMap.get? (c.run calls).entries k = none
      ∨ GoMap.get? (c.run calls).entries k = GoMap.get? c.entries k := by
  induction calls with
  | nil => intro c; exact Or.inr rfl
  | cons a t ih =>
    intro c
    have hrun : c.run (a :: t) = (c.step a).run t := rfl
    rw [hrun]
    rcases ih (fun call hc => hcalls call (List.mem_cons_of_mem _ hc)) (c.step a) with h | h
    · exact Or.inl h
    · rw [h]
      exact step_lookup c k a (hcalls a (List.mem_cons_self _ _))

/-- C25: after `Put(k, r)` at time `t0`, whatever calls other than a `Put` of
`k` follow (hits on `k` included), the entry of `k` is either gone or still
the one created at `t0`, so a `Get(k)` at a time later than `t0 + ttl` is a
miss; a hit leaves the entry map as it is, and a new `Put(k, r')` at time `t1`
stores the creation time `t1`. -/
theorem ttl_absolute_age (c : Cache) (k : String) (r : DecisionResponse) (t0 : Int)
    (calls : List Call) (now : Int)
    (hcalls : ∀ call ∈ calls, ∀ r' t, call ≠ Call.put k r' t)
    (hlate : now > t0 + c.ttl) :
    (((c.Put k r t0).run calls).Get k now).1 = none
    ∧ (GoMap.get? ((c.Put k r t0).run calls).entries k = none
      ∨ GoMap.get? ((c.Put k r t0).run calls).entries k
          = some { response := r, createdAt := t0 })
    ∧ (∀ (c' : Cache) (t : Int) (resp : DecisionResponse),
        (c'.Get k t).1 = some resp → (c'.Get k t).2.entries = c'.entries)
    ∧ (∀ (r' : DecisionResponse) (t1 : Int),
        GoMap.get? (((c.Put k r t0).run calls).Put k r' t1).entries k
          = some { response := r', createdAt := t1 }) := by
  have hput : ∀ (c' : Cache) (r' : DecisionResponse) (t1 : Int),
      GoMap.get? (c'.Put k r' t1).entries k = some { response := r', createdAt := t1 } := by
    intro c' r' t1
    simp only [Cache.Put, GoMap.get?, GoMap.set]
    exact AList.lookup_insert _
  have hentry : GoMap.get? ((c.Put k r t0).run calls).entries k = none
      ∨ GoMap.get? ((c.Put k r t0).run calls).entries k
          = some { response := r, createdAt := t0 } := by
    rcases run_lookup k calls hcalls (c.Put k r t0) with h | h
    · exact Or.inl h
    · exact Or.inr (h.trans (hput c r t0))
  have httl : ((c.Put k r t0).run calls).ttl = c.ttl := (ttl_run calls _).trans rfl
  refine ⟨?_, hentry, ?_, fun r' t1 => hput _ r' t1⟩
  · unfold Cache.Get
    rcases hentry with h | h
    · rw [h]
    · rw [h]
      simp only [httl]
      rw [if_pos (by omega)]
  · intro c' t resp hhit
    unfold Cache.Get at hhit ⊢
    split
    · rfl
    · next entry hl =>
      rw [hl] at hhit
      simp only at hhit
      split
      · next hexp => rw [if_pos hexp] at hhit; cases hhit
      · rfl

/-- C25 on a cache with TTL 50: key1 is put at time 0, hit at times 10 and
40, and read again at time 60. -/
theorem ttl_absolute_age_witness :
    ((((NewCache 10 50).Put "key1" {} 0).run
        [Call.get "key1" 10, Call.put "key2" {} 20, Call.get "key1" 40]).Get "key1" 60).1
      = none :=
  (ttl_absolute_age (NewCache 10 50) "key1" {} 0
    [Call.get "key1" 10, Call.put "key2" {} 20, Call.get "key1" 40] 60
    (by
      intro call hc r' t
      simp only [List.mem_cons, List.mem_singleton, List.not_mem_nil, or_false] at hc
      rcases hc with rfl | rfl | rfl
      · intro h; cases h
      · intro h; injection h with h1; exact absurd h1 (by decide)
      · intro h; cases h)
    (by decide)).1

end ai

/-! ## Dependency resolver: termination -/

namespace process

open monitor

theorem descendantsFuel_enough (children : GoMap Int (List Int)) :
    ∀ (queue : List Int) (visited : GoMap Int Bool) (result : List Int) (fuel : Nat),
      queue.length + pendingSlots children visited ≤ fuel →
      descendantsFuel children fuel queue visited result
        = some (descendantsLoop children queue visited result) := by
  intro queue visited result
  induction queue, visited, result using descendantsLoop.induct children with
  | case1 visited result =>
    intro fuel _
    rw [descendantsLoop]
    cases fuel <;> rfl
  | case2 child queue visited result hv ih =>
    intro fuel hfuel
    cases fuel with
    | zero => simp at hfuel
    | succ f =>
      have hloop : descendantsLoop children (child :: queue) visited result
          = descendantsLoop children queue visited result := by
        rw [descendantsLoop]
        split
        · rfl
        · next h => rw [hv] at h; exact absurd h (by simp)
      rw [hloop, descendantsFuel, if_pos hv]
      exact ih f (by simp only [List.length_cons] at hfuel; omega)
  | case3 child queue visited result hv ih =>
    intro fuel hfuel
    cases fuel with
    | zero => simp at hfuel
    | succ f =>
      have hloop : descendantsLoop children (child :: queue) visited result
          = descendantsLoop children (queue ++ GoMap.get children child [])
              (GoMap.set visited child true) (result ++ [child]) := by
        rw [descendantsLoop]
        split
        · next h => rw [hv] at h; exact absurd h (by simp)
        · rfl
      rw [hloop, descendantsFuel, if_neg (by rw [hv]; simp)]
      have hp := pendingSlots_set children visited child hv
      exact ih f (by
        simp only [List.length_cons, List.length_append] at hfuel ⊢
        omega)

/-- The number of entries of all the lists of a children map. -/
theorem pendingSlots_empty (children : GoMap Int (List Int)) :
    pendingSlots children GoMap.empty
      = ((AList.keys children).map (fun k => (GoMap.get children k []).length)).sum := by
  unfold pendingSlots
  have : (AList.keys children).filter
      (fun k => !(GoMap.get (GoMap.empty : GoMap Int Bool) k false)) = AList.keys children := by
    apply List.filter_eq_self.mpr
    intro k _
    simp [GoMap.get, GoMap.empty]
  rw [this]

theorem slots_set (m : GoMap Int (List Int)) (a x : Int) :
    ((AList.keys (GoMap.set m a (GoMap.get m a [] ++ [x]))).map
        (fun k => (GoMap.get (GoMap.set m a (GoMap.get m a [] ++ [x])) k []).length)).sum
      = ((AList.keys m).map (fun k => (GoMap.get m k []).length)).sum + 1 := by
  have hkeys : AList.keys (GoMap.set m a (GoMap.get m a [] ++ [x]))
      = a :: (AList.keys m).erase a := by
    unfold GoMap.set
    exact AList.keys_insert m
  have hnd := AList.keys_nodup m
  have hrest : ((AList.keys m).erase a).map
        (fun k => (GoMap.get (GoMap.set m a (GoMap.get m a [] ++ [x])) k []).length)
      = ((AList.keys m).erase a).map (fun k => (GoMap.get m k []).length) := by
    apply List.map_congr_left
    intro k hk
    have hne : k ≠ a := ((hnd.mem_erase_iff).mp hk).1
    rw [GoMap.get_set, if_neg hne]
  have hold : ((AList.keys m).map (fun k => (GoMap.get m k []).length)).sum
      = (GoMap.get m a []).length
        + (((AList.keys m).erase a).map (fun k => (GoMap.get m k []).length)).sum := by
    by_cases ha : a ∈ AList.keys m
    · exact (List.sum_map_erase (fun k => (GoMap.get m k []).length) ha).symm
    · rw [List.erase_of_not_mem ha, GoMap.get_of_not_mem m a [] ha]
      simp
  rw [hkeys, List.map_cons, List.sum_cons, hrest, hold, GoMap.get_set, if_pos rfl,
    List.length_append, List.length_singleton]
  omega

theorem slots_foldl (procs : List ProcessInfo) :
    ∀ dt : DependencyTree,
      ((AList.keys (procs.foldl
          (fun dt p =>
            { parents := GoMap.set dt.parents p.PID p.PPid
              children := GoMap.set dt.children p.PPid
                (GoMap.get dt.children p.PPid [] ++ [p.PID]) })
          dt).children).map
        (fun k => (GoMap.get (procs.foldl
          (fun dt p =>
            { parents := GoMap.set dt.parents p.PID p.PPid
              children := GoMap.set dt.children p.PPid
                (GoMap.get dt.children p.PPid [] ++ [p.PID]) })
          dt).children k []).length)).sum
      = ((AList.keys dt.children).map (fun k => (GoMap.get dt.children k []).length)).sum
        + procs.length := by
  induction procs with
  | nil => intro dt; simp
  | cons p t ih =>
    intro dt
    rw [List.foldl_cons, ih, slots_set, List.length_cons]
    omega

theorem slots_build (procs : List ProcessInfo) :
    pendingSlots (BuildDependencyTree procs).children GoMap.empty = procs.length := by
  rw [pendingSlots_empty]
  unfold BuildDependencyTree
  rw [slots_foldl]
  simp [GoMap.empty]

/-- C29: on the tree built from any process list the traversal loop of
`AllDescendants(pid)` reaches the empty queue within `len(procs)` iterations
and yields the value of `AllDescendants(pid)`; `SafeTerminationOrder(pid)` is
that list reversed followed by `pid`. This covers a record that is its own
parent, a cycle of two records, and a pid that occurs in two records. -/
theorem allDescendants_terminates (procs : List ProcessInfo) (pid : Int) :
    descendantsFuel (BuildDependencyTree procs).children procs.length
        (GoMap.get (BuildDependencyTree procs).children pid [])
        (GoMap.set GoMap.empty pid true) []
      = some ((BuildDependencyTree procs).AllDescendants pid)
    ∧ (BuildDependencyTree procs).SafeTerminationOrder pid
        = ((BuildDependencyTree procs).AllDescendants pid).reverse ++ [pid]
    ∧ (BuildDependencyTree [{ PID := 20, PPid := 20 }]).AllDescendants 20 = []
    ∧ (BuildDependencyTree
        [{ PID := 30, PPid := 20 }, { PID := 20, PPid := 30 }]).AllDescendants 20 = [30]
    ∧ (BuildDependencyTree
        [{ PID := 30, PPid := 10 }, { PID := 20, PPid := 10 },
          { PID := 30, PPid := 20 }]).AllDescendants 10 = [30, 20] := by
  refine ⟨?_, safeTerminationOrder_eq _ pid, ?_, ?_, ?_⟩
  · unfold DependencyTree.AllDescendants
    apply descendantsFuel_enough
    have h := pendingSlots_set (BuildDependencyTree procs).children GoMap.empty pid
      (by simp [GoMap.get, GoMap.empty])
    rw [slots_build] at h
    omega
  · exact descendantsLoop_of_fuel _ 8 _ _ _ _ (by decide)
  · exact descendantsLoop_of_fuel _ 8 _ _ _ _ (by decide)
  · exact descendantsLoop_of_fuel _ 8 _ _ _ _ (by decide)

end process

/-! ## Published process list: theorems -/

namespace monitor

theorem insertSorted_perm {α : Type} (less : α → α → Bool) (x : α) :
    ∀ l : List α, (insertSorted less x l).Perm (x :: l) := by
  intro l
  induction l with
  | nil => exact List.Perm.refl _
  | cons y ys ih =>
    rw [insertSorted]
    split
    · exact List.Perm.refl _
    · exact (List.Perm.cons y ih).trans (List.Perm.swap x y ys)

theorem sortSlice_foldl_perm {α : Type} (less : α → α → Bool) (l : List α) :
    ∀ acc : List α,
      (l.foldl (fun sorted x => insertSorted less x sorted) acc).Perm (acc ++ l) := by
  induction l with
  | nil => intro acc; simp
  | cons x t ih =>
    intro acc
    rw [List.foldl_cons]
    refine (ih _).trans ?_
    refine ((insertSorted_perm less x acc).append_right t).trans ?_
    simp only [List.cons_append]
    exact (List.perm_middle).symm

theorem sortSlice_perm {α : Type} (less : α → α → Bool) (l : List α) :
    (sortSlice less l).Perm l := by
  have := sortSlice_foldl_perm less l []
  simpa [sortSlice] using this

theorem insertSorted_cpu (x : ProcessInfo) :
    ∀ l : List ProcessInfo, l.Pairwise (fun a b => a.CPU ≥ b.CPU) →
      (insertSorted (fun a b => decide (a.CPU > b.CPU)) x l).Pairwise
        (fun a b => a.CPU ≥ b.CPU) := by
  intro l
  induction l with
  | nil => intro _; simp [insertSorted]
  | cons y ys ih =>
    intro h
    rw [insertSorted]
    rw [List.pairwise_cons] at h
    split
    · next hlt =>
      have hxy : x.CPU > y.CPU := of_decide_eq_true hlt
      refine List.pairwise_cons.mpr ⟨?_, List.pairwise_cons.mpr h⟩
      intro b hb
      rcases List.mem_cons.mp hb with rfl | hb
      · exact le_of_lt hxy
      · exact le_trans (h.1 b hb) (le_of_lt hxy)
    · next hnlt =>
      have hyx : y.CPU ≥ x.CPU := by
        have : ¬ x.CPU > y.CPU := fun hgt => hnlt (decide_eq_true hgt)
        exact not_lt.mp this
      refine List.pairwise_cons.mpr ⟨?_, ih h.2⟩
      intro b hb
      rcases List.mem_cons.mp ((insertSorted_perm _ x ys).subset hb) with rfl | hb
      · exact hyx
      · exact h.1 b hb

theorem sortSlice_cpu (l : List ProcessInfo) :
    (sortSlice (fun a b => decide (a.CPU > b.CPU)) l).Pairwise (fun a b => a.CPU ≥ b.CPU) := by
  have h : ∀ (l acc : List ProcessInfo), acc.Pairwise (fun a b => a.CPU ≥ b.CPU) →
      (l.foldl (fun sorted x => insertSorted (fun a b => decide (a.CPU > b.CPU)) x sorted)
        acc).Pairwise (fun a b => a.CPU ≥ b.CPU) := by
    intro l
    induction l with
    | nil => intro acc hacc; exact hacc
    | cons x t ih => intro acc hacc; exact ih _ (insertSorted_cpu x acc hacc)
  exact h l [] List.Pairwise.nil

theorem processes_facts (rangeOrder : List ProcessInfo → List ProcessInfo)
    (hrange : ∀ l, (rangeOrder l).Perm l) (m : ProcessMonitor) :
    (m.Processes rangeOrder).Perm (mapValues m.processes)
    ∧ (m.Processes rangeOrder).Pairwise (fun a b => a.CPU ≥ b.CPU) :=
  ⟨(sortSlice_perm _ _).trans (hrange _), sortSlice_cpu _⟩

/-- C21: whatever order the map is ranged over in, `Processes()` is a
permutation of the records of the current process map, one per key, sorted by
CPU percent in non-increasing order, and it is empty on a new monitor. A scan
that reads the directory and returns stores the map built from the entries,
and then invokes the callback, when one is registered, exactly with
`Processes()` of that map (a sorted permutation of its records) and the
metrics of that scan; without a registered callback, or when the directory
cannot be read, nothing is invoked. Conversely whatever a callback receives is
such a list for the published map. -/
theorem processes_sorted_permutation (rangeOrder : List ProcessInfo → List ProcessInfo)
    (hrange : ∀ l, (rangeOrder l).Perm l) (m : ProcessMonitor) :
    (m.Processes rangeOrder).Perm (mapValues m.processes)
    ∧ (m.Processes rangeOrder).Pairwise (fun a b => a.CPU ≥ b.CPU)
    ∧ (m.Processes rangeOrder).length = GoMap.len m.processes
    ∧ (∀ (scanInterval historySize : Int) (protectedNames : List String),
        (NewProcessMonitor scanInterval historySize protectedNames).Processes rangeOrder = [])
    ∧ (∀ (entries : List ScanEntry) (sysMetrics : SystemMetrics) (m' : ProcessMonitor),
        m.scan (some entries) sysMetrics = Outcome.ok m' →
        m.scanObserved rangeOrder true (some entries) sysMetrics
            = Outcome.ok (m', some (m'.Processes rangeOrder, m'.SystemMetrics))
        ∧ m.scanObserved rangeOrder false (some entries) sysMetrics = Outcome.ok (m', none)
        ∧ scanEntries m entries GoMap.empty = Outcome.ok m'.processes
        ∧ (m'.Processes rangeOrder).Perm (mapValues m'.processes)
        ∧ (m'.Processes rangeOrder).Pairwise (fun a b => a.CPU ≥ b.CPU)
        ∧ (m'.Processes rangeOrder).length = GoMap.len m'.processes)
    ∧ (∀ (registered : Bool) (sysMetrics : SystemMetrics),
        m.scanObserved rangeOrder registered none sysMetrics = Outcome.ok (m, none))
    ∧ (∀ (registered : Bool) (dir : Option (List ScanEntry)) (sysMetrics : SystemMetrics)
        (m' : ProcessMonitor) (procs : List ProcessInfo) (metrics : SystemMetrics),
        m.scanObserved rangeOrder registered dir sysMetrics
          = Outcome.ok (m', some (procs, metrics)) →
        registered = true
        ∧ procs.Perm (mapValues m'.processes)
        ∧ procs.Pairwise (fun a b => a.CPU ≥ b.CPU)
        ∧ metrics = m'.metrics
        ∧ m.scan dir sysMetrics = Outcome.ok m') := by
  have hlen : ∀ m2 : ProcessMonitor,
      (m2.Processes rangeOrder).length = GoMap.len m2.processes := by
    intro m2
    rw [(processes_facts rangeOrder hrange m2).1.length_eq]
    simp [mapValues, GoMap.len, AList.keys, List.keys]
  obtain ⟨hperm, hsorted⟩ := processes_facts rangeOrder hrange m
  refine ⟨hperm, hsorted, hlen m, ?_, ?_, ?_, ?_⟩
  · intro scanInterval historySize protectedNames
    have h := (processes_facts rangeOrder hrange
      (NewProcessMonitor scanInterval historySize protectedNames)).1
    have hnil : mapValues (NewProcessMonitor scanInterval historySize protectedNames).processes
        = [] := rfl
    rw [hnil] at h
    exact List.Perm.eq_nil h
  · intro entries sysMetrics m' hscan
    obtain ⟨hperm', hsorted'⟩ := processes_facts rangeOrder hrange m'
    refine ⟨?_, ?_, ?_, hperm', hsorted', hlen m'⟩
    · simp [ProcessMonitor.scanObserved, hscan, ProcessMonitor.SystemMetrics]
    · simp [ProcessMonitor.scanObserved, hscan]
    · unfold ProcessMonitor.scan at hscan
      simp only at hscan
      cases hentries : scanEntries m entries GoMap.empty with
      | ok newProcs =>
        rw [hentries] at hscan
        simp only [Outcome.ok.injEq] at hscan
        rw [← hscan]
      | error a msg => rw [hentries] at hscan; simp at hscan
      | panic msg => rw [hentries] at hscan; simp at hscan
  · intro registered sysMetrics
    rfl
  · intro registered dir sysMetrics m' procs metrics hobs
    unfold ProcessMonitor.scanObserved at hobs
    cases dir with
    | none => simp at hobs
    | some entries =>
      simp only at hobs
      cases hscan : m.scan (some entries) sysMetrics with
      | ok m2 =>
        rw [hscan] at hobs
        cases registered with
        | false => simp at hobs
        | true =>
          simp only [if_true, Outcome.ok.injEq, Prod.mk.injEq, Option.some.injEq] at hobs
          obtain ⟨rfl, rfl, rfl⟩ := hobs
          obtain ⟨hperm', hsorted'⟩ := processes_facts rangeOrder hrange m2
          exact ⟨rfl, hperm', hsorted', rfl, rfl⟩
      | error a msg => rw [hscan] at hobs; simp at hobs
      | panic msg => rw [hscan] at hobs; simp at hobs

/-- C21 for a run time that ranges over the map in reverse order, on a scan
of two entries whose pids have records from an earlier scan two seconds
before: pid 100 with counters 100 and 100 then and 200 and 200 now (CPU 100)
and pid 200 with counters 0 and 0 then and 300 and 300 now (CPU 300). The map
is ranged over as 100, 200, and the callback receives the record of pid 200
before the record of pid 100, with the metrics of the scan. -/
theorem processes_sorted_permutation_witness :
    (∀ l : List ProcessInfo, (List.reverse l).Perm l)
    ∧ ∃ m' p q,
      ProcessMonitor.scan
        { NewProcessMonitor 2000000000 100 [] with
          prevProcs := GoMap.set (GoMap.set GoMap.empty 100
              { PID := 100, prevUtime := 100, prevStime := 100, lastScan := 1000000000 })
            200 { PID := 200, prevUtime := 0, prevStime := 0, lastScan := 1000000000 } }
        (some [{ name := "100"
                 stat := some "100 (a) S 1 0 0 0 0 0 0 0 0 0 200 200 0 0 0 0 0 0 0 0 0"
                 now := 3000000000
                 statAgain := some "100 (a) S 1 0 0 0 0 0 0 0 0 0 200 200 0 0 0 0 0 0 0 0 0"
                 nowAgain := 3000000000 },
               { name := "200"
                 stat := some "200 (b) S 1 0 0 0 0 0 0 0 0 0 300 300 0 0 0 0 0 0 0 0 0"
                 now := 3000000000
                 statAgain := some "200 (b) S 1 0 0 0 0 0 0 0 0 0 300 300 0 0 0 0 0 0 0 0 0"
                 nowAgain := 3000000000 }]) {} = Outcome.ok m'
      ∧ mapValues m'.processes = [q, p]
      ∧ p.CPU = 100 ∧ q.CPU = 300
      ∧ ProcessMonitor.scanObserved List.reverse true
          { NewProcessMonitor 2000000000 100 [] with
            prevProcs := GoMap.set (GoMap.set GoMap.empty 100
                { PID := 100, prevUtime := 100, prevStime := 100, lastScan := 1000000000 })
              200 { PID := 200, prevUtime := 0, prevStime := 0, lastScan := 1000000000 } }
          (some [{ name := "100"
                   stat := some "100 (a) S 1 0 0 0 0 0 0 0 0 0 200 200 0 0 0 0 0 0 0 0 0"
                   now := 3000000000
                   statAgain := some "100 (a) S 1 0 0 0 0 0 0 0 0 0 200 200 0 0 0 0 0 0 0 0 0"
                   nowAgain := 3000000000 },
                 { name := "200"
                   stat := some "200 (b) S 1 0 0 0 0 0 0 0 0 0 300 300 0 0 0 0 0 0 0 0 0"
                   now := 3000000000
                   statAgain := some "200 (b) S 1 0 0 0 0 0 0 0 0 0 300 300 0 0 0 0 0 0 0 0 0"
                   nowAgain := 3000000000 }]) {} = Outcome.ok (m', some ([q, p], m'.SystemMetrics)) := by
  obtain ⟨m', p, q, proc1, proc2, p', q', hscan, hvals, -, -, hp', hq', hpc, hqc,
      hpu, hps, hqu, hqs⟩ :
    ∃ m' p q proc1 proc2 p' q',
    ProcessMonitor.scan
      { NewProcessMonitor 2000000000 100 [] with
        prevProcs := GoMap.set (GoMap.set GoMap.empty 100
            { PID := 100, prevUtime := 100, prevStime := 100, lastScan := 1000000000 })
          200 { PID := 200, prevUtime := 0, prevStime := 0, lastScan := 1000000000 } }
      (some [{ name := "100"
               stat := some "100 (a) S 1 0 0 0 0 0 0 0 0 0 200 200 0 0 0 0 0 0 0 0 0"
               now := 3000000000
               statAgain := some "100 (a) S 1 0 0 0 0 0 0 0 0 0 200 200 0 0 0 0 0 0 0 0 0"
               nowAgain := 3000000000 },
             { name := "200"
               stat := some "200 (b) S 1 0 0 0 0 0 0 0 0 0 300 300 0 0 0 0 0 0 0 0 0"
               now := 3000000000
               statAgain := some "200 (b) S 1 0 0 0 0 0 0 0 0 0 300 300 0 0 0 0 0 0 0 0 0"
               nowAgain := 3000000000 }]) {} = Outcome.ok m'
    ∧ mapValues m'.processes = [q, p]
    ∧ parseProcessInfo 100
        { name := "100"
          stat := some "100 (a) S 1 0 0 0 0 0 0 0 0 0 200 200 0 0 0 0 0 0 0 0 0"
          now := 3000000000 } = Outcome.ok proc1
    ∧ parseProcessInfo 200
        { name := "200"
          stat := some "200 (b) S 1 0 0 0 0 0 0 0 0 0 300 300 0 0 0 0 0 0 0 0 0"
          now := 3000000000 } = Outcome.ok proc2
    ∧ ProcessInfo.parseStat
        { proc1 with prevUtime := 100, prevStime := 100, lastScan := 1000000000 }
        (some "100 (a) S 1 0 0 0 0 0 0 0 0 0 200 200 0 0 0 0 0 0 0 0 0") none 3000000000
        = Outcome.ok p'
    ∧ ProcessInfo.parseStat
        { proc2 with prevUtime := 0, prevStime := 0, lastScan := 1000000000 }
        (some "200 (b) S 1 0 0 0 0 0 0 0 0 0 300 300 0 0 0 0 0 0 0 0 0") none 3000000000
        = Outcome.ok q'
    ∧ p.CPU = p'.CPU ∧ q.CPU = q'.CPU
    ∧ p'.prevUtime = 200 ∧ p'.prevStime = 200 ∧ q'.prevUtime = 300 ∧ q'.prevStime = 300 :=
    ⟨_, _, _, _, _, _, _, rfl, rfl, rfl, rfl, rfl, rfl, rfl, rfl, rfl, rfl, rfl, rfl⟩
  have h1 := (parseStat_cpu_facts _ p' _ _ _ hp').1
    (by show (1000000000 : Int) ≠ 0; decide)
    (by show (3000000000 : Int) - 1000000000 > 0; decide)
  have h2 := (parseStat_cpu_facts _ q' _ _ _ hq').1
    (by show (1000000000 : Int) ≠ 0; decide)
    (by show (3000000000 : Int) - 1000000000 > 0; decide)
  have hd1 : subUint64 200 100 = 100 := by decide
  have hd2 : subUint64 300 0 = 300 := by decide
  have hpcpu : p.CPU = 100 := by
    rw [hpc, h1, hpu, hps]
    simp only [hd1]
    norm_num
  have hqcpu : q.CPU = 300 := by
    rw [hqc, h2, hqu, hqs]
    simp only [hd2]
    norm_num
  have hsorted : m'.Processes List.reverse = [q, p] := by
    simp only [ProcessMonitor.Processes, hvals, sortSlice, insertSorted, List.reverse_cons,
      List.reverse_nil, List.nil_append, List.singleton_append, List.foldl_cons, List.foldl_nil,
      hpcpu, hqcpu]
    norm_num
  have hcall := (processes_sorted_permutation List.reverse List.reverse_perm
    { NewProcessMonitor 2000000000 100 [] with
      prevProcs := GoMap.set (GoMap.set GoMap.empty 100
          { PID := 100, prevUtime := 100, prevStime := 100, lastScan := 1000000000 })
        200 { PID := 200, prevUtime := 0, prevStime := 0, lastScan := 1000000000 } }).2.2.2.2.1 _ _ m' hscan
  rw [hsorted] at hcall
  exact ⟨List.reverse_perm, m', p, q, hscan, hvals, hpcpu, hqcpu, hcall.1⟩

end monitor

/-! ## Dependency resolver: breadth-first order -/

namespace process

open monitor

theorem levelInv_head (dt : DependencyTree) (pid : Int) (e : Int × Nat)
    (lrest : List (Int × Nat)) (visited : GoMap Int Bool) (d : Nat)
    (h : LevelInv dt pid (e :: lrest) visited d) :
    LevelInv dt pid (e :: lrest) visited e.2 := by
  obtain ⟨hsorted, hrange, hchain, hbelow, hlevel, hclosed⟩ := h
  have hhead := hrange e (List.mem_cons_self _ _)
  have hmin : ∀ e' ∈ e :: lrest, e.2 ≤ e'.2 := by
    intro e' he'
    rcases List.mem_cons.mp he' with rfl | he'
    · exact le_refl _
    · exact (List.pairwise_cons.mp hsorted).1 e' he'
  have hbelow' : ∀ x n, dt.ChainTo pid n x → n < e.2 → GoMap.get visited x false = true := by
    intro x n hx hn
    by_cases hnd : n < d
    · exact hbelow x n hx hnd
    · have hnd' : n = d := by omega
      subst hnd'
      rcases hlevel x hx with hv | hq
      · exact hv
      · have := hmin _ hq
        simp only at this
        omega
  refine ⟨hsorted, ?_, hchain, hbelow', ?_, hclosed⟩
  · intro e' he'
    have := hrange e' he'
    have := hmin e' he'
    omega
  · intro x hx
    by_cases hed : e.2 = d
    · rw [hed] at hx ⊢
      exact hlevel x hx
    · have hed' : e.2 = d + 1 := by omega
      rw [hed'] at hx ⊢
      obtain ⟨y, hy, hxy⟩ := hx
      have hvy := hbelow' y d hy (by omega)
      rcases hclosed y hvy x hxy with hv | hq
      · exact Or.inl hv
      · right
        obtain ⟨e', he', rfl⟩ := List.mem_map.mp hq
        have h1 := hrange e' he'
        have h2 := hmin e' he'
        have : e'.2 = d + 1 := by omega
        rw [← this]
        exact he'

theorem levelInv_skip (dt : DependencyTree) (pid : Int) (e : Int × Nat)
    (lrest : List (Int × Nat)) (visited : GoMap Int Bool)
    (h : LevelInv dt pid (e :: lrest) visited e.2)
    (hv : GoMap.get visited e.1 false = true) :
    LevelInv dt pid lrest visited e.2 := by
  obtain ⟨hsorted, hrange, hchain, hbelow, hlevel, hclosed⟩ := h
  refine ⟨(List.pairwise_cons.mp hsorted).2, fun e' he' => hrange e' (List.mem_cons_of_mem _ he'),
    fun e' he' => hchain e' (List.mem_cons_of_mem _ he'), hbelow, ?_, ?_⟩
  · intro x hx
    rcases hlevel x hx with h1 | h1
    · exact Or.inl h1
    · rcases List.mem_cons.mp h1 with h2 | h2
      · left
        have : x = e.1 := by rw [← h2]
        rw [this]
        exact hv
      · exact Or.inr h2
  · intro y hy x hx
    rcases hclosed y hy x hx with h1 | h1
    · exact Or.inl h1
    · rw [List.map_cons] at h1
      rcases List.mem_cons.mp h1 with h2 | h2
      · left; rw [h2]; exact hv
      · exact Or.inr h2

theorem levelInv_expand (dt : DependencyTree) (pid : Int) (e : Int × Nat)
    (lrest : List (Int × Nat)) (visited : GoMap Int Bool)
    (h : LevelInv dt pid (e :: lrest) visited e.2)
    (hv : GoMap.get visited e.1 false = false) :
    LevelInv dt pid (lrest ++ (dt.ChildrenOf e.1).map (fun c => (c, e.2 + 1)))
        (GoMap.set visited e.1 true) e.2
    ∧ ∀ n, dt.ChainTo pid n e.1 → e.2 ≤ n := by
  obtain ⟨hsorted, hrange, hchain, hbelow, hlevel, hclosed⟩ := h
  have hvis : ∀ x, GoMap.get visited x false = true →
      GoMap.get (GoMap.set visited e.1 true) x false = true := by
    intro x hx
    rw [GoMap.get_set]
    split
    · rfl
    · exact hx
  have hself : GoMap.get (GoMap.set visited e.1 true) e.1 false = true := by
    rw [GoMap.get_set, if_pos rfl]
  constructor
  · refine ⟨?_, ?_, ?_, ?_, ?_, ?_⟩
    · rw [List.pairwise_append]
      refine ⟨(List.pairwise_cons.mp hsorted).2, ?_, ?_⟩
      · rw [List.pairwise_map]
        exact List.pairwise_of_forall (fun _ _ => le_refl _)
      · intro a ha b hb
        obtain ⟨c, -, rfl⟩ := List.mem_map.mp hb
        exact (hrange a (List.mem_cons_of_mem _ ha)).2
    · intro e' he'
      rcases List.mem_append.mp he' with h1 | h1
      · exact hrange e' (List.mem_cons_of_mem _ h1)
      · obtain ⟨c, -, rfl⟩ := List.mem_map.mp h1
        exact ⟨Nat.le_succ _, le_refl _⟩
    · intro e' he'
      rcases List.mem_append.mp he' with h1 | h1
      · exact hchain e' (List.mem_cons_of_mem _ h1)
      · obtain ⟨c, hc, rfl⟩ := List.mem_map.mp h1
        exact ⟨e.1, hchain e (List.mem_cons_self _ _), hc⟩
    · intro x n hx hn
      exact hvis x (hbelow x n hx hn)
    · intro x hx
      rcases hlevel x hx with h1 | h1
      · exact Or.inl (hvis x h1)
      · rcases List.mem_cons.mp h1 with h2 | h2
        · left
          have : x = e.1 := by rw [← h2]
          rw [this]
          exact hself
        · exact Or.inr (List.mem_append_left _ h2)
    · intro y hy x hx
      rw [GoMap.get_set] at hy
      by_cases hye : y = e.1
      · right
        rw [hye] at hx
        rw [List.map_append, List.mem_append]
        right
        rw [List.map_map]
        exact List.mem_map.mpr ⟨x, hx, rfl⟩
      · rw [if_neg hye] at hy
        rcases hclosed y hy x hx with h1 | h1
        · exact Or.inl (hvis x h1)
        · rw [List.map_cons] at h1
          rcases List.mem_cons.mp h1 with h2 | h2
          · left; rw [h2]; exact hself
          · right
            rw [List.map_append]
            exact List.mem_append_left _ h2
  · intro n hn
    by_contra hlt
    have := hbelow e.1 n hn (by omega)
    rw [hv] at this
    exact absurd this (by simp)

/-- The traversal loop under the level invariant: what it adds to `result`
comes with chain lengths in non-decreasing order, each the length of the
shortest chain to its pid. -/
theorem descendantsLoop_levels (dt : DependencyTree) (pid : Int) :
    ∀ (queue : List Int) (visited : GoMap Int Bool) (result : List Int)
      (lq : List (Int × Nat)) (d : Nat),
      lq.map Prod.fst = queue → LevelInv dt pid lq visited d →
      ∃ lnew : List (Int × Nat),
        descendantsLoop dt.children queue visited result = result ++ lnew.map Prod.fst
        ∧ lnew.Pairwise (fun a b => a.2 ≤ b.2)
        ∧ ∀ e ∈ lnew, d ≤ e.2 ∧ dt.Distance pid e.1 e.2 := by
  intro queue visited result
  induction queue, visited, result using descendantsLoop.induct dt.children with
  | case1 visited result =>
    intro lq d _ _
    exact ⟨[], by rw [descendantsLoop]; simp, List.Pairwise.nil, by simp⟩
  | case2 child queue visited result hv ih =>
    intro lq d hlq hinv
    cases lq with
    | nil => simp at hlq
    | cons e lrest =>
      rw [List.map_cons, List.cons.injEq] at hlq
      obtain ⟨he, hrest⟩ := hlq
      subst he
      have hd : d ≤ e.2 := (hinv.2.1 e (List.mem_cons_self _ _)).1
      have hinv1 := levelInv_head dt pid e lrest visited d hinv
      have hinv2 := levelInv_skip dt pid e lrest visited hinv1 hv
      obtain ⟨lnew, heq, hsorted, hall⟩ := ih lrest e.2 hrest hinv2
      refine ⟨lnew, ?_, hsorted, fun e' he' => ⟨le_trans hd (hall e' he').1, (hall e' he').2⟩⟩
      rw [descendantsLoop]
      split
      · exact heq
      · next h => rw [hv] at h; exact absurd h (by simp)
  | case3 child queue visited result hv ih =>
    intro lq d hlq hinv
    cases lq with
    | nil => simp at hlq
    | cons e lrest =>
      rw [List.map_cons, List.cons.injEq] at hlq
      obtain ⟨he, hrest⟩ := hlq
      subst he
      have hd : d ≤ e.2 := (hinv.2.1 e (List.mem_cons_self _ _)).1
      have hinv1 := levelInv_head dt pid e lrest visited d hinv
      obtain ⟨hinv2, hmin⟩ := levelInv_expand dt pid e lrest visited hinv1 hv
      have hchain : dt.ChainTo pid e.2 e.1 := hinv1.2.2.1 e (List.mem_cons_self _ _)
      have hq : (lrest ++ (dt.ChildrenOf e.1).map (fun c => (c, e.2 + 1))).map Prod.fst
          = queue ++ GoMap.get dt.children e.1 [] := by
        rw [List.map_append, hrest, List.map_map]
        have : (Prod.fst ∘ fun c : Int => (c, e.2 + 1)) = id := rfl
        rw [this, List.map_id]
        rfl
      obtain ⟨lnew, heq, hsorted, hall⟩ := ih _ e.2 hq hinv2
      refine ⟨e :: lnew, ?_, ?_, ?_⟩
      · rw [descendantsLoop]
        split
        · next h => rw [hv] at h; exact absurd h (by simp)
        · rw [heq, List.map_cons]
          simp
      · exact List.pairwise_cons.mpr ⟨fun e' he' => (hall e' he').1, hsorted⟩
      · intro e' he'
        rcases List.mem_cons.mp he' with rfl | he'
        · exact ⟨hd, hchain, hmin⟩
        · exact ⟨le_trans hd (hall e' he').1, (hall e' he').2⟩

theorem allDescendants_levels (dt : DependencyTree) (pid : Int) :
    ∃ lnew : List (Int × Nat),
      dt.AllDescendants pid = lnew.map Prod.fst
      ∧ lnew.Pairwise (fun a b => a.2 ≤ b.2)
      ∧ ∀ e ∈ lnew, dt.Distance pid e.1 e.2 := by
  have hvis : ∀ x, GoMap.get (GoMap.set (GoMap.empty : GoMap Int Bool) pid true) x false = true
      ↔ x = pid := by
    intro x
    rw [GoMap.get_set]
    by_cases h : x = pid
    · simp [h]
    · simp [h, GoMap.get, GoMap.empty]
  have hinv : LevelInv dt pid ((dt.ChildrenOf pid).map (fun c => (c, 1)))
      (GoMap.set GoMap.empty pid true) 1 := by
    refine ⟨?_, ?_, ?_, ?_, ?_, ?_⟩
    · rw [List.pairwise_map]
      exact List.pairwise_of_forall (fun _ _ => le_refl _)
    · intro e he
      obtain ⟨c, -, rfl⟩ := List.mem_map.mp he
      exact ⟨le_refl _, Nat.le_succ _⟩
    · intro e he
      obtain ⟨c, hc, rfl⟩ := List.mem_map.mp he
      exact ⟨pid, rfl, hc⟩
    · intro x n hx hn
      have hn0 : n = 0 := by omega
      subst hn0
      exact (hvis x).mpr hx
    · intro x hx
      obtain ⟨y, hy, hxy⟩ := hx
      have hyp : y = pid := hy
      rw [hyp] at hxy
      exact Or.inr (List.mem_map.mpr ⟨x, hxy, rfl⟩)
    · intro y hy x hx
      rw [(hvis y).mp hy] at hx
      right
      rw [List.map_map]
      exact List.mem_map.mpr ⟨x, hx, rfl⟩
  have hq : ((dt.ChildrenOf pid).map (fun c => (c, 1))).map Prod.fst
      = GoMap.get dt.children pid [] := by
    rw [List.map_map]
    have : (Prod.fst ∘ fun c : Int => (c, 1)) = id := rfl
    rw [this, List.map_id]
    rfl
  obtain ⟨lnew, heq, hsorted, hall⟩ := descendantsLoop_levels dt pid _ _ [] _ 1 hq hinv
  refine ⟨lnew, ?_, hsorted, fun e he => (hall e he).2⟩
  unfold DependencyTree.AllDescendants
  rw [heq, List.nil_append]

/-- C24: on the tree built from any process list, if `q1` occurs before `q2`
in `AllDescendants(pid)`, then the shortest chain of parent-to-child links
from `pid` to `q1` is at most as long as the shortest chain from `pid` to
`q2`. -/
theorem allDescendants_breadth_first (procs : List ProcessInfo) (pid q1 q2 : Int)
    (h : [q1, q2].Sublist ((BuildDependencyTree procs).AllDescendants pid)) :
    ∃ d1 d2, (BuildDependencyTree procs).Distance pid q1 d1
      ∧ (BuildDependencyTree procs).Distance pid q2 d2 ∧ d1 ≤ d2 := by
  obtain ⟨lnew, heq, hsorted, hall⟩ := allDescendants_levels (BuildDependencyTree procs) pid
  rw [heq] at h
  obtain ⟨l', hl', hmap⟩ := List.sublist_map_iff.mp h
  cases l' with
  | nil => simp at hmap
  | cons e1 t =>
    cases t with
    | nil => simp at hmap
    | cons e2 t' =>
      cases t' with
      | cons e3 t'' => simp at hmap
      | nil =>
        simp only [List.map_cons, List.map_nil, List.cons.injEq, and_true] at hmap
        obtain ⟨h1, h2⟩ := hmap
        have hpair := hsorted.sublist hl'
        have hle : e1.2 ≤ e2.2 := (List.pairwise_cons.mp hpair).1 e2 (List.mem_cons_self _ _)
        have hm1 : e1 ∈ lnew := hl'.subset (List.mem_cons_self _ _)
        have hm2 : e2 ∈ lnew := hl'.subset (List.mem_cons_of_mem _ (List.mem_cons_self _ _))
        exact ⟨e1.2, e2.2, h1 ▸ hall e1 hm1, h2 ▸ hall e2 hm2, hle⟩

/-- C24 on the tree 10 → 20, 30 and 20 → 40: the list from 10 is
`[20, 30, 40]`, in which 20 (one link from 10) occurs before 40 (two links). -/
theorem allDescendants_breadth_first_witness :
    [20, 40].Sublist
        ((BuildDependencyTree
          [{ PID := 20, PPid := 10 }, { PID := 30, PPid := 10 },
            { PID := 40, PPid := 20 }]).AllDescendants 10)
    ∧ ∃ d1 d2,
        (BuildDependencyTree
          [{ PID := 20, PPid := 10 }, { PID := 30, PPid := 10 },
            { PID := 40, PPid := 20 }]).Distance 10 20 d1
        ∧ (BuildDependencyTree
          [{ PID := 20, PPid := 10 }, { PID := 30, PPid := 10 },
            { PID := 40, PPid := 20 }]).Distance 10 40 d2
        ∧ d1 ≤ d2 :=
  have heq : (BuildDependencyTree
      [{ PID := 20, PPid := 10 }, { PID := 30, PPid := 10 },
        { PID := 40, PPid := 20 }]).AllDescendants 10 = [20, 30, 40] :=
    descendantsLoop_of_fuel _ 8 _ _ _ _ (by decide)
  have hsub : [20, 40].Sublist
      ((BuildDependencyTree
        [{ PID := 20, PPid := 10 }, { PID := 30, PPid := 10 },
          { PID := 40, PPid := 20 }]).AllDescendants 10) := by
    rw [heq]
    decide
  ⟨hsub, allDescendants_breadth_first _ 10 20 40 hsub⟩

end process
